import Mathlib

/-!
Verification of the centered-heap program (`src/main.rs`).

The program is shallowly embedded: element arrays (`&mut [i32]`) become
`List Int` with total accessors (`lget` with default `0`, `lset`, `lswap`);
all accesses made by the modelled operations are in bounds whenever the
operations' preconditions hold, so the defaults never matter there.
`usize` values become `Nat`.  The source's out-of-range sentinel
`usize::MAX` (which is produced by `get_left_child` / `get_right_child`
exactly when the child index formula would leave `[0, usize::MAX)`, and is
consumed by the `lo <= ch && ch < hi` range checks, since `hi <= len <=
usize::MAX` in any Rust execution) is modelled by `Option`: `none` is the
sentinel.  Debug-only checks (`debug_assert!`, `#[cfg(debug_assertions)]`)
are omitted: the model follows release semantics.  A `panic!` / failed
`assert!` / out-of-bounds slice index is modelled by `Option`-valued
results where a claim depends on it (`is_sorted`, `merge`).
-/

/-- The instrumentation counter (`RealCounter` in the source):
`compares` is bumped by every `bt`/`better_than` and every candidate
comparison in `MC::better`, `swaps` by every counted `swap`. -/
structure Cnt where
  compares : Nat
  swaps : Nat
deriving DecidableEq, Repr

/-- `count_compare` of the source. -/
def Cnt.cmp (c : Cnt) : Cnt := { c with compares := c.compares + 1 }

/-- `count_swap` of the source. -/
def Cnt.swp (c : Cnt) : Cnt := { c with swaps := c.swaps + 1 }

/-- Total read of `a[i]` (in-bounds wherever the source reads). -/
def lget (a : List Int) (i : Nat) : Int := a.getD i 0

/-- Total write of `a[i] = v` (in-bounds wherever the source writes). -/
def lset (a : List Int) (i : Nat) (v : Int) : List Int := a.set i v

/-- `a.swap(i, j)` of Rust slices. -/
def lswap (a : List Int) (i j : Nat) : List Int :=
  lset (lset a i (lget a j)) j (lget a i)

/-!  Basic facts about `lget` / `lset` / `lswap`. -/

theorem length_lset (a : List Int) (i : Nat) (v : Int) :
    (lset a i v).length = a.length := by
  simp [lset]

theorem length_lswap (a : List Int) (i j : Nat) :
    (lswap a i j).length = a.length := by
  simp [lswap, lset]

theorem lget_lset_eq (a : List Int) (i : Nat) (v : Int) (h : i < a.length) :
    lget (lset a i v) i = v := by
  simp [lget, lset, List.getD, List.getElem?_set_self h]

theorem lget_lset_ne (a : List Int) (i j : Nat) (v : Int) (h : j ≠ i) :
    lget (lset a i v) j = lget a j := by
  simp [lget, lset, List.getD, List.getElem?_set_ne (fun hh => h hh.symm)]

theorem lget_lswap_left (a : List Int) (i j : Nat)
    (hi : i < a.length) (hj : j < a.length) :
    lget (lswap a i j) i = lget a j := by
  unfold lswap
  by_cases h : i = j
  · subst h
    rw [lget_lset_eq _ _ _ (by simpa [length_lset] using hi)]
  · rw [lget_lset_ne _ _ _ _ h, lget_lset_eq _ _ _ hi]

theorem lget_lswap_right (a : List Int) (i j : Nat)
    (hj : j < a.length) :
    lget (lswap a i j) j = lget a i := by
  unfold lswap
  rw [lget_lset_eq _ _ _ (by simpa [length_lset] using hj)]

theorem lget_lswap_ne (a : List Int) (i j k : Nat) (h1 : k ≠ i) (h2 : k ≠ j) :
    lget (lswap a i j) k = lget a k := by
  unfold lswap
  rw [lget_lset_ne _ _ _ _ h2, lget_lset_ne _ _ _ _ h1]

theorem multiset_lset (a : List Int) (i : Nat) (v : Int) (h : i < a.length) :
    ((lset a i v : List Int) : Multiset Int) + {lget a i} =
      (a : Multiset Int) + {v} := by
  induction a generalizing i with
  | nil => simp at h
  | cons x xs ih =>
    cases i with
    | zero =>
      simp only [lset, List.set_cons_zero, lget, List.getD_cons_zero]
      rw [add_comm, add_comm ((x :: xs : List Int) : Multiset Int) {v},
        Multiset.singleton_add, Multiset.singleton_add, ← Multiset.cons_coe,
        ← Multiset.cons_coe]
      exact Multiset.cons_swap x v (xs : Multiset Int)
    | succ n =>
      have hn : n < xs.length := by simpa using h
      have ih' := ih n hn
      simp only [lset, lget] at ih'
      simp only [lset, List.set_cons_succ, lget, List.getD_cons_succ,
        ← Multiset.cons_coe, Multiset.cons_add]
      rw [ih']

theorem multiset_lswap (a : List Int) (i j : Nat)
    (hi : i < a.length) (hj : j < a.length) :
    ((lswap a i j : List Int) : Multiset Int) = (a : Multiset Int) := by
  unfold lswap
  have h1 := multiset_lset a i (lget a j) hi
  have hj' : j < (lset a i (lget a j)).length := by simpa [length_lset] using hj
  have h2 := multiset_lset (lset a i (lget a j)) j (lget a i) hj'
  by_cases hij : i = j
  · subst hij
    have hv : lget (lset a i (lget a i)) i = lget a i := lget_lset_eq _ _ _ hi
    rw [hv] at h2
    have := h2.trans h1
    exact add_right_cancel this
  · have hv : lget (lset a i (lget a j)) j = lget a j :=
      lget_lset_ne _ _ _ _ (fun hh => hij hh.symm)
    rw [hv] at h2
    have h3 : ((lset (lset a i (lget a j)) j (lget a i) : List Int) : Multiset Int)
        + {lget a j} = (a : Multiset Int) + {lget a j} := by
      calc ((lset (lset a i (lget a j)) j (lget a i) : List Int) : Multiset Int) + {lget a j}
          = ((lset a i (lget a j) : List Int) : Multiset Int) + {lget a i} := h2
        _ = (a : Multiset Int) + {lget a j} := h1
    exact add_right_cancel h3

/-!  Index arithmetic of the centered heap (source lines 20-85).
The source returns `usize::MAX` for "known out of bounds"; we return
`none`. -/

/-- `get_left_child` of the source: `c - 1` at the center, twice the
distance from the center elsewhere; `none` is the source's `usize::MAX`. -/
def get_left_child (x c : Nat) : Option Nat :=
  if x = c then
    if c = 0 then none else some (c - 1)
  else if x > c then
    some (c + (x - c) * 2)
  else
    -- the source binds `o = (c - x) * 2`; it is inlined here
    if (c - x) * 2 > c then none else some (c - (c - x) * 2)

/-- `get_right_child` of the source. -/
def get_right_child (x c : Nat) : Option Nat :=
  if x = c then
    some (c + 1)
  else if x > c then
    some ((x - c) * 2 + 1 + c)
  else
    -- the source binds `o = (c - x) * 2 + 1`; it is inlined here
    if (c - x) * 2 + 1 > c then none else some (c - ((c - x) * 2 + 1))

/-- `get_parent` of the source: half the distance from the center,
rounded down (the source `debug_assert!`s `x != c`). -/
def get_parent (x c : Nat) : Nat :=
  if x > c then c + (x - c) / 2 else c - (c - x) / 2

/-- `get_recenter_limit` of the source: half the distance from the
center, rounded up. -/
def get_recenter_limit (x c : Nat) : Nat :=
  if x > c then (x - c + 1) / 2 + c else c - (c - x + 1) / 2

/-- Distance of a node from the center. -/
def cdist (c x : Nat) : Nat := if c ≤ x then x - c else c - x

theorem cdist_parent_lt (x c : Nat) (h : x ≠ c) :
    cdist c (get_parent x c) < cdist c x := by
  unfold cdist get_parent
  rcases Nat.lt_or_ge c x with hx | hx
  · rw [if_pos hx]
    have h1 : c ≤ c + (x - c) / 2 := Nat.le_add_right _ _
    rw [if_pos h1, if_pos (Nat.le_of_lt hx)]
    omega
  · have hxc : x < c := lt_of_le_of_ne hx h
    rw [if_neg (Nat.not_lt_of_ge hx)]
    rw [if_neg (by omega : ¬ c ≤ x)]
    by_cases h2 : c ≤ c - (c - x) / 2
    · rw [if_pos h2]
      omega
    · rw [if_neg h2]
      omega

/-- C8 arithmetic, left case: a real left child's parent is the node
itself. -/
theorem parent_left_child (x c ch : Nat) (hx : x ≠ c)
    (h : get_left_child x c = some ch) :
    get_parent ch c = x := by
  unfold get_left_child at h
  unfold get_parent
  rcases Nat.lt_trichotomy x c with hlt | heq | hgt
  · simp only [if_neg hx, gt_iff_lt, if_neg (Nat.not_lt_of_ge (Nat.le_of_lt hlt))] at h
    split at h
    · exact absurd h (by simp)
    · simp only [Option.some.injEq] at h
      rw [if_neg (by omega : ¬ ch > c)]
      omega
  · exact absurd heq hx
  · simp only [if_neg hx, gt_iff_lt, if_pos hgt, Option.some.injEq] at h
    rw [if_pos (by omega : ch > c)]
    omega

/-- C8 arithmetic, right case. -/
theorem parent_right_child (x c ch : Nat) (hx : x ≠ c)
    (h : get_right_child x c = some ch) :
    get_parent ch c = x := by
  unfold get_right_child at h
  unfold get_parent
  rcases Nat.lt_trichotomy x c with hlt | heq | hgt
  · simp only [if_neg hx, gt_iff_lt, if_neg (Nat.not_lt_of_ge (Nat.le_of_lt hlt))] at h
    split at h
    · exact absurd h (by simp)
    · simp only [Option.some.injEq] at h
      rw [if_neg (by omega : ¬ ch > c)]
      omega
  · exact absurd heq hx
  · simp only [if_neg hx, gt_iff_lt, if_pos hgt, Option.some.injEq] at h
    rw [if_pos (by omega : ch > c)]
    omega

/-- C8: for every center `c` and node `x ≠ c`, if `left_child(x, c)`
(resp. `right_child(x, c)`) is not the out-of-range sentinel, then
`parent` applied to that child with the same center returns `x`. -/
theorem child_parent_roundtrip (x c : Nat) (hx : x ≠ c) :
    (∀ ch, get_left_child x c = some ch → get_parent ch c = x) ∧
    (∀ ch, get_right_child x c = some ch → get_parent ch c = x) :=
  ⟨fun ch h => parent_left_child x c ch hx h,
   fun ch h => parent_right_child x c ch hx h⟩

/-- Witness for C8 at `x = 5`, `c = 3`: children are `7` and `8`, both
map back to `5` under `get_parent`. -/
theorem child_parent_roundtrip_witness :
    (5 : Nat) ≠ 3 ∧
      ((∀ ch, get_left_child 5 3 = some ch → get_parent ch 3 = 5) ∧
       (∀ ch, get_right_child 5 3 = some ch → get_parent ch 3 = 5)) :=
  ⟨by decide, child_parent_roundtrip 5 3 (by decide)⟩

/-- C9 counterexample: at `x = 2`, `c = 3` both children are in range
(`left_child = 1`, `right_child = 0`) yet `left_child < right_child`
fails. -/
theorem left_lt_right_child_cex :
    get_left_child 2 3 = some 1 ∧ get_right_child 2 3 = some 0 ∧
      ¬ (1 : Nat) < 0 := by
  refine ⟨by decide, by decide, by decide⟩

/-- C9 amended: when both children are real (non-sentinel) they are never
equal; `left_child < right_child` holds for `x ≥ c`, and the order is
reversed (`right_child < left_child`) for `x < c`. -/
theorem children_distinct (x c lc rc : Nat)
    (hl : get_left_child x c = some lc) (hr : get_right_child x c = some rc) :
    lc ≠ rc ∧ (c ≤ x → lc < rc) ∧ (x < c → rc < lc) := by
  unfold get_left_child at hl
  unfold get_right_child at hr
  rcases Nat.lt_trichotomy x c with hlt | heq | hgt
  · have hne : x ≠ c := Nat.ne_of_lt hlt
    have hngt : ¬ x > c := Nat.not_lt_of_ge (Nat.le_of_lt hlt)
    simp only [if_neg hne, gt_iff_lt, if_neg hngt] at hl hr
    split at hl
    · exact absurd hl (by simp)
    · split at hr
      · exact absurd hr (by simp)
      · simp only [Option.some.injEq] at hl hr
        constructor
        · omega
        · constructor
          · intro hcx
            omega
          · intro _
            omega
  · subst heq
    rw [if_pos rfl] at hl hr
    simp only [Option.some.injEq] at hr
    by_cases hc : x = 0
    · rw [if_pos hc] at hl
      exact absurd hl (by simp)
    · rw [if_neg hc] at hl
      simp only [Option.some.injEq] at hl
      constructor
      · omega
      · constructor
        · intro _
          omega
        · intro hlt
          omega
  · have hne : x ≠ c := Nat.ne_of_gt hgt
    simp only [if_neg hne, gt_iff_lt, if_pos hgt, Option.some.injEq] at hl hr
    constructor
    · omega
    · constructor
      · intro _
        omega
      · intro hc
        omega

/-- Witness for the amended C9 at `x = 2`, `c = 3` (the counterexample
point): children `1` and `0` are distinct and `right < left` there. -/
theorem children_distinct_witness :
    (1 : Nat) ≠ 0 ∧ ((3 : Nat) ≤ 2 → (1 : Nat) < 0) ∧ ((2 : Nat) < 3 → (0 : Nat) < 1) :=
  children_distinct 2 3 1 0 (by decide) (by decide)

/-!  Geometry of the two-sided tree: sides, intervals, and the
descendant relation induced by `get_parent`. -/

theorem parent_right_range (j c : Nat) (h : c < j) :
    c ≤ get_parent j c ∧ get_parent j c < j := by
  unfold get_parent
  rw [if_pos h]
  omega

theorem parent_left_range (j c : Nat) (h : j < c) :
    j < get_parent j c ∧ get_parent j c ≤ c := by
  unfold get_parent
  rw [if_neg (by omega : ¬ j > c)]
  omega

theorem left_child_ne_c (x c v : Nat) (h : get_left_child x c = some v) :
    v ≠ c := by
  unfold get_left_child at h
  rcases Nat.lt_trichotomy x c with hlt | heq | hgt
  · rw [if_neg (Nat.ne_of_lt hlt), if_neg (by omega : ¬ x > c)] at h
    split at h
    · exact absurd h (by simp)
    · simp only [Option.some.injEq] at h
      omega
  · subst heq
    rw [if_pos rfl] at h
    split at h
    · exact absurd h (by simp)
    · simp only [Option.some.injEq] at h
      omega
  · rw [if_neg (Nat.ne_of_gt hgt), if_pos hgt] at h
    simp only [Option.some.injEq] at h
    omega

theorem right_child_ne_c (x c v : Nat) (h : get_right_child x c = some v) :
    v ≠ c := by
  unfold get_right_child at h
  rcases Nat.lt_trichotomy x c with hlt | heq | hgt
  · rw [if_neg (Nat.ne_of_lt hlt), if_neg (by omega : ¬ x > c)] at h
    split at h
    · exact absurd h (by simp)
    · simp only [Option.some.injEq] at h
      omega
  · subst heq
    rw [if_pos rfl] at h
    simp only [Option.some.injEq] at h
    omega
  · rw [if_neg (Nat.ne_of_gt hgt), if_pos hgt] at h
    simp only [Option.some.injEq] at h
    omega

theorem left_child_parent (x c v : Nat) (h : get_left_child x c = some v) :
    get_parent v c = x := by
  by_cases hx : x = c
  · subst hx
    unfold get_left_child at h
    rw [if_pos rfl] at h
    split at h
    · exact absurd h (by simp)
    · simp only [Option.some.injEq] at h
      unfold get_parent
      rw [if_neg (by omega : ¬ v > x)]
      omega
  · exact parent_left_child x c v hx h

theorem right_child_parent (x c v : Nat) (h : get_right_child x c = some v) :
    get_parent v c = x := by
  by_cases hx : x = c
  · subst hx
    unfold get_right_child at h
    rw [if_pos rfl] at h
    simp only [Option.some.injEq] at h
    unfold get_parent
    rw [if_pos (by omega : v > x)]
    omega
  · exact parent_right_child x c v hx h

/-- Any `j ≠ c` is a (left or right) real child of its parent. -/
theorem child_of_parent (j c : Nat) (hj : j ≠ c) :
    get_left_child (get_parent j c) c = some j ∨
      get_right_child (get_parent j c) c = some j := by
  unfold get_parent get_left_child get_right_child
  rcases Nat.lt_trichotomy j c with hlt | heq | hgt
  · rw [if_neg (by omega : ¬ j > c)]
    by_cases hp : c - (c - j) / 2 = c
    · -- parent is the center: j = c - 1
      have hj1 : j = c - 1 := by omega
      left
      rw [if_pos hp, if_neg (by omega : ¬ c = 0)]
      simp only [Option.some.injEq]
      omega
    · rw [if_neg hp, if_neg hp]
      have hplt : ¬ c - (c - j) / 2 > c := by omega
      rw [if_neg hplt, if_neg hplt]
      rcases Nat.even_or_odd (c - j) with he | ho
      · left
        have h2 : (c - (c - (c - j) / 2)) * 2 = c - j := by
          rcases he with ⟨m, hm⟩
          omega
        rw [if_neg (by omega : ¬ (c - (c - (c - j) / 2)) * 2 > c)]
        simp only [Option.some.injEq]
        omega
      · right
        have h2 : (c - (c - (c - j) / 2)) * 2 + 1 = c - j := by
          rcases ho with ⟨m, hm⟩
          omega
        rw [if_neg (by omega : ¬ (c - (c - (c - j) / 2)) * 2 + 1 > c)]
        simp only [Option.some.injEq]
        omega
  · exact absurd heq hj
  · rw [if_pos hgt]
    by_cases hp : c + (j - c) / 2 = c
    · -- parent is the center: j = c + 1
      have hj1 : j = c + 1 := by omega
      right
      rw [if_pos hp]
      simp only [Option.some.injEq]
      omega
    · rw [if_neg hp, if_neg hp]
      have hpgt : c + (j - c) / 2 > c := by omega
      rw [if_pos hpgt, if_pos hpgt]
      rcases Nat.even_or_odd (j - c) with he | ho
      · left
        rcases he with ⟨m, hm⟩
        simp only [Option.some.injEq]
        omega
      · right
        rcases ho with ⟨m, hm⟩
        simp only [Option.some.injEq]
        omega

/-- `Desc c n j`: `j` lies in the subtree rooted at `n` (relative to
center `c`), i.e. ascending the parent chain from `j` reaches `n`
before reaching the center. -/
inductive Desc (c n : Nat) : Nat → Prop
  | refl : Desc c n n
  | step (j : Nat) (hj : j ≠ c) (h : Desc c n (get_parent j c)) : Desc c n j

theorem desc_c_all (c j : Nat) : Desc c c j :=
  if h : j = c then by subst h; exact Desc.refl
  else Desc.step j h (desc_c_all c (get_parent j c))
termination_by cdist c j
decreasing_by exact cdist_parent_lt j c h

theorem desc_trans (c n k j : Nat) (h1 : Desc c n k) (h2 : Desc c k j) :
    Desc c n j := by
  induction h2 with
  | refl => exact h1
  | step j hj _ ih => exact Desc.step j hj ih

theorem desc_cdist_le (c n j : Nat) (h : Desc c n j) :
    cdist c n ≤ cdist c j := by
  induction h with
  | refl => exact le_refl _
  | step j hj h ih =>
    exact le_of_lt (lt_of_le_of_lt ih (cdist_parent_lt j c hj))

/-- Side and interval facts for descendants. -/
theorem desc_side (c n j : Nat) (h : Desc c n j) :
    (c < n → n ≤ j) ∧ (n < c → j ≤ n) := by
  induction h with
  | refl => exact ⟨fun _ => le_refl _, fun _ => le_refl _⟩
  | step j hj h ih =>
    constructor
    · intro hcn
      have hp := ih.1 hcn
      -- n ≤ parent of j, so j is farther on the right side
      by_cases hcj : c < j
      · have := parent_right_range j c hcj
        omega
      · exfalso
        have := parent_left_range j c (by omega : j < c)
        omega
    · intro hnc
      have hp := ih.2 hnc
      by_cases hcj : j < c
      · have := parent_left_range j c hcj
        omega
      · exfalso
        have := parent_right_range j c (by omega : c < j)
        omega

theorem desc_of_center (c n : Nat) (h : Desc c n c) : n = c := by
  cases h with
  | refl => rfl
  | step j hj h => exact absurd rfl hj

/-- Inversion: a strict descendant's parent is still a descendant. -/
theorem desc_parent (c n j : Nat) (h : Desc c n j) (hne : j ≠ n) :
    j ≠ c ∧ Desc c n (get_parent j c) := by
  cases h with
  | refl => exact absurd rfl hne
  | step j hj h => exact ⟨hj, h⟩

/-- Two ancestors of the same node are comparable. -/
theorem desc_comparable (c x i j : Nat) (h1 : Desc c x j) (h2 : Desc c i j) :
    Desc c x i ∨ Desc c i x := by
  induction h1 with
  | refl => exact Or.inr h2
  | step j hj h ih =>
    by_cases hji : j = i
    · subst hji
      exact Or.inl (Desc.step j hj h)
    · exact ih (desc_parent c i j h2 hji).2

/-- A strict descendant of `n` descends through one of `n`'s real
children. -/
theorem desc_child_decomp (c n j : Nat) (h : Desc c n j) (hne : j ≠ n) :
    ∃ k, k ≠ c ∧ get_parent k c = n ∧ Desc c k j := by
  induction h with
  | refl => exact absurd rfl hne
  | step j hj h ih =>
    by_cases hpn : get_parent j c = n
    · exact ⟨j, hj, hpn, Desc.refl⟩
    · rcases ih hpn with ⟨k, hk1, hk2, hk3⟩
      exact ⟨k, hk1, hk2, Desc.step j hj hk3⟩

/-- Parent chains of in-range descendants stay in range. -/
theorem desc_par_range (c n j lo hi : Nat) (h : Desc c n j) (hne : j ≠ n)
    (hn1 : lo ≤ n) (hn2 : n < hi) (hj1 : lo ≤ j) (hj2 : j < hi) :
    lo ≤ get_parent j c ∧ get_parent j c < hi := by
  have hjc : j ≠ c := (desc_parent c n j h hne).1
  have hside := desc_side c n j h
  rcases Nat.lt_trichotomy c n with hcn | hceq | hnc
  · have hnj : n ≤ j := hside.1 hcn
    have hr := parent_right_range j c (by omega : c < j)
    have hps := desc_side c n (get_parent j c) (desc_parent c n j h hne).2
    have := hps.1 hcn
    omega
  · subst hceq
    rcases Nat.lt_trichotomy j c with h1 | h2 | h3
    · have := parent_left_range j c h1
      omega
    · exact absurd h2 hjc
    · have := parent_right_range j c h3
      omega
  · have hnj : j ≤ n := hside.2 hnc
    have hr := parent_left_range j c (by omega : j < c)
    have hps := desc_side c n (get_parent j c) (desc_parent c n j h hne).2
    have := hps.2 hnc
    omega

/-!  The c-heap view (`struct Cheap` of the source).  The element array,
the three markers, and the counter are bundled into one record; methods
thread the whole record. -/

structure Cheap where
  a : List Int
  lo : Nat
  c : Nat
  hi : Nat
  cnt : Cnt
deriving DecidableEq, Repr

/-- `Cheap::swap`: exchange `a[i]` and `a[j]` and count the swap. -/
def Cheap.swap (s : Cheap) (i j : Nat) : Cheap :=
  { s with a := lswap s.a i j, cnt := s.cnt.swp }

/-- `Cheap::is_empty`. -/
def Cheap.is_empty (s : Cheap) : Bool := decide (s.lo = s.hi)

/-- The left-child inspection of `sift_out`'s loop body (source lines
321-332): if the left child is in range, compare it with the node
(counting the `bt`); return the violation candidate and the counter. -/
def pick_left (lo c hi n : Nat) (a : List Int) (cnt : Cnt) : Option Nat × Cnt :=
  match get_left_child n c with
  | some ch1 =>
    if lo ≤ ch1 ∧ ch1 < hi then
      if lget a ch1 ≤ lget a n then (some ch1, cnt.cmp) else (none, cnt.cmp)
    else (none, cnt)
  | none => (none, cnt)

/-- One pass of `sift_out`'s violation search (source lines 318-348):
inspect the left child, then the right child, counting every `bt`
exactly as the source does; returns the selected violating child (if
any) and the updated counter. -/
def pick_vio (lo c hi n : Nat) (a : List Int) (cnt : Cnt) : Option Nat × Cnt :=
  match get_right_child n c with
  | some ch2 =>
    if lo ≤ ch2 ∧ ch2 < hi then
      if lget a ch2 ≤ lget a n then
        match pick_left lo c hi n a cnt with
        | (none, cnt1) => (some ch2, cnt1.cmp)
        | (some v, cnt1) =>
          if lget a ch2 ≤ lget a v then (some ch2, cnt1.cmp.cmp)
          else (some v, cnt1.cmp.cmp)
      else ((pick_left lo c hi n a cnt).1, (pick_left lo c hi n a cnt).2.cmp)
    else pick_left lo c hi n a cnt
  | none => pick_left lo c hi n a cnt

theorem pick_left_none (lo c hi n : Nat) (a : List Int) (cnt cnt1 : Cnt)
    (h : pick_left lo c hi n a cnt = (none, cnt1)) :
    ∀ w, get_left_child n c = some w → lo ≤ w → w < hi → lget a n ≤ lget a w := by
  intro w hw hw1 hw2
  unfold pick_left at h
  rw [hw] at h
  dsimp only at h
  rw [if_pos ⟨hw1, hw2⟩] at h
  by_cases hb : lget a w ≤ lget a n
  · rw [if_pos hb] at h
    simp at h
  · exact le_of_not_le hb

theorem pick_left_some (lo c hi n : Nat) (a : List Int) (cnt cnt1 : Cnt) (v : Nat)
    (h : pick_left lo c hi n a cnt = (some v, cnt1)) :
    get_left_child n c = some v ∧ lo ≤ v ∧ v < hi ∧ lget a v ≤ lget a n := by
  unfold pick_left at h
  rcases hl : get_left_child n c with _ | ch1 <;> rw [hl] at h <;> dsimp only at h
  · simp at h
  · by_cases hin : lo ≤ ch1 ∧ ch1 < hi
    · rw [if_pos hin] at h
      by_cases hb : lget a ch1 ≤ lget a n
      · rw [if_pos hb] at h
        simp only [Prod.mk.injEq, Option.some.injEq] at h
        rcases h with ⟨hv, _⟩
        subst hv
        exact ⟨rfl, hin.1, hin.2, hb⟩
      · rw [if_neg hb] at h
        simp at h
    · rw [if_neg hin] at h
      simp at h

theorem pick_vio_none (lo c hi n : Nat) (a : List Int) (cnt : Cnt) (cnt1 : Cnt)
    (h : pick_vio lo c hi n a cnt = (none, cnt1)) :
    ∀ w, (get_left_child n c = some w ∨ get_right_child n c = some w) →
      lo ≤ w → w < hi → lget a n ≤ lget a w := by
  unfold pick_vio at h
  rcases hpl : pick_left lo c hi n a cnt with ⟨v1, cntl⟩
  rw [hpl] at h
  intro w hw hw1 hw2
  rcases hr : get_right_child n c with _ | ch2 <;> rw [hr] at h <;> dsimp only at h
  · -- no right child: the result is the left pick
    rcases hw with hwl | hwr
    · cases v1 with
      | none =>
        cases h
        exact pick_left_none lo c hi n a cnt cnt1 hpl w hwl hw1 hw2
      | some v => simp at h
    · rw [hwr] at hr
      exact absurd hr (by simp)
  · by_cases hin : lo ≤ ch2 ∧ ch2 < hi
    · rw [if_pos hin] at h
      by_cases hb2 : lget a ch2 ≤ lget a n
      · rw [if_pos hb2] at h
        cases v1 with
        | none => simp at h
        | some v =>
          dsimp only at h
          by_cases hb3 : lget a ch2 ≤ lget a v
          · rw [if_pos hb3] at h
            simp at h
          · rw [if_neg hb3] at h
            simp at h
      · rw [if_neg hb2] at h
        cases v1 with
        | none =>
          rcases hw with hwl | hwr
          · exact pick_left_none lo c hi n a cnt cntl hpl w hwl hw1 hw2
          · rw [hwr] at hr
            simp only [Option.some.injEq] at hr
            subst hr
            exact le_of_not_le hb2
        | some v => simp at h
    · rw [if_neg hin] at h
      cases v1 with
      | none =>
        rcases hw with hwl | hwr
        · cases h
          exact pick_left_none lo c hi n a cnt cnt1 hpl w hwl hw1 hw2
        · rw [hr] at hwr
          injection hwr with hcw
          refine absurd ⟨?_, ?_⟩ hin
          · omega
          · omega
      | some v => simp at h

theorem pick_vio_some (lo c hi n : Nat) (a : List Int) (cnt : Cnt) (v : Nat) (cnt1 : Cnt)
    (h : pick_vio lo c hi n a cnt = (some v, cnt1)) :
    (lo ≤ v ∧ v < hi) ∧ v ≠ c ∧ get_parent v c = n ∧ lget a v ≤ lget a n ∧
    (∀ w, (get_left_child n c = some w ∨ get_right_child n c = some w) →
      lo ≤ w → w < hi → lget a v ≤ lget a w) := by
  unfold pick_vio at h
  rcases hpl : pick_left lo c hi n a cnt with ⟨v1, cntl⟩
  rw [hpl] at h
  rcases hr : get_right_child n c with _ | ch2 <;> rw [hr] at h <;> dsimp only at h
  · -- no right child: the result is the left pick
    cases v1 with
    | none => simp at h
    | some v0 =>
      simp only [Prod.mk.injEq, Option.some.injEq] at h
      rcases h with ⟨hv, -⟩
      rcases pick_left_some lo c hi n a cnt cntl v0 hpl with ⟨hlc, h1, h2, h3⟩
      rw [hv] at hlc h1 h2 h3
      refine ⟨⟨h1, h2⟩, left_child_ne_c n c v hlc, left_child_parent n c v hlc, h3, ?_⟩
      intro w hw hw1 hw2
      rcases hw with hwl | hwr
      · rw [hwl] at hlc
        simp only [Option.some.injEq] at hlc
        subst hlc
        exact le_refl _
      · exact Option.noConfusion hwr
  · by_cases hin : lo ≤ ch2 ∧ ch2 < hi
    · rw [if_pos hin] at h
      by_cases hb2 : lget a ch2 ≤ lget a n
      · rw [if_pos hb2] at h
        cases v1 with
        | none =>
          dsimp only at h
          simp only [Prod.mk.injEq, Option.some.injEq] at h
          rcases h with ⟨hv, -⟩
          rw [hv] at hr hin hb2
          refine ⟨hin, right_child_ne_c n c v hr, right_child_parent n c v hr, hb2, ?_⟩
          intro w hw hw1 hw2
          rcases hw with hwl | hwr
          · have := pick_left_none lo c hi n a cnt cntl hpl w hwl hw1 hw2
            exact le_trans hb2 this
          · injection hwr with hcw
            have hvw : v = w := by omega
            rw [hvw]
        | some v0 =>
          dsimp only at h
          rcases pick_left_some lo c hi n a cnt cntl v0 hpl with ⟨hlc, h1, h2, h3⟩
          by_cases hb3 : lget a ch2 ≤ lget a v0
          · rw [if_pos hb3] at h
            simp only [Prod.mk.injEq, Option.some.injEq] at h
            rcases h with ⟨hv, -⟩
            rw [hv] at hr hin hb2
            rw [hv] at hb3
            refine ⟨hin, right_child_ne_c n c v hr, right_child_parent n c v hr, hb2, ?_⟩
            intro w hw hw1 hw2
            rcases hw with hwl | hwr
            · rw [hwl] at hlc
              simp only [Option.some.injEq] at hlc
              subst hlc
              exact hb3
            · injection hwr with hcw
              have hvw : v = w := by omega
              rw [hvw]
          · rw [if_neg hb3] at h
            simp only [Prod.mk.injEq, Option.some.injEq] at h
            rcases h with ⟨hv, -⟩
            rw [hv] at hlc h1 h2 h3 hb3
            refine ⟨⟨h1, h2⟩, left_child_ne_c n c v hlc, left_child_parent n c v hlc, h3, ?_⟩
            intro w hw hw1 hw2
            rcases hw with hwl | hwr
            · rw [hwl] at hlc
              simp only [Option.some.injEq] at hlc
              subst hlc
              exact le_refl _
            · injection hwr with hcw
              rw [← hcw]
              exact le_of_not_le hb3
      · rw [if_neg hb2] at h
        cases v1 with
        | none => simp at h
        | some v0 =>
          simp only [Prod.mk.injEq, Option.some.injEq] at h
          rcases h with ⟨hv, -⟩
          rcases pick_left_some lo c hi n a cnt cntl v0 hpl with ⟨hlc, h1, h2, h3⟩
          rw [hv] at hlc h1 h2 h3
          refine ⟨⟨h1, h2⟩, left_child_ne_c n c v hlc, left_child_parent n c v hlc, h3, ?_⟩
          intro w hw hw1 hw2
          rcases hw with hwl | hwr
          · rw [hwl] at hlc
            simp only [Option.some.injEq] at hlc
            subst hlc
            exact le_refl _
          · injection hwr with hcw
            rw [← hcw]
            exact le_trans h3 (le_of_not_le hb2)
    · rw [if_neg hin] at h
      cases v1 with
      | none => simp at h
      | some v0 =>
        simp only [Prod.mk.injEq, Option.some.injEq] at h
        rcases h with ⟨hv, -⟩
        rcases pick_left_some lo c hi n a cnt cntl v0 hpl with ⟨hlc, h1, h2, h3⟩
        rw [hv] at hlc h1 h2 h3
        refine ⟨⟨h1, h2⟩, left_child_ne_c n c v hlc, left_child_parent n c v hlc, h3, ?_⟩
        intro w hw hw1 hw2
        rcases hw with hwl | hwr
        · rw [hwl] at hlc
          simp only [Option.some.injEq] at hlc
          subst hlc
          exact le_refl _
        · injection hwr with hcw
          refine absurd ⟨?_, ?_⟩ hin
          · omega
          · omega

theorem cdist_lt_of_lt (c v hi : Nat) (h : v < hi) : cdist c v < c + hi := by
  unfold cdist
  split <;> omega

/-- `sift_out`'s loop (source lines 318-354): while a violating child
exists, swap with the better child and continue from its position. -/
def sift_out_go (lo c hi : Nat) (n : Nat) (a : List Int) (cnt : Cnt) :
    List Int × Cnt :=
  match hv : pick_vio lo c hi n a cnt with
  | (none, cnt1) => (a, cnt1)
  | (some v, cnt1) => sift_out_go lo c hi v (lswap a n v) cnt1.swp
termination_by c + hi - cdist c n
decreasing_by
  rcases pick_vio_some lo c hi n a cnt v cnt1 hv with ⟨⟨_, hv2⟩, hvc, hvp, _⟩
  have h1 : cdist c n < cdist c v := by
    have := cdist_parent_lt v c hvc
    rw [hvp] at this
    exact this
  have h2 := cdist_lt_of_lt c v hi hv2
  omega

/-- `Cheap::sift_out`. -/
def Cheap.sift_out (s : Cheap) (ii : Nat) : Cheap :=
  let r := sift_out_go s.lo s.c s.hi ii s.a s.cnt
  { s with a := r.1, cnt := r.2 }

/-- `Cheap::sift_in` (source lines 361-379): while the node is better
than its parent, swap upward. -/
def sift_in_go (c : Nat) (n : Nat) (a : List Int) (cnt : Cnt) :
    List Int × Cnt :=
  if h : n = c then (a, cnt)
  else
    if lget a n ≤ lget a (get_parent n c) then
      sift_in_go c (get_parent n c) (lswap a n (get_parent n c)) cnt.cmp.swp
    else (a, cnt.cmp)
termination_by cdist c n
decreasing_by exact cdist_parent_lt n c h

def Cheap.sift_in (s : Cheap) (i : Nat) : Cheap :=
  let r := sift_in_go s.c i s.a s.cnt
  { s with a := r.1, cnt := r.2 }

/-- `Cheap::recenter` (source lines 286-300): sift every interior node,
from the recenter limits inward toward the center. -/
def Cheap.recenter (s : Cheap) : Cheap :=
  let s1 := (List.range' (get_recenter_limit s.lo s.c)
    (s.c - get_recenter_limit s.lo s.c)).foldl Cheap.sift_out s
  ((List.range' s.c (get_recenter_limit s.hi s.c - s.c)).reverse).foldl
    Cheap.sift_out s1

/-!  Constructors (source lines 151-197).  `new_spanright` computes
`len - 1`; for `len = 0` Rust release builds wrap to `usize::MAX` and
`recenter` still does nothing (both loop ranges are empty), so the
saturating `Nat` subtraction used here is observationally equivalent. -/

def Cheap.new_left (a : List Int) (cnt : Cnt) : Cheap := ⟨a, 0, 0, 0, cnt⟩

def Cheap.new_right (a : List Int) (cnt : Cnt) : Cheap :=
  ⟨a, a.length, a.length, a.length, cnt⟩

def Cheap.new_spanleft (a : List Int) (cnt : Cnt) : Cheap :=
  ⟨a, 0, 0, a.length, cnt⟩

def Cheap.new_spanright (a : List Int) (cnt : Cnt) : Cheap :=
  ⟨a, 0, a.length - 1, a.length, cnt⟩

/-!  The public operations (source lines 395-695).  Runtime `assert!`s
are the operations' preconditions; theorems carry them as hypotheses. -/

def Cheap.pop_left (s : Cheap) : Cheap :=
  let lop := s.lo + 1
  if s.lo = s.c then
    if lop < s.hi then
      Cheap.recenter { s with c := s.hi - 1, lo := lop }
    else
      { s with lo := lop, c := lop }
  else
    let s1 := s.swap s.c s.lo
    Cheap.sift_out { s1 with lo := lop } s1.c

def Cheap.pop_right (s : Cheap) : Cheap :=
  let hip := s.hi - 1
  if hip = s.c then
    let s1 := { s with c := s.lo, hi := hip }
    if s.lo < hip then s1.recenter else s1
  else
    -- the source calls `self.a.swap(hip, self.c)` directly here,
    -- bypassing `Cheap::swap`, so no swap is counted
    let s1 := { s with a := lswap s.a hip s.c }
    Cheap.sift_out { s1 with hi := hip } s1.c

def Cheap.push_left (s : Cheap) : Cheap :=
  let lop := s.lo - 1
  let s1 := if s.c = s.hi then { s with c := lop } else s
  Cheap.sift_in { s1 with lo := lop } lop

def Cheap.push_right (s : Cheap) : Cheap :=
  let hip := s.hi + 1
  let s1 := s.sift_in s.hi
  { s1 with hi := hip }

def Cheap.push_left_swap (s : Cheap) (i : Nat) : Cheap :=
  (s.swap i (s.lo - 1)).push_left

def Cheap.push_right_swap (s : Cheap) (i : Nat) : Cheap :=
  (s.swap i s.hi).push_right

def Cheap.poppush (s : Cheap) (i : Nat) : Cheap :=
  Cheap.sift_out (s.swap i s.c) s.c

def Cheap.pushpop (s : Cheap) (i : Nat) : Cheap :=
  if s.lo = s.hi then s
  else
    -- `self.bt(i, self.c)` is evaluated (and counted) only when non-empty
    let s1 := { s with cnt := s.cnt.cmp }
    if lget s.a i ≤ lget s.a s.c then s1
    else Cheap.sift_out (s1.swap i s1.c) s1.c

def Cheap.slide_right (s : Cheap) : Cheap :=
  if s.lo = s.hi then { s with lo := s.lo + 1, c := s.c + 1, hi := s.hi + 1 }
  else
    let lop := s.lo + 1
    let hip := s.hi + 1
    let s1 := s.swap s.lo s.hi
    if s1.c = s1.lo then
      Cheap.recenter { s1 with c := s1.hi, lo := lop, hi := hip }
    else
      let s2 := s1.sift_in s1.hi
      { s2 with lo := lop, hi := hip }

def Cheap.slide_left (s : Cheap) : Cheap :=
  if s.lo = s.hi then { s with lo := s.lo - 1, c := s.c - 1, hi := s.hi - 1 }
  else
    let lop := s.lo - 1
    let hip := s.hi - 1
    let s1 := s.swap lop hip
    if s1.c = hip then
      Cheap.recenter { s1 with c := s1.lo, lo := lop, hi := hip }
    else
      let s2 := s1.sift_in lop
      { s2 with lo := lop, hi := hip }

/-!  Marker bookkeeping: `sift_out` / `sift_in` / `recenter` never move
`lo`, `c`, `hi`; the pops and pushes move them by exactly one.  These
facts justify termination of the driver loops. -/

theorem sift_out_markers (s : Cheap) (ii : Nat) :
    (s.sift_out ii).lo = s.lo ∧ (s.sift_out ii).c = s.c ∧ (s.sift_out ii).hi = s.hi :=
  ⟨rfl, rfl, rfl⟩

theorem sift_in_markers (s : Cheap) (i : Nat) :
    (s.sift_in i).lo = s.lo ∧ (s.sift_in i).c = s.c ∧ (s.sift_in i).hi = s.hi :=
  ⟨rfl, rfl, rfl⟩

theorem foldl_sift_out_markers (l : List Nat) (s : Cheap) :
    ((l.foldl Cheap.sift_out s).lo = s.lo ∧ (l.foldl Cheap.sift_out s).c = s.c ∧
      (l.foldl Cheap.sift_out s).hi = s.hi) := by
  induction l generalizing s with
  | nil => exact ⟨rfl, rfl, rfl⟩
  | cons x xs ih =>
    simp only [List.foldl_cons]
    exact ih (s.sift_out x)

theorem recenter_markers (s : Cheap) :
    s.recenter.lo = s.lo ∧ s.recenter.c = s.c ∧ s.recenter.hi = s.hi := by
  unfold Cheap.recenter
  rcases foldl_sift_out_markers (List.range' (get_recenter_limit s.lo s.c)
    (s.c - get_recenter_limit s.lo s.c)) s with ⟨h1, h2, h3⟩
  rcases foldl_sift_out_markers ((List.range' s.c
    (get_recenter_limit s.hi s.c - s.c)).reverse)
    ((List.range' (get_recenter_limit s.lo s.c)
      (s.c - get_recenter_limit s.lo s.c)).foldl Cheap.sift_out s) with ⟨g1, g2, g3⟩
  exact ⟨g1.trans h1, g2.trans h2, g3.trans h3⟩

theorem pop_left_markers (s : Cheap) :
    s.pop_left.lo = s.lo + 1 ∧ s.pop_left.hi = s.hi := by
  unfold Cheap.pop_left
  by_cases h1 : s.lo = s.c
  · rw [if_pos h1]
    by_cases h2 : s.lo + 1 < s.hi
    · rw [if_pos h2]
      rcases recenter_markers { s with c := s.hi - 1, lo := s.lo + 1 } with ⟨g1, _, g3⟩
      exact ⟨g1, g3⟩
    · rw [if_neg h2]
      exact ⟨rfl, rfl⟩
  · rw [if_neg h1]
    exact ⟨rfl, rfl⟩

theorem pop_right_markers (s : Cheap) :
    s.pop_right.lo = s.lo ∧ s.pop_right.hi = s.hi - 1 := by
  unfold Cheap.pop_right
  by_cases h1 : s.hi - 1 = s.c
  · rw [if_pos h1]
    by_cases h2 : s.lo < s.hi - 1
    · rw [if_pos h2]
      rcases recenter_markers { s with c := s.lo, hi := s.hi - 1 } with ⟨g1, _, g3⟩
      exact ⟨g1, g3⟩
    · rw [if_neg h2]
      exact ⟨rfl, rfl⟩
  · rw [if_neg h1]
    exact ⟨rfl, rfl⟩

theorem push_left_markers (s : Cheap) :
    s.push_left.lo = s.lo - 1 ∧ s.push_left.hi = s.hi := by
  by_cases h1 : s.c = s.hi <;>
    simp [Cheap.push_left, Cheap.sift_in, h1]

theorem push_right_markers (s : Cheap) :
    s.push_right.lo = s.lo ∧ s.push_right.hi = s.hi + 1 :=
  ⟨rfl, rfl⟩

/-!  `MC`: the merge candidate (source lines 821-854).  The Rust enum
holds references; the model holds the referenced values. -/

inductive MC
  | None
  | Lo (v : Int)
  | Md (v : Int)
  | Hi (v : Int)
deriving DecidableEq, Repr

def MC.val : MC → Option Int
  | MC.None => none
  | MC.Lo v => some v
  | MC.Md v => some v
  | MC.Hi v => some v

/-- `MC::better`: keep `self` only when its value is strictly smaller;
on ties `other` wins.  The comparison is counted. -/
def MC.better (self other : MC) (cnt : Cnt) : MC × Cnt :=
  match self.val, other.val with
  | none, none => (MC.None, cnt)
  | some _, none => (self, cnt)
  | none, some _ => (other, cnt)
  | some x, some y => if x < y then (self, cnt.cmp) else (other, cnt.cmp)

/-- The best-candidate selection of `Cheap::merge`'s loop body (source
lines 723-734): consider the pending left-run element at `ix`, the heap
root, and the pending right-run element at `ch.hi`, each only when its
region is non-empty, and keep the better of each successive pair. -/
def merge_best (hi : Nat) (ix : Nat) (s : Cheap) : MC × Cnt :=
  let best0 := if ix < s.lo then MC.Lo (lget s.a ix) else MC.None
  let p1 := if s.lo < s.hi then MC.better best0 (MC.Md (lget s.a s.c)) s.cnt
    else (best0, s.cnt)
  if s.hi < hi then MC.better p1.1 (MC.Hi (lget s.a s.hi)) p1.2
  else p1

/-- The loop of `Cheap::merge` (source lines 717-763).  `none` models
the two `panic!` calls (`merge: logic error` / `merge: ix is invalid`),
both unreachable from valid inputs. -/
def merge_go (lo hi : Nat) (ix : Nat) (s : Cheap) : Option Cheap :=
  if hix : ix < hi then
    if ix ≥ s.hi then some s
    else
      let p2 := merge_best hi ix s
      let s1 : Cheap := { s with cnt := p2.2 }
      match p2.1 with
      | MC.None => none
      | MC.Lo _ => merge_go lo hi (ix + 1) s1
      | MC.Md _ =>
        if ix < s1.lo then merge_go lo hi (ix + 1) (s1.poppush ix)
        else if ix = s1.lo then merge_go lo hi (ix + 1) s1.pop_left
        else none
      | MC.Hi _ =>
        if ix < s1.lo then merge_go lo hi (ix + 1) (s1.push_right_swap ix)
        else if ix = s1.lo then merge_go lo hi (ix + 1) s1.slide_right
        else none
  else some s
termination_by hi - ix

/-- `Cheap::merge`: merge the sorted runs `[lo, md)` and `[md, hi)` in
place via an empty c-heap seated at `md`. -/
def Cheap.merge (a : List Int) (lo md hi : Nat) (cnt : Cnt) :
    Option (List Int × Cnt) :=
  match merge_go lo hi lo ⟨a, md, md, md, cnt⟩ with
  | some s => some (s.a, s.cnt)
  | none => none

/-- The inner while loop of `small_sort` (source lines 863-869): sink
`a[j]` leftward while it is smaller than its left neighbour.  The
comparison evaluated by the loop guard is counted inside the body; one
more compare is counted after the loop ends, whether or not the final
guard evaluated a comparison (it does not when `j == lo`). -/
def small_sort_inner (lo : Nat) (j : Nat) (a : List Int) (cnt : Cnt) :
    List Int × Cnt :=
  if lo < j ∧ lget a j < lget a (j - 1) then
    small_sort_inner lo (j - 1) (lswap a (j - 1) j) cnt.cmp.swp
  else (a, cnt.cmp)
termination_by j

/-- `small_sort` (source lines 856-873): straight insertion sort over
`[lo, hi)`. -/
def small_sort (a : List Int) (lo hi : Nat) (cnt : Cnt) : List Int × Cnt :=
  (List.range' (lo + 1) (hi - (lo + 1))).foldl
    (fun p i => small_sort_inner lo i p.1 p.2) (a, cnt)

/-- The scan inside `is_sorted` (source lines 881-888). -/
def is_sorted_go (a : List Int) (v : Int) (i hi : Nat) : Bool :=
  if i < hi then
    if lget a i < v then false
    else is_sorted_go a (lget a i) (i + 1) hi
  else true
termination_by hi - i

/-- `is_sorted` (source lines 875-890).  `none` models a panic: either
the `assert!` on the range fails, or `lo >= a.len()` and the
unconditional read `&a[lo]` indexes out of bounds (which happens on
every empty array, where `lo == hi == a.len() == 0`). -/
def is_sorted (a : List Int) (lo hi : Nat) : Option Bool :=
  if lo ≤ hi ∧ hi ≤ a.length then
    if lo < a.length then some (is_sorted_go a (lget a lo) (lo + 1) hi)
    else none
  else none

/-- `merge_sort` (source lines 892-914).  The source takes the merge
routine as a function pointer; the only instantiation is
`Cheap::merge`, used here directly. -/
def merge_sort (a : List Int) (lo hi : Nat) (cnt : Cnt) :
    Option (List Int × Cnt) :=
  if hi - lo ≤ 4 then some (small_sort a lo hi cnt)
  else
    match merge_sort a lo ((lo + hi) / 2) cnt with
    | none => none
    | some p1 =>
      match merge_sort p1.1 ((lo + hi) / 2) hi p1.2 with
      | none => none
      | some p2 => Cheap.merge p2.1 lo ((lo + hi) / 2) hi p2.2
termination_by hi - lo
decreasing_by
  · omega
  · omega

/-- The pop loop of `heap_sort_left` (source lines 919-921); the guard
`!c.is_empty()` is `lo < hi` (`is_empty` debug-asserts `lo <= hi`). -/
def hsl_go (s : Cheap) : Cheap :=
  if s.lo < s.hi then hsl_go s.pop_left else s
termination_by s.hi - s.lo
decreasing_by
  rcases pop_left_markers s with ⟨h1, h2⟩
  omega

def heap_sort_left (a : List Int) (cnt : Cnt) : List Int × Cnt :=
  let r := hsl_go (Cheap.new_spanright a cnt).recenter
  (r.a, r.cnt)

def hsr_go (s : Cheap) : Cheap :=
  if s.lo < s.hi then hsr_go s.pop_right else s
termination_by s.hi - s.lo
decreasing_by
  rcases pop_right_markers s with ⟨h1, h2⟩
  omega

def heap_sort_right (a : List Int) (cnt : Cnt) : List Int × Cnt :=
  let r := hsr_go (Cheap.new_spanleft a cnt).recenter
  (r.a.reverse, r.cnt)

/-- One iteration of `running_sort_left`'s loop body (source lines
947-952): push from the right if there is room, then pop if the window
is full or the right end was reached. -/
def rsl_step (a_len run : Nat) (s : Cheap) : Cheap :=
  let s1 := if s.hi < a_len then s.push_right else s
  if run ≤ s1.hi - s1.lo ∨ s1.hi = a_len then s1.pop_left else s1

theorem rsl_step_markers (a_len run : Nat) (s : Cheap) :
    ((rsl_step a_len run s).lo = s.lo ∨ (rsl_step a_len run s).lo = s.lo + 1) ∧
    ((rsl_step a_len run s).hi = s.hi ∨
      ((rsl_step a_len run s).hi = s.hi + 1 ∧ s.hi < a_len)) := by
  simp only [rsl_step]
  by_cases h1 : s.hi < a_len
  · rw [if_pos h1]
    rcases push_right_markers s with ⟨g1, g2⟩
    split
    · rcases pop_left_markers s.push_right with ⟨k1, k2⟩
      constructor
      · right
        omega
      · right
        omega
    · constructor
      · left
        omega
      · right
        omega
  · rw [if_neg h1]
    split
    · rcases pop_left_markers s with ⟨k1, k2⟩
      constructor
      · right
        omega
      · left
        omega
    · exact ⟨Or.inl rfl, Or.inl rfl⟩

/-- The while loop of `running_sort_left`.  The source loops while
`lo < a_len`; the extra progress test `hp` is provably true on every
state the driver can reach (each iteration pushes or pops), and on
unreachable states where neither happens the source would loop
forever. -/
def rsl_go (a_len run : Nat) (s : Cheap) : Cheap :=
  if h : s.lo < a_len then
    if hp : s.lo < (rsl_step a_len run s).lo ∨
        (s.lo = (rsl_step a_len run s).lo ∧ s.hi < (rsl_step a_len run s).hi) then
      rsl_go a_len run (rsl_step a_len run s)
    else rsl_step a_len run s
  else s
termination_by (a_len - s.lo, a_len - s.hi)
decreasing_by
  rcases hp with h1 | ⟨h2, h3⟩
  · exact Prod.Lex.left _ _ (by omega)
  · rcases (rsl_step_markers a_len run s).2 with hh | ⟨hh, hlt⟩
    · omega
    · have he : a_len - (rsl_step a_len run s).lo = a_len - s.lo := by omega
      rw [he]
      exact Prod.Lex.right _ (by omega)

/-- `running_sort_left` (source lines 937-958). -/
def running_sort_left (a : List Int) (run : Nat) (cnt : Cnt) :
    List Int × Cnt :=
  if a.length = 0 then (a, cnt)
  else
    let r := rsl_go a.length run (Cheap.new_left a cnt)
    (r.a, r.cnt)

/-- One iteration of `running_sort_right`'s loop body (source lines
974-980). -/
def rsr_step (run : Nat) (s : Cheap) : Cheap :=
  let s1 := if 0 < s.lo then s.push_left else s
  if run ≤ s1.hi - s1.lo ∨ s1.lo = 0 then s1.pop_right else s1

theorem rsr_step_markers (run : Nat) (s : Cheap) :
    ((rsr_step run s).hi = s.hi ∨ (rsr_step run s).hi = s.hi - 1) ∧
    ((rsr_step run s).lo = s.lo ∨ ((rsr_step run s).lo = s.lo - 1 ∧ 0 < s.lo)) := by
  simp only [rsr_step]
  by_cases h1 : 0 < s.lo
  · rw [if_pos h1]
    rcases push_left_markers s with ⟨g1, g2⟩
    split
    · rcases pop_right_markers s.push_left with ⟨k1, k2⟩
      constructor
      · right
        omega
      · right
        omega
    · constructor
      · left
        omega
      · right
        omega
  · rw [if_neg h1]
    split
    · rcases pop_right_markers s with ⟨k1, k2⟩
      constructor
      · right
        omega
      · left
        omega
    · exact ⟨Or.inl rfl, Or.inl rfl⟩

def rsr_go (run : Nat) (s : Cheap) : Cheap :=
  if h : 0 < s.hi then
    if hp : (rsr_step run s).hi < s.hi ∨
        ((rsr_step run s).hi = s.hi ∧ (rsr_step run s).lo < s.lo) then
      rsr_go run (rsr_step run s)
    else rsr_step run s
  else s
termination_by (s.hi, s.lo)
decreasing_by
  rcases hp with h1 | ⟨h2, h3⟩
  · exact Prod.Lex.left _ _ h1
  · rw [h2]
    exact Prod.Lex.right _ h3

/-- `running_sort_right` (source lines 964-985). -/
def running_sort_right (a : List Int) (run : Nat) (cnt : Cnt) :
    List Int × Cnt :=
  if a.length = 0 then (a, cnt)
  else
    let r := rsr_go run (Cheap.new_right a cnt)
    (r.a, r.cnt)

/-!  Specification predicates. -/

/-- `a` is non-decreasing on `[lo, hi)`. -/
def SortedOn (a : List Int) (lo hi : Nat) : Prop :=
  ∀ q, q < hi → ∀ p, p < q → lo ≤ p → lget a p ≤ lget a q

/-- The heap invariant of §3 of the spec (`Cheap::is_valid`, source
lines 246-266): every in-range node other than the center is no better
than its parent. -/
def HeapInvOn (a : List Int) (lo c hi : Nat) : Prop :=
  ∀ i, i < hi → lo ≤ i → i ≠ c → lget a (get_parent i c) ≤ lget a i

/-- Shape plus heap invariants of a c-heap state.  Shape is
`lo ≤ c ≤ hi ≤ len` with the root inside `[lo, hi)` when the view is
non-empty (the spec: the c-heap occupies exactly `[lo, hi)` and `a[c]`
is the root), which forces `lo = c = hi` when empty. -/
def Valid (s : Cheap) : Prop :=
  s.lo ≤ s.c ∧ s.c ≤ s.hi ∧ s.hi ≤ s.a.length ∧
  (s.lo < s.hi → s.c < s.hi) ∧ HeapInvOn s.a s.lo s.c s.hi

instance (a : List Int) (lo hi : Nat) : Decidable (SortedOn a lo hi) := by
  unfold SortedOn
  infer_instance

instance (a : List Int) (lo c hi : Nat) : Decidable (HeapInvOn a lo c hi) := by
  unfold HeapInvOn
  infer_instance

instance (s : Cheap) : Decidable (Valid s) := by
  unfold Valid
  infer_instance

/-- C10: `pushpop` on an empty c-heap never panics (its only runtime
assertion, `i < lo || i >= hi`, holds for every `i` when `lo = hi`) and
is a complete no-op: the array, the markers, and even the counter are
unchanged, because `is_empty() || bt(...)` short-circuits. -/
theorem pushpop_empty_noop (s : Cheap) (i : Nat) (h : s.lo = s.hi) :
    (i < s.lo ∨ s.hi ≤ i) ∧ s.pushpop i = s := by
  constructor
  · omega
  · unfold Cheap.pushpop
    rw [if_pos h]

/-- Witness for C10 on the concrete empty view `(lo, c, hi) = (1, 1, 1)`
over `[3]` with `i = 0`. -/
theorem pushpop_empty_noop_witness :
    ((0 : Nat) < 1 ∨ (1 : Nat) ≤ 0) ∧
      Cheap.pushpop ⟨[3], 1, 1, 1, ⟨0, 0⟩⟩ 0 = ⟨[3], 1, 1, 1, ⟨0, 0⟩⟩ :=
  pushpop_empty_noop ⟨[3], 1, 1, 1, ⟨0, 0⟩⟩ 0 rfl

/-- C5 counterexample: with equal values the *later* candidate is
selected (`Lo 5` versus `Md 5` yields `Md 5`), contradicting the claim
that the first encountered candidate wins ties. -/
theorem mc_better_tie_cex :
    (MC.better (MC.Lo 5) (MC.Md 5) ⟨0, 0⟩).1 = MC.Md 5 ∧
      MC.Md (5 : Int) ≠ MC.Lo 5 := by
  constructor
  · simp [MC.better, MC.val]
  · decide

/-- C5 amended: `MC::better` keeps `self` only when its value is
strictly smaller, so on equal values the later candidate is selected:
`Md` beats `Lo`, `Hi` beats `Md`, and `Hi` beats `Lo`. -/
theorem mc_better_tie_later (v : Int) (cnt : Cnt) :
    (MC.better (MC.Lo v) (MC.Md v) cnt).1 = MC.Md v ∧
    (MC.better (MC.Md v) (MC.Hi v) cnt).1 = MC.Hi v ∧
    (MC.better (MC.Lo v) (MC.Hi v) cnt).1 = MC.Hi v := by
  refine ⟨?_, ?_, ?_⟩ <;> simp [MC.better, MC.val]

/-- C4: in `pop_right`'s incremental path the element exchange is done
with `self.a.swap(hip, self.c)` instead of `self.swap(..)`, so it is
never counted.  On the valid two-element c-heap over `[1, 2]` the pop
physically exchanges the elements (the array becomes `[2, 1]`) yet the
swap counter stays `0`; the claim requires it to be `1`. -/
theorem pop_right_swap_not_counted :
    Cheap.pop_right ⟨[1, 2], 0, 0, 2, ⟨0, 0⟩⟩ = ⟨[2, 1], 0, 0, 1, ⟨0, 0⟩⟩ ∧
    Valid ⟨[1, 2], 0, 0, 2, ⟨0, 0⟩⟩ := by
  constructor
  · simp [Cheap.pop_right, Cheap.sift_out, sift_out_go, pick_vio, pick_left,
      get_left_child, get_right_child, lswap, lset, lget]
  · decide

/-- C7: the merge driver itself handles the empty array (size 0)
cleanly with zero compares and swaps, but `main`'s final
`is_sorted(&n, 0, 0)` reads `a[0]` on the empty slice and panics
(modelled by `none`), contradicting the claimed `is_sorted=true`. -/
theorem merge_driver_empty_panics :
    merge_sort [] 0 0 ⟨0, 0⟩ = some ([], ⟨0, 0⟩) ∧ is_sorted [] 0 0 = none := by
  constructor
  · simp [merge_sort, small_sort, List.range']
  · simp [is_sorted]

/-- C2: `slide_left` violates the invariants on a size-one c-heap.  On
the valid view `(lo, c, hi) = (1, 1, 2)` over `[5, 1]` (precondition
`lo > 0` holds) it produces `(lo, c, hi) = (0, 1, 1)` with
`a = [1, 5]`: the root index `c` lies outside the occupied range
`[0, 1)` and the heap check `a[parent(0, 1)] ≤ a[0]`, i.e. `5 ≤ 1`,
fails — the operation's own closing `check()` panics in debug builds. -/
theorem slide_left_breaks_invariant :
    Valid ⟨[5, 1], 1, 1, 2, ⟨0, 0⟩⟩ ∧ (0 : Nat) < 1 ∧
    Cheap.slide_left ⟨[5, 1], 1, 1, 2, ⟨0, 0⟩⟩ = ⟨[1, 5], 0, 1, 1, ⟨0, 1⟩⟩ ∧
    ¬ Valid ⟨[1, 5], 0, 1, 1, ⟨0, 1⟩⟩ := by
  refine ⟨by decide, by decide, ?_, by decide⟩
  simp [Cheap.slide_left, Cheap.swap, Cheap.recenter, Cheap.sift_out,
    sift_out_go, pick_vio, pick_left, get_left_child, get_right_child,
    get_recenter_limit, lswap, lset, lget, Cnt.swp, List.range']

/-- C3 counterexample: `running_sort_left` with window 2 on `[2, 1, 0]`
ends with `[1, 0, 2]`, which is not non-decreasing, so not every sort
driver sorts. -/
theorem running_sort_left_not_sorted_cex :
    (running_sort_left [2, 1, 0] 2 ⟨0, 0⟩).1 = [1, 0, 2] ∧
      ¬ SortedOn [1, 0, 2] 0 3 := by
  constructor
  · simp [running_sort_left, rsl_go, rsl_step, Cheap.new_left, Cheap.push_right,
      Cheap.pop_left, Cheap.sift_in, Cheap.sift_out, Cheap.recenter, Cheap.swap,
      sift_in_go, sift_out_go, pick_vio, pick_left, get_left_child,
      get_right_child, get_parent, get_recenter_limit, lswap, lset, lget,
      Cnt.cmp, Cnt.swp, List.range']
  · intro hs
    have := hs 1 (by omega) 0 (by omega) (by omega)
    simp [lget] at this

/-- C6 counterexample: on input `[1, 0, 9, 2]` with `run = 2` (so
`n = 4` and `k = 1 < n - run + 1`) the sliding-window minimum of
`input[1 : 3] = [0, 9]` is `0`, but `running_sort_left` emits
`output[1] = 1`: the `0` was already emitted at position 0 and is no
longer available to the window. -/
theorem running_sort_left_window_cex :
    (1 : Nat) < [1, 0, 9, 2].length - 2 + 1 ∧
    (∀ j, 1 ≤ j → j < min (1 + 2) 4 → (0 : Int) ≤ lget [1, 0, 9, 2] j) ∧
    lget [1, 0, 9, 2] 1 = 0 ∧
    lget (running_sort_left [1, 0, 9, 2] 2 ⟨0, 0⟩).1 1 = 1 ∧
    (1 : Int) ≠ 0 := by
  refine ⟨by decide, by decide, by decide, ?_, by decide⟩
  have hrun : (running_sort_left [1, 0, 9, 2] 2 ⟨0, 0⟩).1 = [0, 1, 2, 9] := by
    simp [running_sort_left, rsl_go, rsl_step, Cheap.new_left, Cheap.push_right,
      Cheap.pop_left, Cheap.sift_in, Cheap.sift_out, Cheap.recenter, Cheap.swap,
      sift_in_go, sift_out_go, pick_vio, pick_left, get_left_child,
      get_right_child, get_parent, get_recenter_limit, lswap, lset, lget,
      Cnt.cmp, Cnt.swp, List.range']
  rw [hrun]
  decide

/-!  Further geometry facts used by the sift correctness proofs. -/

theorem cdist_parent_half (j c : Nat) (h : j ≠ c) :
    cdist c (get_parent j c) = cdist c j / 2 := by
  unfold cdist get_parent
  rcases Nat.lt_or_ge c j with hx | hx
  · rw [if_pos hx, if_pos (by omega : c ≤ c + (j - c) / 2), if_pos (le_of_lt hx)]
    omega
  · have hj : j < c := lt_of_le_of_ne hx h
    rw [if_neg (by omega : ¬ j > c), if_neg (by omega : ¬ c ≤ j)]
    by_cases h2 : c ≤ c - (c - j) / 2
    · rw [if_pos h2]
      omega
    · rw [if_neg h2]
      omega

theorem desc_cdist_double (c x j : Nat) (h : Desc c x j) (hne : j ≠ x) :
    2 * cdist c x ≤ cdist c j := by
  induction h with
  | refl => exact absurd rfl hne
  | step j hj h ih =>
    by_cases hp : get_parent j c = x
    · have := cdist_parent_half j c hj
      rw [hp] at this
      omega
    · have h1 := ih hp
      have h2 := cdist_parent_lt j c hj
      omega

/-- A proper descendant chain cannot point back: the parent of `v` is
not in `v`'s subtree. -/
theorem not_desc_parent (c n v : Nat) (hvc : v ≠ c) (hvp : get_parent v c = n) :
    ¬ Desc c v n := by
  intro h
  have h1 := desc_cdist_le c v n h
  have h2 := cdist_parent_lt v c hvc
  rw [hvp] at h2
  omega

theorem desc_step_child (c n v : Nat) (hvc : v ≠ c) (hvp : get_parent v c = n) :
    Desc c n v :=
  Desc.step v hvc (by rw [hvp]; exact Desc.refl)

/-- The minimum of a heap-ordered subtree sits at its root. -/
theorem subtree_root_min (lo c hi : Nat) (a : List Int) (v : Nat)
    (hv1 : lo ≤ v) (hv2 : v < hi)
    (hsub : ∀ j, lo ≤ j → j < hi → Desc c v j → j ≠ v →
      lget a (get_parent j c) ≤ lget a j)
    (k : Nat) (hk1 : lo ≤ k) (hk2 : k < hi) (hk : Desc c v k) :
    lget a v ≤ lget a k := by
  by_cases hkv : k = v
  · subst hkv
    exact le_refl _
  · rcases desc_parent c v k hk hkv with ⟨hkc, hpk⟩
    rcases desc_par_range c v k lo hi hk hkv hv1 hv2 hk1 hk2 with ⟨hp1, hp2⟩
    have hrec := subtree_root_min lo c hi a v hv1 hv2 hsub (get_parent k c) hp1 hp2 hpk
    exact le_trans hrec (hsub k hk1 hk2 hk hkv)
termination_by cdist c k
decreasing_by exact cdist_parent_lt k c hkc

/-- Master lemma for `sift_out`: starting from a node `n` whose two
child subtrees are heap-ordered, the loop (1) preserves length,
(2) changes nothing outside `n`'s subtree intersected with `[lo, hi)`,
(3) permutes the array, (4) leaves the whole subtree of `n`
heap-ordered, (5) never worsens the value at `n`, and (6) fills the
subtree only with values the subtree already held. -/
theorem sift_out_go_spec (lo c hi : Nat) (n : Nat) (a : List Int) (cnt : Cnt)
    (hn1 : lo ≤ n) (hn2 : n < hi) (hlen : hi ≤ a.length)
    (hH : ∀ j, lo ≤ j → j < hi → Desc c n j → j ≠ n → get_parent j c ≠ n →
      lget a (get_parent j c) ≤ lget a j) :
    (sift_out_go lo c hi n a cnt).1.length = a.length ∧
    (∀ j, (j < lo ∨ hi ≤ j ∨ ¬ Desc c n j) →
      lget (sift_out_go lo c hi n a cnt).1 j = lget a j) ∧
    ((sift_out_go lo c hi n a cnt).1 : Multiset Int) = (a : Multiset Int) ∧
    (∀ j, lo ≤ j → j < hi → Desc c n j → j ≠ n →
      lget (sift_out_go lo c hi n a cnt).1 (get_parent j c) ≤
        lget (sift_out_go lo c hi n a cnt).1 j) ∧
    lget (sift_out_go lo c hi n a cnt).1 n ≤ lget a n ∧
    (∀ j, lo ≤ j → j < hi → Desc c n j →
      ∃ k, lo ≤ k ∧ k < hi ∧ Desc c n k ∧
        lget (sift_out_go lo c hi n a cnt).1 j = lget a k) := by
  rcases hv : pick_vio lo c hi n a cnt with ⟨vo, cnt'⟩
  cases vo with
  | none =>
    have hr : sift_out_go lo c hi n a cnt = (a, cnt') := by
      unfold sift_out_go
      rw [hv]
    rw [hr]
    have hnone := pick_vio_none lo c hi n a cnt cnt' hv
    refine ⟨rfl, fun j _ => rfl, rfl, ?_, le_refl _, fun j h1 h2 _ => ⟨j, h1, h2, by assumption, rfl⟩⟩
    intro j hj1 hj2 hjd hjn
    by_cases hpn : get_parent j c = n
    · -- `j` is a child of `n`; the loop found no violation there
      have hjc : j ≠ c := (desc_parent c n j hjd hjn).1
      have hch := child_of_parent j c hjc
      rw [hpn] at hch
      rw [hpn]
      exact hnone j hch hj1 hj2
    · exact hH j hj1 hj2 hjd hjn hpn
  | some v =>
    have hr : sift_out_go lo c hi n a cnt =
        sift_out_go lo c hi v (lswap a n v) cnt'.swp := by
      conv_lhs => unfold sift_out_go
      rw [hv]
    rcases pick_vio_some lo c hi n a cnt v cnt' hv with
      ⟨⟨hvr1, hvr2⟩, hvc, hvp, hvle, hvbest⟩
    have hnv : n ≠ v := by
      have := cdist_parent_lt v c hvc
      rw [hvp] at this
      intro hh
      rw [hh] at this
      omega
    have hdnv : Desc c n v := desc_step_child c n v hvc hvp
    have hnotdesc : ¬ Desc c v n := not_desc_parent c n v hvc hvp
    have hlen' : hi ≤ (lswap a n v).length := by
      rw [length_lswap]
      exact hlen
    have hnlen : n < a.length := lt_of_lt_of_le hn2 hlen
    have hvlen : v < a.length := lt_of_lt_of_le hvr2 hlen
    -- values after the swap
    have han : lget (lswap a n v) n = lget a v := lget_lswap_left a n v hnlen hvlen
    have hav : lget (lswap a n v) v = lget a n := lget_lswap_right a n v hvlen
    have hao : ∀ j, j ≠ n → j ≠ v → lget (lswap a n v) j = lget a j :=
      fun j h1 h2 => lget_lswap_ne a n v j h1 h2
    -- the minimum of v's subtree (in `a`) is at `v`
    have hsubv : ∀ j, lo ≤ j → j < hi → Desc c v j → j ≠ v →
        lget a (get_parent j c) ≤ lget a j := by
      intro j hj1 hj2 hjd hjv
      have hjdn : Desc c n j := desc_trans c n v j hdnv hjd
      have hjn : j ≠ n := by
        intro hh
        rw [hh] at hjd
        exact hnotdesc hjd
      have hpd : Desc c v (get_parent j c) := (desc_parent c v j hjd hjv).2
      have hpn : get_parent j c ≠ n := by
        intro hh
        rw [hh] at hpd
        exact hnotdesc hpd
      exact hH j hj1 hj2 hjdn hjn hpn
    have hvmin : ∀ k, lo ≤ k → k < hi → Desc c v k → lget a v ≤ lget a k :=
      subtree_root_min lo c hi a v hvr1 hvr2 hsubv
    -- hypotheses for the recursive call
    have hH' : ∀ j, lo ≤ j → j < hi → Desc c v j → j ≠ v → get_parent j c ≠ v →
        lget (lswap a n v) (get_parent j c) ≤ lget (lswap a n v) j := by
      intro j hj1 hj2 hjd hjv hjp
      have hjdn : Desc c n j := desc_trans c n v j hdnv hjd
      have hjn : j ≠ n := by
        intro hh
        rw [hh] at hjd
        exact hnotdesc hjd
      have hpd : Desc c v (get_parent j c) := (desc_parent c v j hjd hjv).2
      have hpn : get_parent j c ≠ n := by
        intro hh
        rw [hh] at hpd
        exact hnotdesc hpd
      rw [hao j hjn hjv, hao (get_parent j c) hpn hjp]
      exact hH j hj1 hj2 hjdn hjn hpn
    have IH := sift_out_go_spec lo c hi v (lswap a n v) cnt'.swp hvr1 hvr2 hlen' hH'
    rcases IH with ⟨ih_len, ih_loc, ih_perm, ih_heap, ih_root, ih_vals⟩
    rw [hr]
    have hrn : lget (sift_out_go lo c hi v (lswap a n v) cnt'.swp).1 n = lget a v := by
      rw [ih_loc n (Or.inr (Or.inr hnotdesc))]
      exact han
    refine ⟨?_, ?_, ?_, ?_, ?_, ?_⟩
    · rw [ih_len, length_lswap]
    · intro j hj
      have hjnd : j < lo ∨ hi ≤ j ∨ ¬ Desc c v j := by
        rcases hj with h | h | h
        · exact Or.inl h
        · exact Or.inr (Or.inl h)
        · refine Or.inr (Or.inr ?_)
          intro hd
          exact h (desc_trans c n v j hdnv hd)
      rw [ih_loc j hjnd]
      have hjn : j ≠ n := by
        intro hh
        subst hh
        rcases hj with h | h | h
        · omega
        · omega
        · exact h Desc.refl
      have hjv : j ≠ v := by
        intro hh
        subst hh
        rcases hj with h | h | h
        · omega
        · omega
        · exact h hdnv
      exact hao j hjn hjv
    · rw [ih_perm]
      exact multiset_lswap a n v hnlen hvlen
    · intro j hj1 hj2 hjd hjn
      by_cases hjdv : Desc c v j
      · by_cases hjv : j = v
        · -- the edge from `n` into `v`
          rw [hjv, hvp, hrn]
          rcases ih_vals v hvr1 hvr2 Desc.refl with ⟨k, hk1, hk2, hkd, hkval⟩
          rw [hkval]
          by_cases hkv : k = v
          · rw [hkv, hav]
            exact hvle
          · have hkn : k ≠ n := by
              intro hh
              rw [hh] at hkd
              exact hnotdesc hkd
            rw [hao k hkn hkv]
            exact hvmin k hk1 hk2 hkd
        · exact ih_heap j hj1 hj2 hjdv hjv
      · -- `j` is in `n`'s subtree but not in `v`'s: untouched
        have hjv : j ≠ v := by
          intro hh
          rw [hh] at hjdv
          exact hjdv Desc.refl
        have hpdv : ¬ Desc c v (get_parent j c) := by
          intro hh
          exact hjdv (Desc.step j (desc_parent c n j hjd hjn).1 hh)
        have hjn2 : j ≠ n := hjn
        rw [ih_loc j (Or.inr (Or.inr hjdv))]
        by_cases hpn : get_parent j c = n
        · -- `j` is the other child of `n`
          rw [hpn, hrn]
          have hjc : j ≠ c := (desc_parent c n j hjd hjn).1
          have hch := child_of_parent j c hjc
          rw [hpn] at hch
          rw [hao j hjn2 hjv]
          exact hvbest j hch hj1 hj2
        · rw [ih_loc (get_parent j c) (Or.inr (Or.inr hpdv))]
          have hpv : get_parent j c ≠ v := by
            intro hh
            rw [hh] at hpdv
            exact hpdv Desc.refl
          rw [hao j hjn2 hjv, hao (get_parent j c) hpn hpv]
          exact hH j hj1 hj2 hjd hjn hpn
    · rw [hrn]
      exact hvle
    · intro j hj1 hj2 hjd
      by_cases hjdv : Desc c v j
      · rcases ih_vals j hj1 hj2 hjdv with ⟨k, hk1, hk2, hkd, hkval⟩
        by_cases hkv : k = v
        · subst hkv
          rw [hkval, hav]
          exact ⟨n, hn1, hn2, Desc.refl, rfl⟩
        · have hkn : k ≠ n := by
            intro hh
            rw [hh] at hkd
            exact hnotdesc hkd
          rw [hkval, hao k hkn hkv]
          exact ⟨k, hk1, hk2, desc_trans c n v k hdnv hkd, rfl⟩
      · by_cases hjn : j = n
        · subst hjn
          rw [hrn]
          exact ⟨v, hvr1, hvr2, hdnv, rfl⟩
        · have hjv : j ≠ v := by
            intro hh
            rw [hh] at hjdv
            exact hjdv Desc.refl
          rw [ih_loc j (Or.inr (Or.inr hjdv)), hao j hjn hjv]
          exact ⟨j, hj1, hj2, hjd, rfl⟩
termination_by c + hi - cdist c n
decreasing_by
  have h1 : cdist c n < cdist c v := by
    have := cdist_parent_lt v c hvc
    rw [hvp] at this
    exact this
  have h2 := cdist_lt_of_lt c v hi hvr2
  omega

/-- The parent of an in-range node lies between the node and the
center, hence in range when the center is too. -/
theorem parent_in_range (lo c hi j : Nat) (hc1 : lo ≤ c) (hc2 : c < hi)
    (hj1 : lo ≤ j) (hj2 : j < hi) (hjc : j ≠ c) :
    lo ≤ get_parent j c ∧ get_parent j c < hi := by
  rcases Nat.lt_trichotomy j c with h | h | h
  · have := parent_left_range j c h
    omega
  · exact absurd h hjc
  · have := parent_right_range j c h
    omega

/-- Master lemma for `sift_in`: pulling node `i` toward the root
restores the full heap invariant, provided the invariant already holds
at every node other than `i`, and `i`'s children (if any are in range)
are already dominated by `i`'s parent.  Only positions between the
center and `i` are touched. -/
theorem sift_in_go_spec (lo c hi : Nat) (i : Nat) (a : List Int) (cnt : Cnt)
    (hc1 : lo ≤ c) (hc2 : c < hi) (hi1 : lo ≤ i) (hi2 : i < hi) (hlen : hi ≤ a.length)
    (hH1 : ∀ j, lo ≤ j → j < hi → j ≠ c → j ≠ i → lget a (get_parent j c) ≤ lget a j)
    (hH2 : i ≠ c → ∀ j, lo ≤ j → j < hi → j ≠ c → get_parent j c = i →
      lget a (get_parent i c) ≤ lget a j) :
    (sift_in_go c i a cnt).1.length = a.length ∧
    (∀ j, (j < min c i ∨ max c i < j) → lget (sift_in_go c i a cnt).1 j = lget a j) ∧
    ((sift_in_go c i a cnt).1 : Multiset Int) = (a : Multiset Int) ∧
    (∀ j, lo ≤ j → j < hi → j ≠ c →
      lget (sift_in_go c i a cnt).1 (get_parent j c) ≤ lget (sift_in_go c i a cnt).1 j) := by
  by_cases hic : i = c
  · have hr : sift_in_go c i a cnt = (a, cnt) := by
      unfold sift_in_go
      rw [dif_pos hic]
    rw [hr]
    refine ⟨rfl, fun j _ => rfl, rfl, ?_⟩
    intro j hj1 hj2 hjc
    exact hH1 j hj1 hj2 hjc (by rw [hic]; exact hjc)
  · have hp := parent_in_range lo c hi i hc1 hc2 hi1 hi2 hic
    by_cases hb : lget a i ≤ lget a (get_parent i c)
    · -- violating: swap with the parent and continue from there
      have hr : sift_in_go c i a cnt =
          sift_in_go c (get_parent i c) (lswap a i (get_parent i c)) cnt.cmp.swp := by
        conv_lhs => unfold sift_in_go
        rw [dif_neg hic, if_pos hb]
      set p := get_parent i c with hpdef
      have hilen : i < a.length := lt_of_lt_of_le hi2 hlen
      have hplen : p < a.length := lt_of_lt_of_le hp.2 hlen
      have hpi : p ≠ i := by
        have hlt := cdist_parent_lt i c hic
        rw [← hpdef] at hlt
        intro hh
        rw [hh] at hlt
        omega
      have hai : lget (lswap a i p) i = lget a p := lget_lswap_left a i p hilen hplen
      have hap : lget (lswap a i p) p = lget a i := lget_lswap_right a i p hplen
      have hao : ∀ j, j ≠ i → j ≠ p → lget (lswap a i p) j = lget a j :=
        fun j h1 h2 => lget_lswap_ne a i p j h1 h2
      have hcc : get_parent c c = c := by
        unfold get_parent
        rw [if_neg (lt_irrefl c)]
        omega
      have hchild_ne_p : ∀ j, get_parent j c = i → j ≠ p := by
        intro j hpj hh
        rw [hh] at hpj
        by_cases hpc : p = c
        · rw [hpc, hcc] at hpj
          exact hic hpj.symm
        · have h1 := cdist_parent_lt p c hpc
          rw [hpj] at h1
          have h2 := cdist_parent_lt i c hic
          rw [← hpdef] at h2
          omega
      -- between-ness of the parent
      have hbetween : min c i ≤ p ∧ p ≤ max c i ∧ min c i ≤ min c p ∧ max c p ≤ max c i := by
        rcases Nat.lt_trichotomy i c with h | h | h
        · have hb2 := parent_left_range i c h
          rw [← hpdef] at hb2
          refine ⟨by omega, by omega, by omega, by omega⟩
        · exact absurd h hic
        · have hb2 := parent_right_range i c h
          rw [← hpdef] at hb2
          refine ⟨by omega, by omega, by omega, by omega⟩
      -- hypotheses for the recursive call
      have hH1' : ∀ j, lo ≤ j → j < hi → j ≠ c → j ≠ p →
          lget (lswap a i p) (get_parent j c) ≤ lget (lswap a i p) j := by
        intro j hj1 hj2 hjc hjp
        by_cases hji : j = i
        · rw [hji]
          show lget (lswap a i p) p ≤ lget (lswap a i p) i
          rw [hap, hai]
          exact hb
        · by_cases hpj : get_parent j c = i
          · rw [hpj, hai, hao j hji (hchild_ne_p j hpj)]
            exact hH2 hic j hj1 hj2 hjc hpj
          · by_cases hpp : get_parent j c = p
            · rw [hpp, hap, hao j hji hjp]
              have h1 := hH1 j hj1 hj2 hjc hji
              rw [hpp] at h1
              exact le_trans hb h1
            · rw [hao j hji hjp, hao (get_parent j c) hpj hpp]
              exact hH1 j hj1 hj2 hjc hji
      have hH2' : p ≠ c → ∀ j, lo ≤ j → j < hi → j ≠ c → get_parent j c = p →
          lget (lswap a i p) (get_parent p c) ≤ lget (lswap a i p) j := by
        intro hpc j hj1 hj2 hjc hpj
        have hppi : get_parent p c ≠ i := by
          intro hh
          have h1 := cdist_parent_lt p c hpc
          rw [hh] at h1
          have h2 := cdist_parent_lt i c hic
          rw [← hpdef] at h2
          omega
        have hppp : get_parent p c ≠ p := by
          have h1 := cdist_parent_lt p c hpc
          intro hh
          rw [hh] at h1
          omega
        rw [hao (get_parent p c) hppi hppp]
        have hgp : lget a (get_parent p c) ≤ lget a p := hH1 p hp.1 hp.2 hpc hpi
        by_cases hji : j = i
        · rw [hji, hai]
          exact hgp
        · rw [hao j hji (by
            intro hh
            rw [hh] at hpj
            have h1 := cdist_parent_lt p c hpc
            rw [hpj] at h1
            omega)]
          have h1 := hH1 j hj1 hj2 hjc hji
          rw [hpj] at h1
          exact le_trans hgp h1
      have hlen2 : hi ≤ (lswap a i p).length := by
        rw [length_lswap]
        exact hlen
      have IH := sift_in_go_spec lo c hi p (lswap a i p) cnt.cmp.swp hc1 hc2
        hp.1 hp.2 hlen2 hH1' hH2'
      rcases IH with ⟨ih_len, ih_loc, ih_perm, ih_heap⟩
      rw [hr]
      refine ⟨?_, ?_, ?_, ih_heap⟩
      · rw [ih_len, length_lswap]
      · intro j hj
        have hj2 : j < min c p ∨ max c p < j := by omega
        rw [ih_loc j hj2]
        exact hao j (by omega) (by omega)
      · rw [ih_perm]
        exact multiset_lswap a i p hilen hplen
    · -- no violation: the loop stops; the edge into `i` holds
      have hr : sift_in_go c i a cnt = (a, cnt.cmp) := by
        unfold sift_in_go
        rw [dif_neg hic, if_neg hb]
      rw [hr]
      refine ⟨rfl, fun j _ => rfl, rfl, ?_⟩
      intro j hj1 hj2 hjc
      by_cases hji : j = i
      · rw [hji]
        exact le_of_not_le hb
      · exact hH1 j hj1 hj2 hjc hji
termination_by cdist c i
decreasing_by
  exact cdist_parent_lt i c hic

/-!  Correctness of `recenter`: a standard two-sided heapify.  Nodes are
sifted from the recenter limits inward; each sift re-establishes the
heap order of one subtree. -/

/-- The subtree rooted at `x` is heap-ordered on `[lo, hi)`. -/
def SubtreeHeap (a : List Int) (lo c hi x : Nat) : Prop :=
  ∀ j, lo ≤ j → j < hi → Desc c x j → j ≠ x → lget a (get_parent j c) ≤ lget a j

theorem recenter_limit_left_bounds (lo c : Nat) (h : lo ≤ c) :
    lo ≤ get_recenter_limit lo c ∧ get_recenter_limit lo c ≤ c := by
  unfold get_recenter_limit
  rw [if_neg (by omega : ¬ lo > c)]
  omega

theorem recenter_limit_right_bounds (c hi : Nat) (h : c < hi) :
    c < get_recenter_limit hi c ∧ get_recenter_limit hi c ≤ hi := by
  unfold get_recenter_limit
  rw [if_pos (by omega : hi > c)]
  omega

/-- Nodes strictly below the left recenter limit have no in-range
proper descendants. -/
theorem below_left_limit_leaf (lo c x j : Nat) (hlo : lo ≤ c)
    (hx : x < get_recenter_limit lo c) (hd : Desc c x j) (hne : j ≠ x) :
    j < lo := by
  have hlim := recenter_limit_left_bounds lo c hlo
  have hxl : x < c := by omega
  have hdd := desc_cdist_double c x j hd hne
  have hside := (desc_side c x j hd).2 hxl
  have hcx : cdist c x = c - x := by
    unfold cdist
    rw [if_neg (by omega : ¬ c ≤ x)]
  have hcj : cdist c j = c - j := by
    unfold cdist
    rw [if_neg (by omega : ¬ c ≤ j)]
  unfold get_recenter_limit at hx
  rw [if_neg (by omega : ¬ lo > c)] at hx
  omega

/-- Nodes at or above the right recenter limit have no in-range proper
descendants. -/
theorem above_right_limit_leaf (c hi x j : Nat) (hc : c < hi)
    (hx : get_recenter_limit hi c ≤ x) (hd : Desc c x j) (hne : j ≠ x) :
    hi ≤ j := by
  have hlim := recenter_limit_right_bounds c hi hc
  have hxg : c < x := by omega
  have hdd := desc_cdist_double c x j hd hne
  have hside := (desc_side c x j hd).1 hxg
  have hcx : cdist c x = x - c := by
    unfold cdist
    rw [if_pos (by omega : c ≤ x)]
  have hcj : cdist c j = j - c := by
    unfold cdist
    rw [if_pos (by omega : c ≤ j)]
  unfold get_recenter_limit at hx
  rw [if_pos (by omega : hi > c)] at hx
  omega

theorem parent_val_lt (ch c k : Nat) (hch : ch ≠ c)
    (hp : get_parent ch c = k) (hk : k < c) : ch < k := by
  rcases Nat.lt_trichotomy ch c with h | h | h
  · have := parent_left_range ch c h
    omega
  · exact absurd h hch
  · have := parent_right_range ch c h
    omega

theorem parent_val_gt (ch c i : Nat) (hch : ch ≠ c)
    (hp : get_parent ch c = i) (hi : c < i) : i < ch := by
  rcases Nat.lt_trichotomy ch c with h | h | h
  · have := parent_left_range ch c h
    omega
  · exact absurd h hch
  · have := parent_right_range ch c h
    omega

/-- The ascending left sweep of `recenter`: processing
`k, k+1, ..., k+m-1` (all `< c`) extends the zone of heap-ordered
subtrees from `[lo, k)` to `[lo, k+m)`. -/
theorem sweep_left (lo c hi : Nat) (m : Nat) :
    ∀ (k : Nat) (s : Cheap), s.lo = lo → s.c = c → s.hi = hi →
    lo ≤ k → k + m ≤ c → c < hi → hi ≤ s.a.length →
    (∀ x, lo ≤ x → x < k → SubtreeHeap s.a lo c hi x) →
    ((List.range' k m).foldl Cheap.sift_out s).lo = lo ∧
    ((List.range' k m).foldl Cheap.sift_out s).c = c ∧
    ((List.range' k m).foldl Cheap.sift_out s).hi = hi ∧
    ((List.range' k m).foldl Cheap.sift_out s).a.length = s.a.length ∧
    (((List.range' k m).foldl Cheap.sift_out s).a : Multiset Int) = (s.a : Multiset Int) ∧
    (∀ j, j < lo ∨ hi ≤ j →
      lget ((List.range' k m).foldl Cheap.sift_out s).a j = lget s.a j) ∧
    (∀ x, lo ≤ x → x < k + m →
      SubtreeHeap ((List.range' k m).foldl Cheap.sift_out s).a lo c hi x) := by
  induction m with
  | zero =>
    intro k s hs1 hs2 hs3 hk1 hk2 hc hlen hall
    refine ⟨hs1, hs2, hs3, rfl, rfl, fun j _ => rfl, ?_⟩
    intro x hx1 hx2
    exact hall x hx1 (by omega)
  | succ m ih =>
    intro k s hs1 hs2 hs3 hk1 hk2 hc hlen hall
    rw [List.range'_succ, List.foldl_cons]
    -- the state after sifting node k
    have hkc : k < c := by omega
    have hkhi : k < hi := by omega
    have ha_eq : (s.sift_out k).a = (sift_out_go s.lo s.c s.hi k s.a s.cnt).1 := rfl
    rw [hs1, hs2, hs3] at ha_eq
    have hH : ∀ j, lo ≤ j → j < hi → Desc c k j → j ≠ k → get_parent j c ≠ k →
        lget s.a (get_parent j c) ≤ lget s.a j := by
      intro j hj1 hj2 hjd hjk hjp
      rcases desc_child_decomp c k j hjd hjk with ⟨ch, hchc, hchp, hchd⟩
      have hchk : ch < k := parent_val_lt ch c k hchc hchp hkc
      have hjch : j ≠ ch := by
        intro hh
        rw [hh] at hjp
        exact hjp hchp
      by_cases hchlo : lo ≤ ch
      · exact hall ch hchlo hchk j hj1 hj2 hchd hjch
      · -- the child is below `lo`, so its subtree misses `[lo, hi)`
        exfalso
        have hchc2 : ch < c := by omega
        have := (desc_side c ch j hchd).2 hchc2
        omega
    have hspec := sift_out_go_spec lo c hi k s.a s.cnt (by omega) hkhi hlen hH
    rcases hspec with ⟨sp_len, sp_loc, sp_perm, sp_heap, _, _⟩
    rw [← ha_eq] at sp_len sp_loc sp_perm sp_heap
    have hall' : ∀ x, lo ≤ x → x < k + 1 → SubtreeHeap (s.sift_out k).a lo c hi x := by
      intro x hx1 hx2 j hj1 hj2 hjd hjx
      by_cases hxk : x = k
      · subst hxk
        exact sp_heap j hj1 hj2 hjd hjx
      · have hxk2 : x < k := by omega
        have hxc : x < c := by omega
        by_cases hjk : Desc c k j
        · -- edge inside the freshly fixed subtree of k
          have hjne : j ≠ k := by
            have := (desc_side c x j hjd).2 hxc
            omega
          exact sp_heap j hj1 hj2 hjk hjne
        · -- untouched territory
          have hjc : j ≠ c := by
            have := (desc_side c x j hjd).2 hxc
            omega
          have hpk : ¬ Desc c k (get_parent j c) := by
            intro hh
            exact hjk (Desc.step j hjc hh)
          rw [sp_loc j (Or.inr (Or.inr hjk)), sp_loc (get_parent j c) (Or.inr (Or.inr hpk))]
          exact hall x hx1 hxk2 j hj1 hj2 hjd hjx
    have hrec := ih (k + 1) (s.sift_out k) hs1 hs2 hs3 (by omega) (by omega) hc
      (by rw [sp_len]; exact hlen) hall'
    rcases hrec with ⟨r1, r2, r3, r4, r5, r6, r7⟩
    refine ⟨r1, r2, r3, ?_, ?_, ?_, ?_⟩
    · rw [r4, sp_len]
    · rw [r5, sp_perm]
    · intro j hj
      rw [r6 j hj, sp_loc j (by omega)]
    · intro x hx1 hx2
      exact r7 x hx1 (by omega)

/-- The descending right sweep of `recenter`: processing
`c+m-1, ..., c+1, c` extends the zone of heap-ordered subtrees from
`[c+m, hi)` down to `[c, hi)`, while preserving the finished left
side. -/
theorem sweep_right (lo c hi : Nat) (m : Nat) :
    ∀ (s : Cheap), s.lo = lo → s.c = c → s.hi = hi →
    lo ≤ c → c + m ≤ hi → c < hi → hi ≤ s.a.length →
    (∀ x, lo ≤ x → x < c → SubtreeHeap s.a lo c hi x) →
    (∀ x, c + m ≤ x → x < hi → SubtreeHeap s.a lo c hi x) →
    (((List.range' c m).reverse).foldl Cheap.sift_out s).lo = lo ∧
    (((List.range' c m).reverse).foldl Cheap.sift_out s).c = c ∧
    (((List.range' c m).reverse).foldl Cheap.sift_out s).hi = hi ∧
    (((List.range' c m).reverse).foldl Cheap.sift_out s).a.length = s.a.length ∧
    ((((List.range' c m).reverse).foldl Cheap.sift_out s).a : Multiset Int) =
      (s.a : Multiset Int) ∧
    (∀ j, j < lo ∨ hi ≤ j →
      lget (((List.range' c m).reverse).foldl Cheap.sift_out s).a j = lget s.a j) ∧
    (∀ x, lo ≤ x → x < c →
      SubtreeHeap (((List.range' c m).reverse).foldl Cheap.sift_out s).a lo c hi x) ∧
    (∀ x, c ≤ x → x < hi →
      SubtreeHeap (((List.range' c m).reverse).foldl Cheap.sift_out s).a lo c hi x) := by
  induction m with
  | zero =>
    intro s hs1 hs2 hs3 hlc hm hc hlen hallL hallR
    refine ⟨hs1, hs2, hs3, rfl, rfl, fun j _ => rfl, hallL, ?_⟩
    intro x hx1 hx2
    exact hallR x (by omega) hx2
  | succ m ih =>
    intro s hs1 hs2 hs3 hlc hm hc hlen hallL hallR
    have hsplit : (List.range' c (m + 1)).reverse = (c + m) :: (List.range' c m).reverse := by
      rw [List.range'_1_concat]
      simp [List.reverse_append]
    rw [hsplit, List.foldl_cons]
    -- the state after sifting node i := c + m
    have hihi : c + m < hi := by omega
    have ha_eq : (s.sift_out (c + m)).a =
        (sift_out_go s.lo s.c s.hi (c + m) s.a s.cnt).1 := rfl
    rw [hs1, hs2, hs3] at ha_eq
    have hH : ∀ j, lo ≤ j → j < hi → Desc c (c + m) j → j ≠ c + m →
        get_parent j c ≠ c + m → lget s.a (get_parent j c) ≤ lget s.a j := by
      intro j hj1 hj2 hjd hjk hjp
      rcases desc_child_decomp c (c + m) j hjd hjk with ⟨ch, hchc, hchp, hchd⟩
      have hjch : j ≠ ch := by
        intro hh
        rw [hh] at hjp
        exact hjp hchp
      rcases Nat.lt_trichotomy ch c with hlt | heq | hgt
      · -- a left-side child: only possible when i = c
        have hpl := parent_left_range ch c hlt
        have hmz : c + m = c := by omega
        by_cases hchlo : lo ≤ ch
        · exact hallL ch hchlo hlt j hj1 hj2 hchd hjch
        · exfalso
          have := (desc_side c ch j hchd).2 hlt
          omega
      · exact absurd heq hchc
      · -- a right-side child: it lies beyond c + m
        have hgt2 : c + m < ch := by
          rcases Nat.lt_or_ge c (c + m) with h | h
          · exact parent_val_gt ch c (c + m) hchc hchp h
          · omega
        by_cases hchhi : ch < hi
        · exact hallR ch (by omega) hchhi j hj1 hj2 hchd hjch
        · exfalso
          have := (desc_side c ch j hchd).1 hgt
          omega
    have hH2 : ∀ j, lo ≤ j → j < hi → Desc c (c + m) j → j ≠ c + m →
        get_parent j c ≠ c + m → lget s.a (get_parent j c) ≤ lget s.a j := hH
    have hspec := sift_out_go_spec lo c hi (c + m) s.a s.cnt (by omega) hihi hlen hH2
    rcases hspec with ⟨sp_len, sp_loc, sp_perm, sp_heap, _, _⟩
    rw [← ha_eq] at sp_len sp_loc sp_perm sp_heap
    -- left side is untouched unless i = c, in which case everything is fixed
    have hallL' : ∀ x, lo ≤ x → x < c → SubtreeHeap (s.sift_out (c + m)).a lo c hi x := by
      intro x hx1 hx2 j hj1 hj2 hjd hjx
      have hxc : x < c := hx2
      have hjx2 : j ≤ x := (desc_side c x j hjd).2 hxc
      have hjc : j ≠ c := by omega
      by_cases hm0 : m = 0
      · -- i = c: every node is in c's subtree
        have hjdc : Desc c (c + m) j := by
          rw [hm0]
          simpa using desc_c_all c j
        have hjnec : j ≠ c + m := by omega
        exact sp_heap j hj1 hj2 hjdc hjnec
      · -- i > c: the whole left side is untouched
        have hnd : ¬ Desc c (c + m) j := by
          intro hh
          have := (desc_side c (c + m) j hh).1 (by omega)
          omega
        have hndp : ¬ Desc c (c + m) (get_parent j c) := by
          intro hh
          exact hnd (Desc.step j hjc hh)
        rw [sp_loc j (Or.inr (Or.inr hnd)), sp_loc (get_parent j c) (Or.inr (Or.inr hndp))]
        exact hallL x hx1 hx2 j hj1 hj2 hjd hjx
    have hallR' : ∀ x, c + m ≤ x → x < hi → SubtreeHeap (s.sift_out (c + m)).a lo c hi x := by
      intro x hx1 hx2 j hj1 hj2 hjd hjx
      by_cases hxi : x = c + m
      · subst hxi
        exact sp_heap j hj1 hj2 hjd hjx
      · have hxgt : c + m < x := by omega
        by_cases hjk : Desc c (c + m) j
        · have hjne : j ≠ c + m := by
            have := (desc_side c x j hjd).1 (by omega)
            omega
          exact sp_heap j hj1 hj2 hjk hjne
        · have hjc : j ≠ c := by
            have := (desc_side c x j hjd).1 (by omega)
            omega
          have hndp : ¬ Desc c (c + m) (get_parent j c) := by
            intro hh
            exact hjk (Desc.step j hjc hh)
          rw [sp_loc j (Or.inr (Or.inr hjk)), sp_loc (get_parent j c) (Or.inr (Or.inr hndp))]
          exact hallR x (by omega) hx2 j hj1 hj2 hjd hjx
    have hrec := ih (s.sift_out (c + m)) hs1 hs2 hs3 hlc (by omega) hc
      (by rw [sp_len]; exact hlen) hallL' hallR'
    rcases hrec with ⟨r1, r2, r3, r4, r5, r6, r7, r8⟩
    refine ⟨r1, r2, r3, ?_, ?_, ?_, r7, r8⟩
    · rw [r4, sp_len]
    · rw [r5, sp_perm]
    · intro j hj
      rw [r6 j hj, sp_loc j (by omega)]

/-- Correctness of `Cheap::recenter`: from any state with a well-formed
range (`lo ≤ c < hi ≤ len`) it establishes the heap invariant, touching
only `[lo, hi)` and permuting the array. -/
theorem recenter_spec (s : Cheap) (h1 : s.lo ≤ s.c) (h2 : s.c < s.hi)
    (h3 : s.hi ≤ s.a.length) :
    s.recenter.lo = s.lo ∧ s.recenter.c = s.c ∧ s.recenter.hi = s.hi ∧
    s.recenter.a.length = s.a.length ∧
    (s.recenter.a : Multiset Int) = (s.a : Multiset Int) ∧
    (∀ j, j < s.lo ∨ s.hi ≤ j → lget s.recenter.a j = lget s.a j) ∧
    HeapInvOn s.recenter.a s.lo s.c s.hi := by
  have hll := recenter_limit_left_bounds s.lo s.c h1
  have hlr := recenter_limit_right_bounds s.c s.hi h2
  have e : s.recenter = ((List.range' s.c
      (get_recenter_limit s.hi s.c - s.c)).reverse).foldl Cheap.sift_out
      ((List.range' (get_recenter_limit s.lo s.c)
        (s.c - get_recenter_limit s.lo s.c)).foldl Cheap.sift_out s) := rfl
  have hbaseL : ∀ x, s.lo ≤ x → x < get_recenter_limit s.lo s.c →
      SubtreeHeap s.a s.lo s.c s.hi x := by
    intro x hx1 hx2 j hj1 hj2 hjd hjx
    exact absurd hj1 (by
      have := below_left_limit_leaf s.lo s.c x j h1 hx2 hjd hjx
      omega)
  have hS1 := sweep_left s.lo s.c s.hi (s.c - get_recenter_limit s.lo s.c)
    (get_recenter_limit s.lo s.c) s rfl rfl rfl hll.1 (by omega) h2 h3 hbaseL
  rcases hS1 with ⟨l1, l2, l3, l4, l5, l6, l7⟩
  set F1 := (List.range' (get_recenter_limit s.lo s.c)
    (s.c - get_recenter_limit s.lo s.c)).foldl Cheap.sift_out s with hF1
  have hallL : ∀ x, s.lo ≤ x → x < s.c → SubtreeHeap F1.a s.lo s.c s.hi x := by
    intro x hx1 hx2
    exact l7 x hx1 (by omega)
  have hbaseR : ∀ x, s.c + (get_recenter_limit s.hi s.c - s.c) ≤ x → x < s.hi →
      SubtreeHeap F1.a s.lo s.c s.hi x := by
    intro x hx1 hx2 j hj1 hj2 hjd hjx
    exact absurd hj2 (by
      have := above_right_limit_leaf s.c s.hi x j h2 (by omega) hjd hjx
      omega)
  have hS2 := sweep_right s.lo s.c s.hi (get_recenter_limit s.hi s.c - s.c)
    F1 l1 l2 l3 h1 (by omega) h2 (by rw [l4]; exact h3) hallL hbaseR
  rcases hS2 with ⟨r1, r2, r3, r4, r5, r6, r7, r8⟩
  rw [e]
  refine ⟨r1, r2, r3, ?_, ?_, ?_, ?_⟩
  · rw [r4, l4]
  · rw [r5, l5]
  · intro j hj
    rw [r6 j hj, l6 j hj]
  · intro i hi2 hi1 hic
    exact r8 s.c (le_refl _) h2 i hi1 hi2 (desc_c_all s.c i) hic

/-! ### Region multisets

`msRegion a lo hi` is the multiset of elements stored at indices `[lo, hi)`.
The drivers are specified in terms of these regions. -/

def msRegion (a : List Int) (lo hi : Nat) : Multiset Int :=
  (((a.take hi).drop lo : List Int) : Multiset Int)

theorem lget_eq_getElem (a : List Int) (j : Nat) (h : j < a.length) : lget a j = a[j] :=
  List.getD_eq_getElem a 0 h

theorem msRegion_empty (a : List Int) (lo hi : Nat) (h : hi ≤ lo) :
    msRegion a lo hi = 0 := by
  unfold msRegion
  have : ((a.take hi).drop lo) = [] := by
    apply List.eq_nil_of_length_eq_zero
    simp [List.length_drop, List.length_take]
    omega
  rw [this]; rfl

theorem msRegion_congr (a b : List Int) (lo hi : Nat) (hlen : a.length = b.length)
    (hhi : hi ≤ a.length) (h : ∀ j, lo ≤ j → j < hi → lget a j = lget b j) :
    msRegion a lo hi = msRegion b lo hi := by
  unfold msRegion
  congr 1
  apply List.ext_getElem
  · simp [List.length_drop, List.length_take, hlen]
  · intro k hk1 hk2
    simp only [List.getElem_drop, List.getElem_take]
    have hlt : lo + k < hi := by
      simp [List.length_drop, List.length_take] at hk1
      omega
    have ha : lo + k < a.length := by omega
    have hb : lo + k < b.length := by omega
    have := h (lo + k) (by omega) hlt
    rw [lget_eq_getElem a _ ha, lget_eq_getElem b _ hb] at this
    exact this

theorem msRegion_split (a : List Int) (lo md hi : Nat) (h1 : lo ≤ md) (h2 : md ≤ hi)
    (h3 : hi ≤ a.length) :
    msRegion a lo hi = msRegion a lo md + msRegion a md hi := by
  unfold msRegion
  rw [Multiset.coe_add]
  congr 1
  have hmd : (a.take md) = (a.take hi).take md := by
    rw [List.take_take]
    congr 1
    omega
  conv_lhs => rw [← List.take_append_drop md (a.take hi)]
  rw [List.drop_append_of_le_length (by simp [List.length_take]; omega)]
  rw [← hmd]

theorem msRegion_single (a : List Int) (k : Nat) (h : k < a.length) :
    msRegion a k (k + 1) = {lget a k} := by
  unfold msRegion
  have : ((a.take (k + 1)).drop k) = [a.getD k 0] := by
    apply List.ext_getElem
    · simp [List.length_drop, List.length_take]; omega
    · intro n hn1 hn2
      simp [List.length_drop, List.length_take] at hn1
      have hn0 : n = 0 := by omega
      subst hn0
      simp [List.getElem_drop, List.getElem_take, List.getD_eq_getElem a 0 h,
        List.getElem?_eq_getElem h]
  rw [this]
  rfl

theorem mem_msRegion (a : List Int) (lo hi : Nat) (v : Int) (hhi : hi ≤ a.length) :
    v ∈ msRegion a lo hi ↔ ∃ k, lo ≤ k ∧ k < hi ∧ lget a k = v := by
  unfold msRegion
  rw [Multiset.mem_coe, List.mem_iff_getElem]
  constructor
  · rintro ⟨n, hn, hv⟩
    refine ⟨lo + n, by omega, ?_, ?_⟩
    · simp [List.length_drop, List.length_take] at hn; omega
    · have hlt : lo + n < hi := by
        simp [List.length_drop, List.length_take] at hn; omega
      rw [lget_eq_getElem a _ (by omega)]
      rw [List.getElem_drop, List.getElem_take] at hv
      exact hv
  · rintro ⟨k, hk1, hk2, hv⟩
    refine ⟨k - lo, by simp [List.length_drop, List.length_take]; omega, ?_⟩
    rw [List.getElem_drop, List.getElem_take]
    rw [lget_eq_getElem a k (by omega)] at hv
    have : lo + (k - lo) = k := by omega
    simp only [this]
    exact hv

/-- If two arrays have the same length, the same global multiset and agree
pointwise outside `[lo, hi)`, then their `[lo, hi)` regions agree as multisets. -/
theorem region_from_global (a b : List Int) (lo hi : Nat) (hlen : a.length = b.length)
    (hlo : lo ≤ hi) (hhi : hi ≤ a.length)
    (hms : (a : Multiset Int) = (b : Multiset Int))
    (hout : ∀ j, j < lo ∨ hi ≤ j → lget a j = lget b j) :
    msRegion a lo hi = msRegion b lo hi := by
  have hpre : msRegion a 0 lo = msRegion b 0 lo := by
    apply msRegion_congr a b 0 lo hlen (by omega)
    intro j _ hj
    exact hout j (Or.inl hj)
  have hpost : msRegion a hi a.length = msRegion b hi b.length := by
    rw [← hlen]
    apply msRegion_congr a b hi a.length hlen (le_refl _)
    intro j hj _
    exact hout j (Or.inr hj)
  have hsa : msRegion a 0 a.length = (a : Multiset Int) := by
    unfold msRegion; simp
  have hsb : msRegion b 0 b.length = (b : Multiset Int) := by
    unfold msRegion; simp
  have hda : msRegion a 0 a.length =
      msRegion a 0 lo + msRegion a lo hi + msRegion a hi a.length := by
    rw [← msRegion_split a 0 lo hi (by omega) hlo hhi,
        ← msRegion_split a 0 hi a.length (by omega) hhi (le_refl _)]
  have hdb : msRegion b 0 b.length =
      msRegion b 0 lo + msRegion b lo hi + msRegion b hi b.length := by
    rw [← msRegion_split b 0 lo hi (by omega) hlo (by omega),
        ← msRegion_split b 0 hi b.length (by omega) (by omega) (le_refl _)]
  have : msRegion a 0 lo + msRegion a lo hi + msRegion a hi a.length =
      msRegion a 0 lo + msRegion b lo hi + msRegion a hi a.length := by
    rw [hpre, hpost] at *
    rw [← hda, hsa, hms, ← hsb, hdb]
  have h3 := add_right_cancel this
  exact add_left_cancel h3

/-- In a valid non-empty c-heap the root holds a minimum of the region. -/
theorem valid_root_min (s : Cheap) (hv : Valid s) (hne : s.lo < s.hi) :
    ∀ j, s.lo ≤ j → j < s.hi → lget s.a s.c ≤ lget s.a j := by
  intro j hj1 hj2
  refine subtree_root_min s.lo s.c s.hi s.a s.c hv.1 (hv.2.2.2.1 hne) ?_ j hj1 hj2
    (desc_c_all s.c j)
  intro k hk1 hk2 hkd hkc
  exact hv.2.2.2.2 k hk2 hk1 hkc

/-! ### Operation-level specifications

Each public operation, on a valid state satisfying its runtime
assertions, produces a valid state; the array is permuted, untouched
outside the affected window, and the popped/pushed value is placed
where the source puts it. -/

theorem sift_out_a (s : Cheap) (ii : Nat) :
    (s.sift_out ii).a = (sift_out_go s.lo s.c s.hi ii s.a s.cnt).1 := rfl

theorem sift_in_a (s : Cheap) (i : Nat) :
    (s.sift_in i).a = (sift_in_go s.c i s.a s.cnt).1 := rfl

/-- `pop_left` on a valid non-empty heap: the view becomes `[lo+1, hi)`
and stays a valid heap; the array is permuted, unchanged outside
`[lo, hi)`, and the old root value lands at index `lo`. -/
theorem pop_left_spec (s : Cheap) (hv : Valid s) (hne : s.lo < s.hi) :
    Valid s.pop_left ∧ s.pop_left.lo = s.lo + 1 ∧ s.pop_left.hi = s.hi ∧
    s.pop_left.a.length = s.a.length ∧
    (s.pop_left.a : Multiset Int) = (s.a : Multiset Int) ∧
    (∀ j, j < s.lo ∨ s.hi ≤ j → lget s.pop_left.a j = lget s.a j) ∧
    lget s.pop_left.a s.lo = lget s.a s.c := by
  obtain ⟨hv1, hv2, hv3, hv4, hv5⟩ := hv
  have hch : s.c < s.hi := hv4 hne
  by_cases hlc : s.lo = s.c
  · by_cases hsz : s.lo + 1 < s.hi
    · have hpl : s.pop_left = Cheap.recenter { s with c := s.hi - 1, lo := s.lo + 1 } := by
        unfold Cheap.pop_left
        rw [if_pos hlc, if_pos hsz]
      obtain ⟨r1, r2, r3, r4, r5, r6, r7⟩ :=
        recenter_spec { s with c := s.hi - 1, lo := s.lo + 1 }
          (by dsimp only; omega) (by dsimp only; omega) (by dsimp only; exact hv3)
      dsimp only at r1 r2 r3 r4 r5 r6 r7
      rw [hpl]
      refine ⟨⟨?_, ?_, ?_, ?_, ?_⟩, r1, r3, r4, r5, ?_, ?_⟩
      · rw [r1, r2]; omega
      · rw [r2, r3]; omega
      · rw [r3, r4]; exact hv3
      · rw [r2, r3]; omega
      · rw [r1, r2, r3]; exact r7
      · intro j hj
        exact r6 j (by omega)
      · rw [r6 s.lo (by omega), hlc]
    · have hhi : s.hi = s.lo + 1 := by omega
      have hpl : s.pop_left = { s with lo := s.lo + 1, c := s.lo + 1 } := by
        unfold Cheap.pop_left
        rw [if_pos hlc, if_neg hsz]
      rw [hpl]
      refine ⟨⟨?_, ?_, ?_, ?_, ?_⟩, rfl, rfl, rfl, rfl, fun j _ => rfl, ?_⟩
      · dsimp only; omega
      · dsimp only; omega
      · exact hv3
      · dsimp only; omega
      · intro i hi1 hi2 hic
        dsimp only at hi1 hi2 hic
        omega
      · dsimp only
        rw [hlc]
  · have hlltc : s.lo < s.c := by omega
    have hcl : s.c < s.a.length := by omega
    have hll : s.lo < s.a.length := by omega
    have hpl : s.pop_left =
        Cheap.sift_out
          { s with a := lswap s.a s.c s.lo, cnt := s.cnt.swp, lo := s.lo + 1 }
          s.c := by
      unfold Cheap.pop_left Cheap.swap
      rw [if_neg hlc]
    have hpa : s.pop_left.a =
        (sift_out_go (s.lo + 1) s.c s.hi s.c (lswap s.a s.c s.lo) s.cnt.swp).1 := by
      rw [hpl]; rfl
    have ha1len : (lswap s.a s.c s.lo).length = s.a.length := length_lswap s.a s.c s.lo
    obtain ⟨sp1, sp2, sp3, sp4, sp5, sp6⟩ :=
      sift_out_go_spec (s.lo + 1) s.c s.hi s.c (lswap s.a s.c s.lo) s.cnt.swp
        (by omega) hch (by omega)
        (by
          intro j hj1 hj2 hjd hjc hjp
          have hpr := parent_in_range (s.lo + 1) s.c s.hi j (by omega) hch hj1 hj2 hjc
          rw [lget_lswap_ne s.a s.c s.lo j hjc (by omega),
            lget_lswap_ne s.a s.c s.lo (get_parent j s.c) hjp (by omega)]
          exact hv5 j hj2 (by omega) hjc)
    refine ⟨⟨?_, ?_, ?_, ?_, ?_⟩, ?_, ?_, ?_, ?_, ?_, ?_⟩
    · rw [hpl]; show s.lo + 1 ≤ s.c; omega
    · rw [hpl]; show s.c ≤ s.hi; omega
    · rw [hpl]
      show s.hi ≤ (Cheap.sift_out _ _).a.length
      rw [← hpl, hpa, sp1, ha1len]
      exact hv3
    · rw [hpl]; show s.lo + 1 < s.hi → s.c < s.hi; omega
    · rw [hpl]
      show HeapInvOn (Cheap.sift_out _ _).a (s.lo + 1) s.c s.hi
      rw [← hpl, hpa]
      intro i hi1 hi2 hic
      exact sp4 i hi2 hi1 (desc_c_all s.c i) hic
    · rw [hpl]; rfl
    · rw [hpl]; rfl
    · rw [hpa, sp1, ha1len]
    · rw [hpa, sp3, multiset_lswap s.a s.c s.lo hcl hll]
    · intro j hj
      rw [hpa, sp2 j (by omega)]
      rcases hj with hj | hj
      · exact lget_lswap_ne s.a s.c s.lo j (by omega) (by omega)
      · exact lget_lswap_ne s.a s.c s.lo j (by omega) (by omega)
    · rw [hpa, sp2 s.lo (by omega)]
      exact lget_lswap_right s.a s.c s.lo hll

/-- `pop_right` on a valid non-empty heap: the view becomes
`[lo, hi-1)` and stays a valid heap; the array is permuted, unchanged
outside `[lo, hi)`, and the old root value lands at index `hi-1`. -/
theorem pop_right_spec (s : Cheap) (hv : Valid s) (hne : s.lo < s.hi) :
    Valid s.pop_right ∧ s.pop_right.lo = s.lo ∧ s.pop_right.hi = s.hi - 1 ∧
    s.pop_right.a.length = s.a.length ∧
    (s.pop_right.a : Multiset Int) = (s.a : Multiset Int) ∧
    (∀ j, j < s.lo ∨ s.hi ≤ j → lget s.pop_right.a j = lget s.a j) ∧
    lget s.pop_right.a (s.hi - 1) = lget s.a s.c := by
  obtain ⟨hv1, hv2, hv3, hv4, hv5⟩ := hv
  have hch : s.c < s.hi := hv4 hne
  by_cases hipc : s.hi - 1 = s.c
  · by_cases hsz : s.lo < s.hi - 1
    · have hpr : s.pop_right = Cheap.recenter { s with c := s.lo, hi := s.hi - 1 } := by
        unfold Cheap.pop_right
        rw [if_pos hipc, if_pos hsz]
      obtain ⟨r1, r2, r3, r4, r5, r6, r7⟩ :=
        recenter_spec { s with c := s.lo, hi := s.hi - 1 }
          (by dsimp only; omega) (by dsimp only; omega) (by dsimp only; omega)
      dsimp only at r1 r2 r3 r4 r5 r6 r7
      rw [hpr]
      refine ⟨⟨?_, ?_, ?_, ?_, ?_⟩, r1, r3, r4, r5, ?_, ?_⟩
      · rw [r1, r2]
      · rw [r2, r3]; omega
      · rw [r3, r4]; omega
      · rw [r2, r3]; omega
      · rw [r1, r2, r3]; exact r7
      · intro j hj
        exact r6 j (by omega)
      · rw [r6 (s.hi - 1) (by omega), hipc]
    · have hleq : s.lo = s.hi - 1 := by omega
      have hpr : s.pop_right = { s with c := s.lo, hi := s.hi - 1 } := by
        unfold Cheap.pop_right
        rw [if_pos hipc, if_neg hsz]
      rw [hpr]
      refine ⟨⟨?_, ?_, ?_, ?_, ?_⟩, rfl, rfl, rfl, rfl, fun j _ => rfl, ?_⟩
      · dsimp only; omega
      · dsimp only; omega
      · dsimp only; omega
      · dsimp only; omega
      · intro i hi1 hi2 hic
        dsimp only at hi1 hi2 hic
        omega
      · dsimp only
        rw [hipc]
  · have hchip : s.c < s.hi - 1 := by omega
    have hipl : s.hi - 1 < s.a.length := by omega
    have hcl : s.c < s.a.length := by omega
    have hpr : s.pop_right =
        Cheap.sift_out
          { s with a := lswap s.a (s.hi - 1) s.c, hi := s.hi - 1 }
          s.c := by
      unfold Cheap.pop_right
      rw [if_neg hipc]
    have hpa : s.pop_right.a =
        (sift_out_go s.lo s.c (s.hi - 1) s.c (lswap s.a (s.hi - 1) s.c) s.cnt).1 := by
      rw [hpr]; rfl
    have ha1len : (lswap s.a (s.hi - 1) s.c).length = s.a.length :=
      length_lswap s.a (s.hi - 1) s.c
    obtain ⟨sp1, sp2, sp3, sp4, sp5, sp6⟩ :=
      sift_out_go_spec s.lo s.c (s.hi - 1) s.c (lswap s.a (s.hi - 1) s.c) s.cnt
        hv1 hchip (by omega)
        (by
          intro j hj1 hj2 hjd hjc hjp
          have hpr2 := parent_in_range s.lo s.c (s.hi - 1) j hv1 hchip hj1 hj2 hjc
          rw [lget_lswap_ne s.a (s.hi - 1) s.c j (by omega) hjc,
            lget_lswap_ne s.a (s.hi - 1) s.c (get_parent j s.c) (by omega) hjp]
          exact hv5 j (by omega) hj1 hjc)
    refine ⟨⟨?_, ?_, ?_, ?_, ?_⟩, ?_, ?_, ?_, ?_, ?_, ?_⟩
    · rw [hpr]; show s.lo ≤ s.c; omega
    · rw [hpr]; show s.c ≤ s.hi - 1; omega
    · rw [hpr]
      show s.hi - 1 ≤ (Cheap.sift_out _ _).a.length
      rw [← hpr, hpa, sp1, ha1len]
      omega
    · rw [hpr]; show s.lo < s.hi - 1 → s.c < s.hi - 1; omega
    · rw [hpr]
      show HeapInvOn (Cheap.sift_out _ _).a s.lo s.c (s.hi - 1)
      rw [← hpr, hpa]
      intro i hi1 hi2 hic
      exact sp4 i hi2 hi1 (desc_c_all s.c i) hic
    · rw [hpr]; rfl
    · rw [hpr]; rfl
    · rw [hpa, sp1, ha1len]
    · rw [hpa, sp3, multiset_lswap s.a (s.hi - 1) s.c hipl hcl]
    · intro j hj
      rw [hpa, sp2 j (by omega)]
      rcases hj with hj | hj
      · exact lget_lswap_ne s.a (s.hi - 1) s.c j (by omega) (by omega)
      · exact lget_lswap_ne s.a (s.hi - 1) s.c j (by omega) (by omega)
    · rw [hpa, sp2 (s.hi - 1) (by omega)]
      exact lget_lswap_left s.a (s.hi - 1) s.c hipl hcl

/-- `push_right` on a valid heap with room on the right (`hi < len`,
the source's bounds assertion): the view grows to `[lo, hi+1)`, the
element previously at index `hi` is absorbed, and the heap stays
valid.  Only indices in `[lo, hi+1)` are touched. -/
theorem push_right_spec (s : Cheap) (hv : Valid s) (hroom : s.hi < s.a.length) :
    Valid s.push_right ∧ s.push_right.lo = s.lo ∧ s.push_right.c = s.c ∧
    s.push_right.hi = s.hi + 1 ∧
    s.push_right.a.length = s.a.length ∧
    (s.push_right.a : Multiset Int) = (s.a : Multiset Int) ∧
    (∀ j, j < s.lo ∨ s.hi + 1 ≤ j → lget s.push_right.a j = lget s.a j) := by
  obtain ⟨hv1, hv2, hv3, hv4, hv5⟩ := hv
  have hpa : s.push_right.a = (sift_in_go s.c s.hi s.a s.cnt).1 := rfl
  by_cases hel : s.lo = s.hi
  · have hce : s.hi = s.c := by omega
    have heq : sift_in_go s.c s.hi s.a s.cnt = (s.a, s.cnt) := by
      unfold sift_in_go
      rw [dif_pos hce]
    refine ⟨⟨?_, ?_, ?_, ?_, ?_⟩, rfl, rfl, rfl, ?_, ?_, ?_⟩
    · show s.lo ≤ s.c; omega
    · show s.c ≤ s.hi + 1; omega
    · show s.hi + 1 ≤ s.push_right.a.length
      rw [hpa, heq]; dsimp only; omega
    · show s.lo < s.hi + 1 → s.c < s.hi + 1; omega
    · show HeapInvOn s.push_right.a s.lo s.c (s.hi + 1)
      rw [hpa, heq]
      intro i hi1 hi2 hic
      omega
    · rw [hpa, heq]
    · rw [hpa, heq]
    · intro j _
      rw [hpa, heq]
  · have hne : s.lo < s.hi := by omega
    have hch : s.c < s.hi := hv4 hne
    obtain ⟨si1, si2, si3, si4⟩ :=
      sift_in_go_spec s.lo s.c (s.hi + 1) s.hi s.a s.cnt
        hv1 (by omega) (by omega) (by omega) (by omega)
        (by
          intro j hj1 hj2 hjc hji
          exact hv5 j (by omega) hj1 hjc)
        (by
          intro _ j hj1 hj2 hjc hp
          have := parent_val_gt j s.c s.hi hjc hp hch
          omega)
    refine ⟨⟨?_, ?_, ?_, ?_, ?_⟩, rfl, rfl, rfl, ?_, ?_, ?_⟩
    · show s.lo ≤ s.c; omega
    · show s.c ≤ s.hi + 1; omega
    · show s.hi + 1 ≤ s.push_right.a.length
      rw [hpa, si1]; omega
    · show s.lo < s.hi + 1 → s.c < s.hi + 1; omega
    · show HeapInvOn s.push_right.a s.lo s.c (s.hi + 1)
      rw [hpa]
      intro i hi1 hi2 hic
      exact si4 i hi2 hi1 hic
    · rw [hpa, si1]
    · rw [hpa, si3]
    · intro j hj
      rw [hpa]
      exact si2 j (by omega)

/-- `push_left` on a valid heap with room on the left (`lo > 0`, the
source's assertion): the view grows to `[lo-1, hi)`, the element
previously at index `lo-1` is absorbed, and the heap stays valid.
Only indices in `[lo-1, hi)` are touched. -/
theorem push_left_spec (s : Cheap) (hv : Valid s) (hlo : 0 < s.lo) :
    Valid s.push_left ∧ s.push_left.lo = s.lo - 1 ∧ s.push_left.hi = s.hi ∧
    s.push_left.a.length = s.a.length ∧
    (s.push_left.a : Multiset Int) = (s.a : Multiset Int) ∧
    (∀ j, j < s.lo - 1 ∨ s.hi ≤ j → lget s.push_left.a j = lget s.a j) := by
  obtain ⟨hv1, hv2, hv3, hv4, hv5⟩ := hv
  obtain ⟨m1, m2⟩ := push_left_markers s
  by_cases hce : s.c = s.hi
  · have hel : s.lo = s.hi := by
      by_contra hne
      have := hv4 (by omega)
      omega
    have heq : sift_in_go (s.lo - 1) (s.lo - 1) s.a s.cnt = (s.a, s.cnt) := by
      unfold sift_in_go
      rw [dif_pos rfl]
    have hpl : s.push_left = { s with c := s.lo - 1, lo := s.lo - 1 } := by
      simp only [Cheap.push_left, Cheap.sift_in, if_pos hce]
      rw [heq]
    rw [hpl] at m1 m2
    rw [hpl]
    refine ⟨⟨?_, ?_, ?_, ?_, ?_⟩, m1, m2, rfl, rfl, fun j _ => rfl⟩
    · dsimp only; omega
    · dsimp only; omega
    · dsimp only; omega
    · dsimp only; omega
    · intro i hi1 hi2 hic
      dsimp only at hi1 hi2 hic
      omega
  · have hch : s.c < s.hi := by omega
    have hne : s.lo < s.hi := by omega
    have hpa : s.push_left.a = (sift_in_go s.c (s.lo - 1) s.a s.cnt).1 := by
      simp only [Cheap.push_left, Cheap.sift_in, if_neg hce]
    obtain ⟨si1, si2, si3, si4⟩ :=
      sift_in_go_spec (s.lo - 1) s.c s.hi (s.lo - 1) s.a s.cnt
        (by omega) hch (le_refl _) (by omega) hv3
        (by
          intro j hj1 hj2 hjc hji
          exact hv5 j hj2 (by omega) hjc)
        (by
          intro hlc j hj1 hj2 hjc hp
          have := parent_val_lt j s.c (s.lo - 1) hjc hp (by omega)
          omega)
    have hcm : s.push_left.c = s.c := by
      simp only [Cheap.push_left, Cheap.sift_in, if_neg hce]
    refine ⟨⟨?_, ?_, ?_, ?_, ?_⟩, m1, m2, ?_, ?_, ?_⟩
    · rw [m1, hcm]; omega
    · rw [hcm, m2]; omega
    · rw [m2, hpa, si1]; exact hv3
    · rw [m1, m2, hcm]; omega
    · show HeapInvOn s.push_left.a s.push_left.lo s.push_left.c s.push_left.hi
      rw [m1, m2, hcm, hpa]
      intro i hi1 hi2 hic
      exact si4 i hi2 hi1 hic
    · rw [hpa, si1]
    · rw [hpa, si3]
    · intro j hj
      rw [hpa]
      exact si2 j (by omega)

theorem ms_shuffle (X Y : Multiset Int) (u v : Int) :
    X + {u} + Y + {v} = X + {v} + Y + {u} := by
  have h1 : X + {u} + Y + {v} = X + Y + ({u} + {v}) := by
    simp only [add_assoc]
    rw [add_comm ({u} : Multiset Int) (Y + {v}), add_assoc, add_comm ({v} : Multiset Int)]
  have h2 : X + {v} + Y + {u} = X + Y + ({v} + {u}) := by
    simp only [add_assoc]
    rw [add_comm ({v} : Multiset Int) (Y + {u}), add_assoc, add_comm ({u} : Multiset Int)]
  rw [h1, h2, add_comm ({u} : Multiset Int) ({v} : Multiset Int)]

/-- `poppush i` on a valid non-empty heap (the source asserts `i` is
outside `[lo, hi)`): the markers stay put, the old root value is
written to index `i`, the old value at `i` joins the heap region, and
the heap stays valid. -/
theorem poppush_spec (s : Cheap) (i : Nat) (hv : Valid s) (hne : s.lo < s.hi)
    (hout : i < s.lo ∨ s.hi ≤ i) (hil : i < s.a.length) :
    Valid (s.poppush i) ∧ (s.poppush i).lo = s.lo ∧ (s.poppush i).c = s.c ∧
    (s.poppush i).hi = s.hi ∧
    (s.poppush i).a.length = s.a.length ∧
    ((s.poppush i).a : Multiset Int) = (s.a : Multiset Int) ∧
    (∀ j, (j < s.lo ∨ s.hi ≤ j) → j ≠ i → lget (s.poppush i).a j = lget s.a j) ∧
    lget (s.poppush i).a i = lget s.a s.c ∧
    msRegion (s.poppush i).a s.lo s.hi + {lget s.a s.c} =
      msRegion s.a s.lo s.hi + {lget s.a i} := by
  obtain ⟨hv1, hv2, hv3, hv4, hv5⟩ := hv
  have hch : s.c < s.hi := hv4 hne
  have hcl : s.c < s.a.length := by omega
  have hic : i ≠ s.c := by omega
  have hpa : (s.poppush i).a =
      (sift_out_go s.lo s.c s.hi s.c (lswap s.a i s.c) s.cnt.swp).1 := rfl
  have ha1len : (lswap s.a i s.c).length = s.a.length := length_lswap s.a i s.c
  obtain ⟨sp1, sp2, sp3, sp4, sp5, sp6⟩ :=
    sift_out_go_spec s.lo s.c s.hi s.c (lswap s.a i s.c) s.cnt.swp
      hv1 hch (by omega)
      (by
        intro j hj1 hj2 hjd hjc hjp
        have hpr := parent_in_range s.lo s.c s.hi j hv1 hch hj1 hj2 hjc
        rw [lget_lswap_ne s.a i s.c j (by omega) hjc,
          lget_lswap_ne s.a i s.c (get_parent j s.c) (by omega) hjp]
        exact hv5 j hj2 hj1 hjc)
  have hreg : msRegion (s.poppush i).a s.lo s.hi = msRegion (lswap s.a i s.c) s.lo s.hi := by
    apply region_from_global _ _ s.lo s.hi (by rw [hpa, sp1]) (by omega) (by rw [hpa, sp1, ha1len]; exact hv3)
    · rw [hpa, sp3]
    · intro j hj
      rw [hpa]
      exact sp2 j (by omega)
  refine ⟨⟨?_, ?_, ?_, ?_, ?_⟩, rfl, rfl, rfl, ?_, ?_, ?_, ?_, ?_⟩
  · show s.lo ≤ s.c; omega
  · show s.c ≤ s.hi; omega
  · show s.hi ≤ (s.poppush i).a.length
    rw [hpa, sp1, ha1len]; exact hv3
  · show s.lo < s.hi → s.c < s.hi; omega
  · show HeapInvOn (s.poppush i).a s.lo s.c s.hi
    rw [hpa]
    intro k hk1 hk2 hkc
    exact sp4 k hk2 hk1 (desc_c_all s.c k) hkc
  · rw [hpa, sp1, ha1len]
  · rw [hpa, sp3, multiset_lswap s.a i s.c hil hcl]
  · intro j hj hji
    rw [hpa, sp2 j (by omega)]
    exact lget_lswap_ne s.a i s.c j hji (by omega)
  · rw [hpa, sp2 i (by omega)]
    exact lget_lswap_left s.a i s.c hil hcl
  · rw [hreg]
    have d1 : msRegion (lswap s.a i s.c) s.lo s.hi =
        msRegion (lswap s.a i s.c) s.lo s.c + msRegion (lswap s.a i s.c) s.c (s.c + 1) +
          msRegion (lswap s.a i s.c) (s.c + 1) s.hi := by
      rw [← msRegion_split _ s.lo s.c (s.c + 1) (by omega) (by omega) (by omega)]
      rw [← msRegion_split _ s.lo (s.c + 1) s.hi (by omega) (by omega) (by omega)]
    have d2 : msRegion s.a s.lo s.hi =
        msRegion s.a s.lo s.c + msRegion s.a s.c (s.c + 1) +
          msRegion s.a (s.c + 1) s.hi := by
      rw [← msRegion_split _ s.lo s.c (s.c + 1) (by omega) (by omega) (by omega)]
      rw [← msRegion_split _ s.lo (s.c + 1) s.hi (by omega) (by omega) (by omega)]
    have e1 : msRegion (lswap s.a i s.c) s.lo s.c = msRegion s.a s.lo s.c := by
      apply msRegion_congr _ _ s.lo s.c (by rw [ha1len]) (by omega)
      intro j hj1 hj2
      exact lget_lswap_ne s.a i s.c j (by omega) (by omega)
    have e2 : msRegion (lswap s.a i s.c) (s.c + 1) s.hi = msRegion s.a (s.c + 1) s.hi := by
      apply msRegion_congr _ _ (s.c + 1) s.hi (by rw [ha1len]) (by omega)
      intro j hj1 hj2
      exact lget_lswap_ne s.a i s.c j (by omega) (by omega)
    have e3 : msRegion (lswap s.a i s.c) s.c (s.c + 1) = {lget s.a i} := by
      rw [msRegion_single _ s.c (by omega), lget_lswap_right s.a i s.c hcl]
    have e4 : msRegion s.a s.c (s.c + 1) = {lget s.a s.c} :=
      msRegion_single s.a s.c hcl
    rw [d1, d2, e1, e2, e3, e4]
    exact ms_shuffle (msRegion s.a s.lo s.c) (msRegion s.a (s.c + 1) s.hi)
      (lget s.a i) (lget s.a s.c)

/-- `push_right_swap i` on a valid heap (the source asserts `i` outside
`[lo, hi)` and in bounds): absorbs the value at index `i` into the heap,
leaves the old value at `hi` in index `i`, and grows the view to
`[lo, hi+1)`. -/
theorem push_right_swap_spec (s : Cheap) (i : Nat) (hv : Valid s)
    (hout : i < s.lo ∨ s.hi ≤ i) (hil : i < s.a.length) (hroom : s.hi < s.a.length) :
    Valid (s.push_right_swap i) ∧ (s.push_right_swap i).lo = s.lo ∧
    (s.push_right_swap i).c = s.c ∧ (s.push_right_swap i).hi = s.hi + 1 ∧
    (s.push_right_swap i).a.length = s.a.length ∧
    ((s.push_right_swap i).a : Multiset Int) = (s.a : Multiset Int) ∧
    (∀ j, (j < s.lo ∨ s.hi + 1 ≤ j) → j ≠ i → lget (s.push_right_swap i).a j = lget s.a j) ∧
    ((i < s.lo ∨ s.hi + 1 ≤ i) → lget (s.push_right_swap i).a i = lget s.a s.hi) ∧
    msRegion (s.push_right_swap i).a s.lo (s.hi + 1) =
      msRegion s.a s.lo s.hi + {lget s.a i} := by
  obtain ⟨hv1, hv2, hv3, hv4, hv5⟩ := hv
  have hbl : (lswap s.a i s.hi).length = s.a.length := length_lswap s.a i s.hi
  have hvb : Valid { s with a := lswap s.a i s.hi, cnt := s.cnt.swp } := by
    refine ⟨hv1, hv2, by dsimp only; omega, hv4, ?_⟩
    intro j hj1 hj2 hjc
    dsimp only at hj1 hj2 ⊢
    have hpr := parent_in_range s.lo s.c s.hi j hv1 (by omega) hj2 hj1 hjc
    rw [lget_lswap_ne s.a i s.hi j (by omega) (by omega),
      lget_lswap_ne s.a i s.hi (get_parent j s.c) (by omega) (by omega)]
    exact hv5 j hj1 hj2 hjc
  obtain ⟨pr1, pr2, pr3, pr4, pr5, pr6, pr7⟩ :=
    push_right_spec { s with a := lswap s.a i s.hi, cnt := s.cnt.swp } hvb
      (by dsimp only; omega)
  dsimp only at pr2 pr3 pr4 pr5 pr6 pr7
  have he : s.push_right_swap i =
      Cheap.push_right { s with a := lswap s.a i s.hi, cnt := s.cnt.swp } := rfl
  rw [he]
  have hloc : ∀ j, (j < s.lo ∨ s.hi + 1 ≤ j) → j ≠ i →
      lget (Cheap.push_right { s with a := lswap s.a i s.hi, cnt := s.cnt.swp }).a j =
        lget s.a j := by
    intro j hj hji
    rw [pr7 j hj]
    exact lget_lswap_ne s.a i s.hi j hji (by omega)
  refine ⟨pr1, pr2, pr3, pr4, ?_, ?_, hloc, ?_, ?_⟩
  · rw [pr5, hbl]
  · rw [pr6, multiset_lswap s.a i s.hi hil hroom]
  · intro hg
    rw [pr7 i hg]
    exact lget_lswap_left s.a i s.hi hil hroom
  · have hr1 : msRegion (Cheap.push_right
        { s with a := lswap s.a i s.hi, cnt := s.cnt.swp }).a s.lo (s.hi + 1) =
        msRegion (lswap s.a i s.hi) s.lo (s.hi + 1) := by
      apply region_from_global _ _ s.lo (s.hi + 1) (by rw [pr5]) (by omega)
        (by rw [pr5, hbl]; omega)
      · rw [pr6]
      · exact pr7
    rw [hr1, msRegion_split _ s.lo s.hi (s.hi + 1) (by omega) (by omega) (by omega),
      msRegion_single _ s.hi (by omega), lget_lswap_right s.a i s.hi (by omega)]
    congr 1
    apply msRegion_congr _ _ s.lo s.hi (by omega) (by omega)
    intro j hj1 hj2
    exact lget_lswap_ne s.a i s.hi j (by omega) (by omega)

/-- `slide_right` on a valid heap with room (`hi < len`, the source's
assertion): the window moves one step right, keeping exactly the same
multiset of heap elements, and the value previously at `hi` is parked
at index `lo`. -/
theorem slide_right_spec (s : Cheap) (hv : Valid s) (hroom : s.hi < s.a.length) :
    Valid s.slide_right ∧ s.slide_right.lo = s.lo + 1 ∧ s.slide_right.hi = s.hi + 1 ∧
    s.slide_right.a.length = s.a.length ∧
    (s.slide_right.a : Multiset Int) = (s.a : Multiset Int) ∧
    (∀ j, j < s.lo ∨ s.hi + 1 ≤ j → lget s.slide_right.a j = lget s.a j) ∧
    lget s.slide_right.a s.lo = lget s.a s.hi ∧
    msRegion s.slide_right.a (s.lo + 1) (s.hi + 1) = msRegion s.a s.lo s.hi := by
  obtain ⟨hv1, hv2, hv3, hv4, hv5⟩ := hv
  by_cases hel : s.lo = s.hi
  · have hce : s.c = s.hi := by omega
    have hsl : s.slide_right = { s with lo := s.lo + 1, c := s.c + 1, hi := s.hi + 1 } := by
      unfold Cheap.slide_right
      rw [if_pos hel]
    rw [hsl]
    refine ⟨⟨?_, ?_, ?_, ?_, ?_⟩, rfl, rfl, rfl, rfl, fun j _ => rfl, ?_, ?_⟩
    · dsimp only; omega
    · dsimp only; omega
    · dsimp only; omega
    · dsimp only; omega
    · intro i hi1 hi2 hic
      dsimp only at hi1 hi2 hic
      omega
    · dsimp only
      rw [hel]
    · dsimp only
      rw [msRegion_empty _ (s.lo + 1) (s.hi + 1) (by omega),
        msRegion_empty _ s.lo s.hi (by omega)]
  · have hne : s.lo < s.hi := by omega
    have hch : s.c < s.hi := hv4 hne
    have hll : s.lo < s.a.length := by omega
    by_cases hcl : s.c = s.lo
    · have hsl : s.slide_right = Cheap.recenter
          { s with a := lswap s.a s.lo s.hi, cnt := s.cnt.swp, c := s.hi, lo := s.lo + 1, hi := s.hi + 1 } := by
        simp only [Cheap.slide_right, if_neg hel, Cheap.swap]
        rw [if_pos]
        exact hcl
      obtain ⟨r1, r2, r3, r4, r5, r6, r7⟩ :=
        recenter_spec { s with a := lswap s.a s.lo s.hi, cnt := s.cnt.swp, c := s.hi, lo := s.lo + 1, hi := s.hi + 1 }
          (by dsimp only; omega) (by dsimp only; omega)
          (by dsimp only; rw [length_lswap]; omega)
      dsimp only at r1 r2 r3 r4 r5 r6 r7
      rw [← hsl] at r1 r2 r3 r4 r5 r6 r7
      rw [length_lswap] at r4
      rw [multiset_lswap s.a s.lo s.hi hll (by omega)] at r5
      have hout : ∀ j, j < s.lo ∨ s.hi + 1 ≤ j →
          lget s.slide_right.a j = lget s.a j := by
        intro j hj
        rw [r6 j (by omega)]
        exact lget_lswap_ne s.a s.lo s.hi j (by omega) (by omega)
      refine ⟨⟨?_, ?_, ?_, ?_, ?_⟩, r1, r3, r4, r5, hout, ?_, ?_⟩
      · rw [r1, r2]; omega
      · rw [r2, r3]; omega
      · rw [r3, r4]; omega
      · rw [r2, r3]; omega
      · rw [r1, r2, r3]; exact r7
      · rw [r6 s.lo (by omega)]
        exact lget_lswap_left s.a s.lo s.hi hll (by omega)
      · have hr1 : msRegion s.slide_right.a (s.lo + 1) (s.hi + 1) =
            msRegion (lswap s.a s.lo s.hi) (s.lo + 1) (s.hi + 1) := by
          apply region_from_global _ _ (s.lo + 1) (s.hi + 1) (by rw [r4, length_lswap])
            (by omega) (by rw [r4]; omega)
          · rw [r5, multiset_lswap s.a s.lo s.hi hll (by omega)]
          · intro j hj
            exact r6 j (by omega)
        rw [hr1, msRegion_split _ (s.lo + 1) s.hi (s.hi + 1) (by omega) (by omega)
            (by rw [length_lswap]; omega),
          msRegion_single _ s.hi (by rw [length_lswap]; omega),
          lget_lswap_right s.a s.lo s.hi (by omega)]
        rw [msRegion_split s.a s.lo (s.lo + 1) s.hi (by omega) (by omega) (by omega),
          msRegion_single s.a s.lo hll]
        rw [show msRegion (lswap s.a s.lo s.hi) (s.lo + 1) s.hi =
            msRegion s.a (s.lo + 1) s.hi from msRegion_congr _ _ _ _
              (by rw [length_lswap]) (by rw [length_lswap]; omega)
              (fun j hj1 hj2 => lget_lswap_ne s.a s.lo s.hi j (by omega) (by omega))]
        exact add_comm _ _
    · have hsl : s.slide_right =
          { s with a := (sift_in_go s.c s.hi (lswap s.a s.lo s.hi) s.cnt.swp).1, cnt := (sift_in_go s.c s.hi (lswap s.a s.lo s.hi) s.cnt.swp).2, lo := s.lo + 1, hi := s.hi + 1 } := by
        simp only [Cheap.slide_right, if_neg hel, Cheap.swap, Cheap.sift_in]
        rw [if_neg]
        exact hcl
      have hlc : s.lo < s.c := by omega
      obtain ⟨si1, si2, si3, si4⟩ :=
        sift_in_go_spec (s.lo + 1) s.c (s.hi + 1) s.hi (lswap s.a s.lo s.hi) s.cnt.swp
          (by omega) (by omega) (by omega) (by omega) (by rw [length_lswap]; omega)
          (by
            intro j hj1 hj2 hjc hji
            have hjh : j < s.hi := by omega
            have hpb : s.lo + 1 ≤ get_parent j s.c ∧ get_parent j s.c < s.hi := by
              rcases Nat.lt_trichotomy j s.c with h | h | h
              · have := parent_left_range j s.c h
                omega
              · exact absurd h hjc
              · have := parent_right_range j s.c h
                omega
            rw [lget_lswap_ne s.a s.lo s.hi j (by omega) (by omega),
              lget_lswap_ne s.a s.lo s.hi (get_parent j s.c) (by omega) (by omega)]
            exact hv5 j hjh (by omega) hjc)
          (by
            intro _ j hj1 hj2 hjc hp
            have := parent_val_gt j s.c s.hi hjc hp hch
            omega)
      rw [length_lswap] at si1
      rw [multiset_lswap s.a s.lo s.hi hll (by omega)] at si3
      rw [hsl]
      have hout : ∀ j, j < s.lo ∨ s.hi + 1 ≤ j →
          lget (sift_in_go s.c s.hi (lswap s.a s.lo s.hi) s.cnt.swp).1 j = lget s.a j := by
        intro j hj
        rw [si2 j (by omega)]
        exact lget_lswap_ne s.a s.lo s.hi j (by omega) (by omega)
      refine ⟨⟨?_, ?_, ?_, ?_, ?_⟩, rfl, rfl, ?_, ?_, hout, ?_, ?_⟩
      · dsimp only; omega
      · dsimp only; omega
      · dsimp only; rw [si1]; omega
      · dsimp only; omega
      · intro i hi1 hi2 hic
        dsimp only at hi1 hi2 hic ⊢
        exact si4 i hi2 hi1 hic
      · dsimp only; rw [si1]
      · dsimp only; exact si3
      · rw [si2 s.lo (by omega)]
        exact lget_lswap_left s.a s.lo s.hi hll (by omega)
      · dsimp only
        have hr1 : msRegion (sift_in_go s.c s.hi (lswap s.a s.lo s.hi) s.cnt.swp).1
            (s.lo + 1) (s.hi + 1) =
            msRegion (lswap s.a s.lo s.hi) (s.lo + 1) (s.hi + 1) := by
          apply region_from_global _ _ (s.lo + 1) (s.hi + 1) (by rw [si1, length_lswap])
            (by omega) (by rw [si1]; omega)
          · rw [si3, multiset_lswap s.a s.lo s.hi hll (by omega)]
          · intro j hj
            exact si2 j (by omega)
        rw [hr1, msRegion_split _ (s.lo + 1) s.hi (s.hi + 1) (by omega) (by omega)
            (by rw [length_lswap]; omega),
          msRegion_single _ s.hi (by rw [length_lswap]; omega),
          lget_lswap_right s.a s.lo s.hi (by omega)]
        rw [msRegion_split s.a s.lo (s.lo + 1) s.hi (by omega) (by omega) (by omega),
          msRegion_single s.a s.lo hll]
        rw [show msRegion (lswap s.a s.lo s.hi) (s.lo + 1) s.hi =
            msRegion s.a (s.lo + 1) s.hi from msRegion_congr _ _ _ _
              (by rw [length_lswap]) (by rw [length_lswap]; omega)
              (fun j hj1 hj2 => lget_lswap_ne s.a s.lo s.hi j (by omega) (by omega))]
        exact add_comm _ _

/-! ### Correctness of the merge driver -/

theorem mc_better_nn (x y : MC) (cnt : Cnt) (hx : x.val = none) (hy : y.val = none) :
    MC.better x y cnt = (MC.None, cnt) := by
  unfold MC.better
  rw [hx, hy]

theorem mc_better_sn (x y : MC) (cnt : Cnt) (a : Int) (hx : x.val = some a)
    (hy : y.val = none) : MC.better x y cnt = (x, cnt) := by
  unfold MC.better
  rw [hx, hy]

theorem mc_better_ns (x y : MC) (cnt : Cnt) (b : Int) (hx : x.val = none)
    (hy : y.val = some b) : MC.better x y cnt = (y, cnt) := by
  unfold MC.better
  rw [hx, hy]

theorem mc_better_ss (x y : MC) (cnt : Cnt) (a b : Int) (hx : x.val = some a)
    (hy : y.val = some b) :
    (MC.better x y cnt).1 = if a < b then x else y := by
  unfold MC.better
  rw [hx, hy]
  dsimp only
  split <;> rfl

theorem mc_better_none (x y : MC) (cnt : Cnt)
    (h : (MC.better x y cnt).1.val = none) : x.val = none ∧ y.val = none := by
  rcases hx : x.val with _ | a <;> rcases hy : y.val with _ | b
  · exact ⟨rfl, rfl⟩
  · rw [mc_better_ns x y cnt b hx hy] at h
    dsimp only at h
    rw [hy] at h
    exact Option.noConfusion h
  · rw [mc_better_sn x y cnt a hx hy] at h
    dsimp only at h
    rw [hx] at h
    exact Option.noConfusion h
  · rw [mc_better_ss x y cnt a b hx hy] at h
    split at h
    · rw [hx] at h
      exact Option.noConfusion h
    · rw [hy] at h
      exact Option.noConfusion h

theorem mc_better_le (x y : MC) (cnt : Cnt) (v : Int)
    (h : (MC.better x y cnt).1.val = some v) :
    (∀ vx, x.val = some vx → v ≤ vx) ∧ (∀ vy, y.val = some vy → v ≤ vy) := by
  rcases hx : x.val with _ | a <;> rcases hy : y.val with _ | b
  · rw [mc_better_nn x y cnt hx hy] at h
    exact Option.noConfusion h
  · rw [mc_better_ns x y cnt b hx hy] at h
    dsimp only at h
    rw [hy] at h
    injection h with hv
    constructor
    · intro vx hvx
      exact Option.noConfusion hvx
    · intro vy hvy
      injection hvy with hb
      omega
  · rw [mc_better_sn x y cnt a hx hy] at h
    dsimp only at h
    rw [hx] at h
    injection h with hv
    constructor
    · intro vx hvx
      injection hvx with ha
      omega
    · intro vy hvy
      exact Option.noConfusion hvy
  · rw [mc_better_ss x y cnt a b hx hy] at h
    split at h
    · rw [hx] at h
      injection h with hv
      constructor
      · intro vx hvx
        injection hvx with ha
        omega
      · intro vy hvy
        injection hvy with hb
        omega
    · rw [hy] at h
      injection h with hv
      constructor
      · intro vx hvx
        injection hvx with ha
        omega
      · intro vy hvy
        injection hvy with hb
        omega

theorem mc_better_mem (x y : MC) (cnt : Cnt) :
    (MC.better x y cnt).1 = x ∨ (MC.better x y cnt).1 = y := by
  rcases hx : x.val with _ | a <;> rcases hy : y.val with _ | b
  · rw [mc_better_nn x y cnt hx hy]
    cases x
    · exact Or.inl rfl
    all_goals exact absurd hx (by simp [MC.val])
  · rw [mc_better_ns x y cnt b hx hy]
    exact Or.inr rfl
  · rw [mc_better_sn x y cnt a hx hy]
    exact Or.inl rfl
  · rw [mc_better_ss x y cnt a b hx hy]
    split
    · exact Or.inl rfl
    · exact Or.inr rfl

/-- Characterisation of the candidate chosen by `merge`'s loop body:
it is one of the (available) left-run head, heap root, or right-run
head, and its value is a lower bound on every available candidate. -/
theorem merge_best_spec (hi ix : Nat) (s : Cheap)
    (h1 : ix ≤ s.lo) (h2 : s.lo ≤ s.hi) (h3 : s.hi ≤ hi) (h4 : ix < hi) :
    ∃ v, (merge_best hi ix s).1.val = some v ∧
      ((ix < s.lo ∧ (merge_best hi ix s).1 = MC.Lo v ∧ v = lget s.a ix) ∨
       (s.lo < s.hi ∧ (merge_best hi ix s).1 = MC.Md v ∧ v = lget s.a s.c) ∨
       (s.hi < hi ∧ (merge_best hi ix s).1 = MC.Hi v ∧ v = lget s.a s.hi)) ∧
      (ix < s.lo → v ≤ lget s.a ix) ∧
      (s.lo < s.hi → v ≤ lget s.a s.c) ∧
      (s.hi < hi → v ≤ lget s.a s.hi) := by
  by_cases hA : ix < s.lo <;> by_cases hB : s.lo < s.hi <;> by_cases hC : s.hi < hi
  · -- all three candidates available
    have heq : merge_best hi ix s =
        MC.better (MC.better (MC.Lo (lget s.a ix)) (MC.Md (lget s.a s.c)) s.cnt).1
          (MC.Hi (lget s.a s.hi))
          (MC.better (MC.Lo (lget s.a ix)) (MC.Md (lget s.a s.c)) s.cnt).2 := by
      simp only [merge_best, if_pos hA, if_pos hB, if_pos hC]
    obtain ⟨v1, hv1⟩ : ∃ v1,
        (MC.better (MC.Lo (lget s.a ix)) (MC.Md (lget s.a s.c)) s.cnt).1.val = some v1 := by
      rcases ho : (MC.better (MC.Lo (lget s.a ix)) (MC.Md (lget s.a s.c)) s.cnt).1.val
        with _ | w
      · exact absurd (mc_better_none _ _ _ ho).1 (by simp [MC.val])
      · exact ⟨w, rfl⟩
    have hle1 := mc_better_le (MC.Lo (lget s.a ix)) (MC.Md (lget s.a s.c)) s.cnt v1 hv1
    have hmem1 := mc_better_mem (MC.Lo (lget s.a ix)) (MC.Md (lget s.a s.c)) s.cnt
    obtain ⟨v, hv⟩ : ∃ v, (merge_best hi ix s).1.val = some v := by
      rcases ho : (merge_best hi ix s).1.val with _ | w
      · rw [heq] at ho
        rcases mc_better_none _ _ _ ho with ⟨hn, -⟩
        rw [hv1] at hn
        exact Option.noConfusion hn
      · exact ⟨w, rfl⟩
    have hv' : (MC.better
        (MC.better (MC.Lo (lget s.a ix)) (MC.Md (lget s.a s.c)) s.cnt).1
        (MC.Hi (lget s.a s.hi))
        (MC.better (MC.Lo (lget s.a ix)) (MC.Md (lget s.a s.c)) s.cnt).2).1.val = some v := by
      rw [← heq]; exact hv
    have hle2 := mc_better_le _ (MC.Hi (lget s.a s.hi)) _ v hv'
    have hmem2 := mc_better_mem
      (MC.better (MC.Lo (lget s.a ix)) (MC.Md (lget s.a s.c)) s.cnt).1
      (MC.Hi (lget s.a s.hi))
      (MC.better (MC.Lo (lget s.a ix)) (MC.Md (lget s.a s.c)) s.cnt).2
    have hvv1 : v ≤ v1 := hle2.1 v1 hv1
    have hvL : v ≤ lget s.a ix := le_trans hvv1 (hle1.1 (lget s.a ix) rfl)
    have hvM : v ≤ lget s.a s.c := le_trans hvv1 (hle1.2 (lget s.a s.c) rfl)
    have hvH : v ≤ lget s.a s.hi := hle2.2 (lget s.a s.hi) rfl
    refine ⟨v, hv, ?_, fun _ => hvL, fun _ => hvM, fun _ => hvH⟩
    rcases hmem2 with hm2 | hm2
    · rcases hmem1 with hm1 | hm1
      · left
        have : (merge_best hi ix s).1 = MC.Lo (lget s.a ix) := by
          rw [heq, hm2, hm1]
        refine ⟨hA, ?_, ?_⟩
        · rw [this]
          rw [this] at hv
          simp only [MC.val, Option.some.injEq] at hv
          rw [hv]
        · rw [this] at hv
          simp only [MC.val, Option.some.injEq] at hv
          omega
      · right; left
        have : (merge_best hi ix s).1 = MC.Md (lget s.a s.c) := by
          rw [heq, hm2, hm1]
        refine ⟨hB, ?_, ?_⟩
        · rw [this]
          rw [this] at hv
          simp only [MC.val, Option.some.injEq] at hv
          rw [hv]
        · rw [this] at hv
          simp only [MC.val, Option.some.injEq] at hv
          omega
    · right; right
      have : (merge_best hi ix s).1 = MC.Hi (lget s.a s.hi) := by
        rw [heq, hm2]
      refine ⟨hC, ?_, ?_⟩
      · rw [this]
        rw [this] at hv
        simp only [MC.val, Option.some.injEq] at hv
        rw [hv]
      · rw [this] at hv
        simp only [MC.val, Option.some.injEq] at hv
        omega
  · -- left head and root available
    have heq : merge_best hi ix s =
        MC.better (MC.Lo (lget s.a ix)) (MC.Md (lget s.a s.c)) s.cnt := by
      simp only [merge_best, if_pos hA, if_pos hB, if_neg hC]
    obtain ⟨v, hv⟩ : ∃ v, (merge_best hi ix s).1.val = some v := by
      rcases ho : (merge_best hi ix s).1.val with _ | w
      · rw [heq] at ho
        exact absurd (mc_better_none _ _ _ ho).1 (by simp [MC.val])
      · exact ⟨w, rfl⟩
    have hv' : (MC.better (MC.Lo (lget s.a ix)) (MC.Md (lget s.a s.c)) s.cnt).1.val =
        some v := by rw [← heq]; exact hv
    have hle := mc_better_le _ _ _ v hv'
    have hmem := mc_better_mem (MC.Lo (lget s.a ix)) (MC.Md (lget s.a s.c)) s.cnt
    refine ⟨v, hv, ?_, fun _ => hle.1 _ rfl, fun _ => hle.2 _ rfl, fun hc => absurd hc hC⟩
    rcases hmem with hm | hm
    · left
      have : (merge_best hi ix s).1 = MC.Lo (lget s.a ix) := by rw [heq, hm]
      rw [this] at hv
      simp only [MC.val, Option.some.injEq] at hv
      exact ⟨hA, by rw [this, hv], by omega⟩
    · right; left
      have : (merge_best hi ix s).1 = MC.Md (lget s.a s.c) := by rw [heq, hm]
      rw [this] at hv
      simp only [MC.val, Option.some.injEq] at hv
      exact ⟨hB, by rw [this, hv], by omega⟩
  · -- left head and right head available
    have heq : merge_best hi ix s =
        MC.better (MC.Lo (lget s.a ix)) (MC.Hi (lget s.a s.hi)) s.cnt := by
      simp only [merge_best, if_pos hA, if_neg hB, if_pos hC]
    obtain ⟨v, hv⟩ : ∃ v, (merge_best hi ix s).1.val = some v := by
      rcases ho : (merge_best hi ix s).1.val with _ | w
      · rw [heq] at ho
        exact absurd (mc_better_none _ _ _ ho).1 (by simp [MC.val])
      · exact ⟨w, rfl⟩
    have hv' : (MC.better (MC.Lo (lget s.a ix)) (MC.Hi (lget s.a s.hi)) s.cnt).1.val =
        some v := by rw [← heq]; exact hv
    have hle := mc_better_le _ _ _ v hv'
    have hmem := mc_better_mem (MC.Lo (lget s.a ix)) (MC.Hi (lget s.a s.hi)) s.cnt
    refine ⟨v, hv, ?_, fun _ => hle.1 _ rfl, fun hb => absurd hb hB, fun _ => hle.2 _ rfl⟩
    rcases hmem with hm | hm
    · left
      have : (merge_best hi ix s).1 = MC.Lo (lget s.a ix) := by rw [heq, hm]
      rw [this] at hv
      simp only [MC.val, Option.some.injEq] at hv
      exact ⟨hA, by rw [this, hv], by omega⟩
    · right; right
      have : (merge_best hi ix s).1 = MC.Hi (lget s.a s.hi) := by rw [heq, hm]
      rw [this] at hv
      simp only [MC.val, Option.some.injEq] at hv
      exact ⟨hC, by rw [this, hv], by omega⟩
  · -- only the left head available
    have heq : merge_best hi ix s = (MC.Lo (lget s.a ix), s.cnt) := by
      simp only [merge_best, if_pos hA, if_neg hB, if_neg hC]
    refine ⟨lget s.a ix, by rw [heq]; rfl, ?_, fun _ => le_refl _,
      fun hb => absurd hb hB, fun hc => absurd hc hC⟩
    exact Or.inl ⟨hA, by rw [heq], rfl⟩
  · -- root and right head available
    have heq0 : merge_best hi ix s =
        MC.better (MC.better MC.None (MC.Md (lget s.a s.c)) s.cnt).1
          (MC.Hi (lget s.a s.hi))
          (MC.better MC.None (MC.Md (lget s.a s.c)) s.cnt).2 := by
      simp only [merge_best, if_neg hA, if_pos hB, if_pos hC]
    rw [mc_better_ns MC.None (MC.Md (lget s.a s.c)) s.cnt (lget s.a s.c) rfl rfl] at heq0
    dsimp only at heq0
    obtain ⟨v, hv⟩ : ∃ v, (merge_best hi ix s).1.val = some v := by
      rcases ho : (merge_best hi ix s).1.val with _ | w
      · rw [heq0] at ho
        exact absurd (mc_better_none _ _ _ ho).1 (by simp [MC.val])
      · exact ⟨w, rfl⟩
    have hv' : (MC.better (MC.Md (lget s.a s.c)) (MC.Hi (lget s.a s.hi)) s.cnt).1.val =
        some v := by rw [← heq0]; exact hv
    have hle := mc_better_le _ _ _ v hv'
    have hmem := mc_better_mem (MC.Md (lget s.a s.c)) (MC.Hi (lget s.a s.hi)) s.cnt
    refine ⟨v, hv, ?_, fun ha => absurd ha hA, fun _ => hle.1 _ rfl, fun _ => hle.2 _ rfl⟩
    rcases hmem with hm | hm
    · right; left
      have : (merge_best hi ix s).1 = MC.Md (lget s.a s.c) := by rw [heq0, hm]
      rw [this] at hv
      simp only [MC.val, Option.some.injEq] at hv
      exact ⟨hB, by rw [this, hv], by omega⟩
    · right; right
      have : (merge_best hi ix s).1 = MC.Hi (lget s.a s.hi) := by rw [heq0, hm]
      rw [this] at hv
      simp only [MC.val, Option.some.injEq] at hv
      exact ⟨hC, by rw [this, hv], by omega⟩
  · -- only the root available
    have heq0 : merge_best hi ix s =
        MC.better MC.None (MC.Md (lget s.a s.c)) s.cnt := by
      simp only [merge_best, if_neg hA, if_pos hB, if_neg hC]
    rw [mc_better_ns MC.None (MC.Md (lget s.a s.c)) s.cnt (lget s.a s.c) rfl rfl] at heq0
    refine ⟨lget s.a s.c, by rw [heq0]; rfl, ?_, fun ha => absurd ha hA,
      fun _ => le_refl _, fun hc => absurd hc hC⟩
    exact Or.inr (Or.inl ⟨hB, by rw [heq0], rfl⟩)
  · -- only the right head available
    have heq0 : merge_best hi ix s =
        MC.better (MC.None, s.cnt).1 (MC.Hi (lget s.a s.hi)) (MC.None, s.cnt).2 := by
      simp only [merge_best, if_neg hA, if_neg hB, if_pos hC]
    dsimp only at heq0
    rw [mc_better_ns MC.None (MC.Hi (lget s.a s.hi)) s.cnt (lget s.a s.hi) rfl rfl] at heq0
    refine ⟨lget s.a s.hi, by rw [heq0]; rfl, ?_, fun ha => absurd ha hA,
      fun hb => absurd hb hB, fun _ => le_refl _⟩
    exact Or.inr (Or.inr ⟨hC, by rw [heq0], rfl⟩)
  · omega

theorem mem_of_region_shift (A B : Multiset Int) (x y v : Int)
    (h : A + {x} = B + {y}) (hv : v ∈ A) : v ∈ B ∨ v = y := by
  have h1 : v ∈ A + {x} := Multiset.mem_add.mpr (Or.inl hv)
  rw [h] at h1
  rcases Multiset.mem_add.mp h1 with h2 | h2
  · exact Or.inl h2
  · exact Or.inr (Multiset.mem_singleton.mp h2)

/-- Maintenance of the `merge` loop's sortedness invariants across one
emission step: if the emitted value `v` is a lower bound on the whole
pending window `[ix, hi)` and everything in the new state's pending
window traces back to the old one, the extended prefix is sorted and
still dominates the window. -/
theorem merge_step_inv (lo hi ix : Nat) (s r : Cheap) (v : Int)
    (hb1 : lo ≤ ix)
    (hps : SortedOn s.a lo ix)
    (hdom : ∀ p, lo ≤ p → p < ix → ∀ q, ix ≤ q → q < hi → lget s.a p ≤ lget s.a q)
    (hbmin : ∀ k, ix ≤ k → k < hi → v ≤ lget s.a k)
    (hw : ∃ w, ix ≤ w ∧ w < hi ∧ v = lget s.a w)
    (hemit : lget r.a ix = v)
    (hpre : ∀ j, lo ≤ j → j < ix → lget r.a j = lget s.a j)
    (hsrc : ∀ q, ix + 1 ≤ q → q < hi → ∃ k, ix ≤ k ∧ k < hi ∧ lget r.a q = lget s.a k) :
    SortedOn r.a lo (ix + 1) ∧
    (∀ p, lo ≤ p → p < ix + 1 → ∀ q, ix + 1 ≤ q → q < hi →
      lget r.a p ≤ lget r.a q) := by
  obtain ⟨w, hw1, hw2, hw3⟩ := hw
  constructor
  · intro q hq p hpq hp
    by_cases hqi : q < ix
    · rw [hpre q (by omega) hqi, hpre p hp (by omega)]
      exact hps q hqi p hpq hp
    · have hq' : q = ix := by omega
      rw [hq', hemit, hpre p hp (by omega), hw3]
      exact hdom p hp (by omega) w hw1 hw2
  · intro p hp1 hp2 q hq1 hq2
    obtain ⟨k, hk1, hk2, hkv⟩ := hsrc q hq1 hq2
    rw [hkv]
    by_cases hpi : p < ix
    · rw [hpre p hp1 hpi]
      exact hdom p hp1 hpi k hk1 hk2
    · have hp' : p = ix := by omega
      rw [hp', hemit]
      exact hbmin k hk1 hk2

/-- The `merge` loop: from any state satisfying the loop invariants it
terminates without hitting either panic, produces an array sorted on
`[lo, hi)` that is a permutation of the input, and leaves everything
outside `[lo, hi)` untouched. -/
theorem merge_go_spec (lo hi : Nat) (ix : Nat) (s : Cheap)
    (hv : Valid s)
    (hb1 : lo ≤ ix) (hb2 : ix ≤ s.lo) (hb3 : s.hi ≤ hi) (hb4 : hi ≤ s.a.length)
    (hps : SortedOn s.a lo ix)
    (hdom : ∀ p, lo ≤ p → p < ix → ∀ q, ix ≤ q → q < hi → lget s.a p ≤ lget s.a q)
    (hls : SortedOn s.a ix s.lo)
    (hrs : SortedOn s.a s.hi hi) :
    ∃ t, merge_go lo hi ix s = some t ∧
      t.a.length = s.a.length ∧
      (t.a : Multiset Int) = (s.a : Multiset Int) ∧
      (∀ j, j < lo ∨ hi ≤ j → lget t.a j = lget s.a j) ∧
      SortedOn t.a lo hi := by
  by_cases hix : ix < hi
  · by_cases hstop : ix ≥ s.hi
    · refine ⟨s, ?_, rfl, rfl, fun j _ => rfl, ?_⟩
      · unfold merge_go
        rw [dif_pos hix, if_pos hstop]
      · intro q hq p hpq hp
        by_cases hqi : q < ix
        · exact hps q hqi p hpq hp
        · by_cases hpi : p < ix
          · exact hdom p hp hpi q (by omega) hq
          · exact hrs q hq p hpq (by omega)
    · have hsx : ix < s.hi := by omega
      obtain ⟨hv1, hv2, hv3, hv4, hv5⟩ := hv
      obtain ⟨v, hvval, hvcase, hbL, hbM, hbH⟩ :=
        merge_best_spec hi ix s hb2 (le_trans hv1 hv2) hb3 hix
      have hbmin : ∀ k, ix ≤ k → k < hi → v ≤ lget s.a k := by
        intro k hk1 hk2
        by_cases hkslo : k < s.lo
        · have hxl : ix < s.lo := by omega
          have h1 := hbL hxl
          by_cases hkix : k = ix
          · rw [hkix]; exact h1
          · exact le_trans h1 (hls k hkslo ix (by omega) (le_refl _))
        · by_cases hkshi : k < s.hi
          · have hne : s.lo < s.hi := by omega
            have h2 := valid_root_min s ⟨hv1, hv2, hv3, hv4, hv5⟩ hne k (by omega) hkshi
            exact le_trans (hbM hne) h2
          · have hshi : s.hi < hi := by omega
            have h1 := hbH hshi
            by_cases hks : k = s.hi
            · rw [hks]; exact h1
            · exact le_trans h1 (hrs k hk2 s.hi (by omega) (le_refl _))
      rcases hvcase with ⟨hxl, hcase, hvv⟩ | ⟨hmd, hcase, hvv⟩ | ⟨hhiB, hcase, hvv⟩
      · -- the best is the pending left-run element: emitted in place
        have heqgo : merge_go lo hi ix s =
            merge_go lo hi (ix + 1) { s with cnt := (merge_best hi ix s).2 } := by
          conv_lhs => unfold merge_go
          rw [dif_pos hix, if_neg (show ¬ ix ≥ s.hi by omega)]
          dsimp only
          rw [hcase]
        obtain ⟨hinv1, hinv2⟩ :=
          merge_step_inv lo hi ix s { s with cnt := (merge_best hi ix s).2 } v hb1 hps hdom
            hbmin ⟨ix, le_refl _, by omega, hvv⟩ hvv.symm (fun j _ _ => rfl)
            (fun q hq1 hq2 => ⟨q, by omega, hq2, rfl⟩)
        obtain ⟨t, ht, htl, htp, hto, hts⟩ :=
          merge_go_spec lo hi (ix + 1) { s with cnt := (merge_best hi ix s).2 }
            ⟨hv1, hv2, hv3, hv4, hv5⟩ (by omega) (show ix + 1 ≤ s.lo by omega)
            hb3 hb4 hinv1 hinv2
            (fun q hq p hpq hp => hls q hq p hpq (by omega))
            hrs
        exact ⟨t, heqgo.trans ht, htl, htp, hto, hts⟩
      · -- the best is the heap root
        have hch : s.c < s.hi := hv4 (by omega)
        by_cases hxl2 : ix < s.lo
        · -- poppush
          set r := Cheap.poppush { s with cnt := (merge_best hi ix s).2 } ix with hr
          have heqgo : merge_go lo hi ix s = merge_go lo hi (ix + 1) r := by
            rw [hr]
            conv_lhs => unfold merge_go
            rw [dif_pos hix, if_neg (show ¬ ix ≥ s.hi by omega)]
            dsimp only
            rw [hcase]
            dsimp only
            rw [if_pos hxl2]
          obtain ⟨pp1, pp2, pp3, pp4, pp5, pp6, pp7, pp8, pp9⟩ :=
            poppush_spec { s with cnt := (merge_best hi ix s).2 } ix
              ⟨hv1, hv2, hv3, hv4, hv5⟩ hmd (Or.inl hxl2) (show ix < s.a.length by omega)
          rw [← hr] at pp1 pp2 pp3 pp4 pp5 pp6 pp7 pp8 pp9
          dsimp only at pp2 pp3 pp4 pp5 pp6 pp7 pp8 pp9
          have hsrc : ∀ q, ix + 1 ≤ q → q < hi →
              ∃ k, ix ≤ k ∧ k < hi ∧ lget r.a q = lget s.a k := by
            intro q hq1 hq2
            by_cases hq3 : q < s.lo
            · exact ⟨q, by omega, hq2, pp7 q (Or.inl hq3) (by omega)⟩
            · by_cases hq4 : q < s.hi
              · have hmem : lget r.a q ∈ msRegion r.a s.lo s.hi :=
                  (mem_msRegion r.a s.lo s.hi _ (by rw [pp5]; omega)).mpr
                    ⟨q, by omega, hq4, rfl⟩
                rcases mem_of_region_shift _ _ _ _ _ pp9 hmem with hm | hm
                · rcases (mem_msRegion s.a s.lo s.hi _ (by omega)).mp hm with ⟨k, hk1, hk2, hk3⟩
                  exact ⟨k, by omega, by omega, hk3.symm⟩
                · exact ⟨ix, le_refl _, by omega, hm⟩
              · exact ⟨q, by omega, hq2, pp7 q (Or.inr (by omega)) (by omega)⟩
          obtain ⟨hinv1, hinv2⟩ := merge_step_inv lo hi ix s r v hb1 hps hdom hbmin
            ⟨s.c, by omega, by omega, hvv⟩ (by rw [pp8, hvv])
            (fun j hj1 hj2 => pp7 j (Or.inl (by omega)) (by omega)) hsrc
          obtain ⟨t, ht, htl, htp, hto, hts⟩ := merge_go_spec lo hi (ix + 1) r
            pp1 (by omega) (by rw [pp2]; omega) (by rw [pp4]; exact hb3)
            (by rw [pp5]; exact hb4) hinv1 hinv2
            (by
              intro q hq p hpq hp
              rw [pp2] at hq
              rw [pp7 q (Or.inl hq) (by omega), pp7 p (Or.inl (by omega)) (by omega)]
              exact hls q hq p hpq (by omega))
            (by
              intro q hq p hpq hp
              rw [pp4] at hp
              rw [pp7 q (Or.inr (by omega)) (by omega), pp7 p (Or.inr hp) (by omega)]
              exact hrs q hq p hpq hp)
          refine ⟨t, heqgo.trans ht, htl.trans pp5, htp.trans pp6, ?_, hts⟩
          intro j hj
          rcases hj with hj | hj
          · rw [hto j (Or.inl hj), pp7 j (Or.inl (by omega)) (by omega)]
          · rw [hto j (Or.inr hj), pp7 j (Or.inr (by omega)) (by omega)]
        · -- pop_left
          have hxeq : ix = s.lo := by omega
          set r := Cheap.pop_left { s with cnt := (merge_best hi ix s).2 } with hr
          have heqgo : merge_go lo hi ix s = merge_go lo hi (ix + 1) r := by
            rw [hr]
            conv_lhs => unfold merge_go
            rw [dif_pos hix, if_neg (show ¬ ix ≥ s.hi by omega)]
            dsimp only
            rw [hcase]
            dsimp only
            rw [if_neg hxl2, if_pos hxeq]
          obtain ⟨pl1, pl2, pl3, pl4, pl5, pl6, pl7⟩ :=
            pop_left_spec { s with cnt := (merge_best hi ix s).2 }
              ⟨hv1, hv2, hv3, hv4, hv5⟩ hmd
          rw [← hr] at pl1 pl2 pl3 pl4 pl5 pl6 pl7
          dsimp only at pl2 pl3 pl4 pl5 pl6 pl7
          have hregion : msRegion r.a s.lo s.hi = msRegion s.a s.lo s.hi := by
            apply region_from_global _ _ s.lo s.hi pl4 (by omega) (by rw [pl4]; omega)
            · exact pl5
            · exact pl6
          have hsrc : ∀ q, ix + 1 ≤ q → q < hi →
              ∃ k, ix ≤ k ∧ k < hi ∧ lget r.a q = lget s.a k := by
            intro q hq1 hq2
            by_cases hq4 : q < s.hi
            · have hmem : lget r.a q ∈ msRegion r.a (s.lo + 1) s.hi :=
                (mem_msRegion r.a (s.lo + 1) s.hi _ (by rw [pl4]; omega)).mpr
                  ⟨q, by omega, hq4, rfl⟩
              have hmem2 : lget r.a q ∈ msRegion r.a s.lo s.hi := by
                rw [msRegion_split r.a s.lo (s.lo + 1) s.hi (by omega) (by omega)
                  (by rw [pl4]; omega)]
                exact Multiset.mem_add.mpr (Or.inr hmem)
              rw [hregion] at hmem2
              rcases (mem_msRegion s.a s.lo s.hi _ (by omega)).mp hmem2 with ⟨k, hk1, hk2, hk3⟩
              exact ⟨k, by omega, by omega, hk3.symm⟩
            · exact ⟨q, by omega, hq2, pl6 q (Or.inr (by omega))⟩
          obtain ⟨hinv1, hinv2⟩ := merge_step_inv lo hi ix s r v hb1 hps hdom hbmin
            ⟨s.c, by omega, by omega, hvv⟩ (by rw [hxeq, pl7, hvv])
            (fun j hj1 hj2 => pl6 j (Or.inl (by omega))) hsrc
          obtain ⟨t, ht, htl, htp, hto, hts⟩ := merge_go_spec lo hi (ix + 1) r
            pl1 (by omega) (by rw [pl2]; omega) (by rw [pl3]; exact hb3)
            (by rw [pl4]; exact hb4) hinv1 hinv2
            (by
              intro q hq p hpq hp
              rw [pl2] at hq
              omega)
            (by
              intro q hq p hpq hp
              rw [pl3] at hp
              rw [pl6 q (Or.inr (by omega)), pl6 p (Or.inr hp)]
              exact hrs q hq p hpq hp)
          refine ⟨t, heqgo.trans ht, htl.trans pl4, htp.trans pl5, ?_, hts⟩
          intro j hj
          rcases hj with hj | hj
          · rw [hto j (Or.inl hj), pl6 j (Or.inl (by omega))]
          · rw [hto j (Or.inr hj), pl6 j (Or.inr (by omega))]
      · -- the best is the pending right-run element
        by_cases hxl2 : ix < s.lo
        · -- push_right_swap
          set r := Cheap.push_right_swap { s with cnt := (merge_best hi ix s).2 } ix with hr
          have heqgo : merge_go lo hi ix s = merge_go lo hi (ix + 1) r := by
            rw [hr]
            conv_lhs => unfold merge_go
            rw [dif_pos hix, if_neg (show ¬ ix ≥ s.hi by omega)]
            dsimp only
            rw [hcase]
            dsimp only
            rw [if_pos hxl2]
          obtain ⟨ps1, ps2, ps3, ps4, ps5, ps6, ps7, ps8, ps9⟩ :=
            push_right_swap_spec { s with cnt := (merge_best hi ix s).2 } ix
              ⟨hv1, hv2, hv3, hv4, hv5⟩ (Or.inl hxl2) (show ix < s.a.length by omega)
              (show s.hi < s.a.length by omega)
          rw [← hr] at ps1 ps2 ps3 ps4 ps5 ps6 ps7 ps8 ps9
          dsimp only at ps2 ps3 ps4 ps5 ps6 ps7 ps8 ps9
          have hsrc : ∀ q, ix + 1 ≤ q → q < hi →
              ∃ k, ix ≤ k ∧ k < hi ∧ lget r.a q = lget s.a k := by
            intro q hq1 hq2
            by_cases hq3 : q < s.lo
            · exact ⟨q, by omega, hq2, ps7 q (Or.inl hq3) (by omega)⟩
            · by_cases hq4 : q < s.hi + 1
              · have hmem : lget r.a q ∈ msRegion r.a s.lo (s.hi + 1) :=
                  (mem_msRegion r.a s.lo (s.hi + 1) _ (by rw [ps5]; omega)).mpr
                    ⟨q, by omega, hq4, rfl⟩
                rw [ps9] at hmem
                rcases Multiset.mem_add.mp hmem with hm | hm
                · rcases (mem_msRegion s.a s.lo s.hi _ (by omega)).mp hm with ⟨k, hk1, hk2, hk3⟩
                  exact ⟨k, by omega, by omega, hk3.symm⟩
                · exact ⟨ix, le_refl _, by omega, Multiset.mem_singleton.mp hm⟩
              · exact ⟨q, by omega, hq2, ps7 q (Or.inr (by omega)) (by omega)⟩
          obtain ⟨hinv1, hinv2⟩ := merge_step_inv lo hi ix s r v hb1 hps hdom hbmin
            ⟨s.hi, by omega, by omega, hvv⟩ (by rw [ps8 (Or.inl hxl2), hvv])
            (fun j hj1 hj2 => ps7 j (Or.inl (by omega)) (by omega)) hsrc
          obtain ⟨t, ht, htl, htp, hto, hts⟩ := merge_go_spec lo hi (ix + 1) r
            ps1 (by omega) (by rw [ps2]; omega) (by rw [ps4]; omega)
            (by rw [ps5]; exact hb4) hinv1 hinv2
            (by
              intro q hq p hpq hp
              rw [ps2] at hq
              rw [ps7 q (Or.inl hq) (by omega), ps7 p (Or.inl (by omega)) (by omega)]
              exact hls q hq p hpq (by omega))
            (by
              intro q hq p hpq hp
              rw [ps4] at hp
              rw [ps7 q (Or.inr (by omega)) (by omega), ps7 p (Or.inr hp) (by omega)]
              exact hrs q hq p hpq (by omega))
          refine ⟨t, heqgo.trans ht, htl.trans ps5, htp.trans ps6, ?_, hts⟩
          intro j hj
          rcases hj with hj | hj
          · rw [hto j (Or.inl hj), ps7 j (Or.inl (by omega)) (by omega)]
          · rw [hto j (Or.inr hj), ps7 j (Or.inr (by omega)) (by omega)]
        · -- slide_right
          have hxeq : ix = s.lo := by omega
          set r := Cheap.slide_right { s with cnt := (merge_best hi ix s).2 } with hr
          have heqgo : merge_go lo hi ix s = merge_go lo hi (ix + 1) r := by
            rw [hr]
            conv_lhs => unfold merge_go
            rw [dif_pos hix, if_neg (show ¬ ix ≥ s.hi by omega)]
            dsimp only
            rw [hcase]
            dsimp only
            rw [if_neg hxl2, if_pos hxeq]
          obtain ⟨sr1, sr2, sr3, sr4, sr5, sr6, sr7, sr8⟩ :=
            slide_right_spec { s with cnt := (merge_best hi ix s).2 }
              ⟨hv1, hv2, hv3, hv4, hv5⟩ (show s.hi < s.a.length by omega)
          rw [← hr] at sr1 sr2 sr3 sr4 sr5 sr6 sr7 sr8
          dsimp only at sr2 sr3 sr4 sr5 sr6 sr7 sr8
          have hsrc : ∀ q, ix + 1 ≤ q → q < hi →
              ∃ k, ix ≤ k ∧ k < hi ∧ lget r.a q = lget s.a k := by
            intro q hq1 hq2
            by_cases hq4 : q < s.hi + 1
            · have hmem : lget r.a q ∈ msRegion r.a (s.lo + 1) (s.hi + 1) :=
                (mem_msRegion r.a (s.lo + 1) (s.hi + 1) _ (by rw [sr4]; omega)).mpr
                  ⟨q, by omega, hq4, rfl⟩
              rw [sr8] at hmem
              rcases (mem_msRegion s.a s.lo s.hi _ (by omega)).mp hmem with ⟨k, hk1, hk2, hk3⟩
              exact ⟨k, by omega, by omega, hk3.symm⟩
            · exact ⟨q, by omega, hq2, sr6 q (Or.inr (by omega))⟩
          obtain ⟨hinv1, hinv2⟩ := merge_step_inv lo hi ix s r v hb1 hps hdom hbmin
            ⟨s.hi, by omega, by omega, hvv⟩ (by rw [hxeq, sr7, hvv])
            (fun j hj1 hj2 => sr6 j (Or.inl (by omega))) hsrc
          obtain ⟨t, ht, htl, htp, hto, hts⟩ := merge_go_spec lo hi (ix + 1) r
            sr1 (by omega) (by rw [sr2]; omega) (by rw [sr3]; omega)
            (by rw [sr4]; exact hb4) hinv1 hinv2
            (by
              intro q hq p hpq hp
              rw [sr2] at hq
              omega)
            (by
              intro q hq p hpq hp
              rw [sr3] at hp
              rw [sr6 q (Or.inr (by omega)), sr6 p (Or.inr hp)]
              exact hrs q hq p hpq (by omega))
          refine ⟨t, heqgo.trans ht, htl.trans sr4, htp.trans sr5, ?_, hts⟩
          intro j hj
          rcases hj with hj | hj
          · rw [hto j (Or.inl hj), sr6 j (Or.inl (by omega))]
          · rw [hto j (Or.inr hj), sr6 j (Or.inr (by omega))]
  · refine ⟨s, ?_, rfl, rfl, fun j _ => rfl, ?_⟩
    · unfold merge_go
      rw [dif_neg hix]
    · intro q hq p hpq hp
      exact hps q (by omega) p hpq hp
termination_by hi - ix
decreasing_by
  all_goals omega

/-- `Cheap::merge` on two adjacent non-decreasing runs `[lo, md)` and
`[md, hi)` terminates without panicking, leaves `[lo, hi)` sorted with
an unchanged multiset of elements, and never touches anything outside
`[lo, hi)`. -/
theorem merge_spec (a : List Int) (lo md hi : Nat) (cnt : Cnt)
    (h1 : lo ≤ md) (h2 : md ≤ hi) (h3 : hi ≤ a.length)
    (hsl : SortedOn a lo md) (hsr : SortedOn a md hi) :
    ∃ a' cnt', Cheap.merge a lo md hi cnt = some (a', cnt') ∧
      a'.length = a.length ∧
      SortedOn a' lo hi ∧
      msRegion a' lo hi = msRegion a lo hi ∧
      (∀ j, j < lo ∨ hi ≤ j → lget a' j = lget a j) := by
  obtain ⟨t, ht, htl, htp, hto, hts⟩ :=
    merge_go_spec lo hi lo ⟨a, md, md, md, cnt⟩
      ⟨le_refl _, le_refl _, show md ≤ a.length by omega, fun h => h,
        show HeapInvOn a md md md by intro i g1 g2 g3; omega⟩
      (le_refl _) h1 h2 h3
      (by intro q hq p hpq hp; omega)
      (by intro p hp1 hp2; omega)
      hsl hsr
  refine ⟨t.a, t.cnt, ?_, htl, hts, ?_, hto⟩
  · unfold Cheap.merge
    rw [ht]
  · exact region_from_global t.a a lo hi htl (by omega) (by rw [htl]; exact h3) htp hto

/-- C1: `merge` on two adjacent non-decreasing runs `[lo, md)` and
`[md, hi)` terminates without panicking, leaves `[lo, hi)` sorted with
an unchanged multiset of elements, and never touches anything outside
`[lo, hi)`. -/
theorem merge_correct (a : List Int) (lo md hi : Nat) (cnt : Cnt)
    (h1 : lo ≤ md) (h2 : md ≤ hi) (h3 : hi ≤ a.length)
    (hsl : SortedOn a lo md) (hsr : SortedOn a md hi) :
    ∃ a' cnt', Cheap.merge a lo md hi cnt = some (a', cnt') ∧
      a'.length = a.length ∧
      SortedOn a' lo hi ∧
      msRegion a' lo hi = msRegion a lo hi ∧
      (∀ j, j < lo ∨ hi ≤ j → lget a' j = lget a j) :=
  merge_spec a lo md hi cnt h1 h2 h3 hsl hsr

theorem merge_correct_witness :
    ((0 : Nat) ≤ 1 ∧ (1 : Nat) ≤ 3 ∧ (3 : Nat) ≤ 3 ∧
      SortedOn [3, 1, 2] 0 1 ∧ SortedOn [3, 1, 2] 1 3) ∧
    ∃ a' cnt', Cheap.merge [3, 1, 2] 0 1 3 ⟨0, 0⟩ = some (a', cnt') ∧
      a'.length = ([3, 1, 2] : List Int).length ∧
      SortedOn a' 0 3 ∧
      msRegion a' 0 3 = msRegion [3, 1, 2] 0 3 ∧
      (∀ j, j < 0 ∨ 3 ≤ j → lget a' j = lget [3, 1, 2] j) :=
  ⟨⟨by omega, by omega, by decide, by decide, by decide⟩,
    merge_correct [3, 1, 2] 0 1 3 ⟨0, 0⟩ (by omega) (by omega) (by decide)
      (by decide) (by decide)⟩

/-! ### Correctness of the sort drivers -/

/-- The sink loop of `small_sort`: if removing index `j` from
`[lo, i+1)` leaves a sorted arrangement dominated appropriately, the
loop restores sortedness of all of `[lo, i+1)`. -/
theorem small_sort_inner_spec (lo i : Nat) (j : Nat) (a : List Int) (cnt : Cnt)
    (hj1 : lo ≤ j) (hj2 : j ≤ i) (hi2 : i < a.length)
    (h1 : SortedOn a lo j)
    (h2 : SortedOn a (j + 1) (i + 1))
    (h3 : ∀ p, lo ≤ p → p < j → ∀ q, j < q → q < i + 1 → lget a p ≤ lget a q)
    (h4 : ∀ q, j < q → q < i + 1 → lget a j ≤ lget a q) :
    (small_sort_inner lo j a cnt).1.length = a.length ∧
    ((small_sort_inner lo j a cnt).1 : Multiset Int) = (a : Multiset Int) ∧
    (∀ k, k < lo ∨ i < k → lget (small_sort_inner lo j a cnt).1 k = lget a k) ∧
    SortedOn (small_sort_inner lo j a cnt).1 lo (i + 1) := by
  by_cases hg : lo < j ∧ lget a j < lget a (j - 1)
  · have hr : small_sort_inner lo j a cnt =
        small_sort_inner lo (j - 1) (lswap a (j - 1) j) cnt.cmp.swp := by
      conv_lhs => unfold small_sort_inner
      rw [if_pos hg]
    rw [hr]
    have hb : ∀ k, k ≠ j - 1 → k ≠ j → lget (lswap a (j - 1) j) k = lget a k :=
      fun k hk1 hk2 => lget_lswap_ne a (j - 1) j k hk1 hk2
    have hbj1 : lget (lswap a (j - 1) j) (j - 1) = lget a j :=
      lget_lswap_left a (j - 1) j (by omega) (by omega)
    have hbj : lget (lswap a (j - 1) j) j = lget a (j - 1) :=
      lget_lswap_right a (j - 1) j (by omega)
    obtain ⟨c1, c2, c3, c4⟩ := small_sort_inner_spec lo i (j - 1) (lswap a (j - 1) j)
      cnt.cmp.swp (by omega) (by omega) (by rw [length_lswap]; exact hi2)
      (by
        intro q hq p hpq hp
        rw [hb q (by omega) (by omega), hb p (by omega) (by omega)]
        exact h1 q (by omega) p hpq hp)
      (by
        intro q hq p hpq hp
        by_cases hpj : p = j
        · rw [hpj, hbj, hb q (by omega) (by omega)]
          exact h3 (j - 1) (by omega) (by omega) q (by omega) hq
        · rw [hb q (by omega) (by omega), hb p (by omega) hpj]
          exact h2 q hq p hpq (by omega))
      (by
        intro p hp1 hp2 q hq1 hq2
        by_cases hqj : q = j
        · rw [hqj, hbj, hb p (by omega) (by omega)]
          exact h1 (j - 1) (by omega) p (by omega) hp1
        · rw [hb q (by omega) hqj, hb p (by omega) (by omega)]
          exact h3 p hp1 (by omega) q (by omega) hq2)
      (by
        intro q hq1 hq2
        rw [hbj1]
        by_cases hqj : q = j
        · rw [hqj, hbj]
          exact le_of_lt hg.2
        · rw [hb q (by omega) hqj]
          exact h4 q (by omega) hq2)
    refine ⟨by rw [c1, length_lswap], by rw [c2, multiset_lswap a (j - 1) j (by omega) (by omega)],
      ?_, c4⟩
    intro k hk
    rw [c3 k hk, hb k (by omega) (by omega)]
  · have hr : small_sort_inner lo j a cnt = (a, cnt.cmp) := by
      conv_lhs => unfold small_sort_inner
      rw [if_neg hg]
    rw [hr]
    refine ⟨rfl, rfl, fun k _ => rfl, ?_⟩
    intro q hq p hpq hp
    by_cases hqj : q < j
    · exact h1 q hqj p hpq hp
    · by_cases hqj2 : q = j
      · rw [hqj2]
        by_cases hjlo : j = lo
        · omega
        · have hgj : lget a (j - 1) ≤ lget a j := by
            rcases not_and_or.mp hg with hh | hh
            · omega
            · exact le_of_not_lt hh
          by_cases hpj : p = j - 1
          · rw [hpj]; exact hgj
          · exact le_trans (h1 (j - 1) (by omega) p (by omega) hp) hgj
      · by_cases hpj : p < j
        · exact h3 p hp hpj q (by omega) hq
        · by_cases hpj2 : p = j
          · rw [hpj2]
            exact h4 q (by omega) hq
          · exact h2 q hq p hpq (by omega)
termination_by j
decreasing_by omega

/-- The insertion loop of `small_sort`: inserting positions
`k, k+1, ..., k+m-1` one by one into the sorted prefix `[lo, k)`. -/
theorem small_sort_fold (lo : Nat) (m : Nat) (k : Nat) (a : List Int) (cnt : Cnt)
    (hk : lo + 1 ≤ k) (hm : k + m ≤ a.length)
    (hs : SortedOn a lo k) :
    (((List.range' k m).foldl (fun p i => small_sort_inner lo i p.1 p.2) (a, cnt)).1.length
      = a.length) ∧
    ((((List.range' k m).foldl (fun p i => small_sort_inner lo i p.1 p.2) (a, cnt)).1 :
      Multiset Int) = (a : Multiset Int)) ∧
    (∀ j, j < lo ∨ k + m ≤ j →
      lget ((List.range' k m).foldl (fun p i => small_sort_inner lo i p.1 p.2) (a, cnt)).1 j
        = lget a j) ∧
    SortedOn ((List.range' k m).foldl (fun p i => small_sort_inner lo i p.1 p.2) (a, cnt)).1
      lo (k + m) := by
  induction m generalizing k a cnt with
  | zero =>
    exact ⟨rfl, rfl, fun j _ => rfl, by simpa using hs⟩
  | succ m ih =>
    rw [List.range'_succ, List.foldl_cons]
    obtain ⟨c1, c2, c3, c4⟩ := small_sort_inner_spec lo k k a cnt (by omega) (le_refl _)
      (by omega) hs
      (by intro q hq p hpq hp; omega)
      (by intro p hp1 hp2 q hq1 hq2; omega)
      (by intro q hq1 hq2; omega)
    obtain ⟨d1, d2, d3, d4⟩ := ih (k + 1) (small_sort_inner lo k a cnt).1
      (small_sort_inner lo k a cnt).2 (by omega) (by rw [c1]; omega) c4
    have harith : k + 1 + m = k + (m + 1) := by omega
    rw [harith] at d3 d4
    refine ⟨d1.trans c1, d2.trans c2, ?_, d4⟩
    intro j hj
    rw [d3 j (by omega), c3 j (by omega)]

/-- `small_sort` sorts `[lo, hi)` in place: the array is permuted,
nothing outside `[lo, hi)` moves, and the region ends up
non-decreasing. -/
theorem small_sort_spec (a : List Int) (lo hi : Nat) (cnt : Cnt) (hhi : hi ≤ a.length) :
    (small_sort a lo hi cnt).1.length = a.length ∧
    ((small_sort a lo hi cnt).1 : Multiset Int) = (a : Multiset Int) ∧
    (∀ j, j < lo ∨ hi ≤ j → lget (small_sort a lo hi cnt).1 j = lget a j) ∧
    SortedOn (small_sort a lo hi cnt).1 lo hi := by
  by_cases hsz : hi ≤ lo + 1
  · have hm : hi - (lo + 1) = 0 := by omega
    have hr : small_sort a lo hi cnt = (a, cnt) := by
      unfold small_sort
      rw [hm]
      rfl
    rw [hr]
    refine ⟨rfl, rfl, fun j _ => rfl, ?_⟩
    intro q hq p hpq hp
    omega
  · obtain ⟨c1, c2, c3, c4⟩ := small_sort_fold lo (hi - (lo + 1)) (lo + 1) a cnt
      (le_refl _) (by omega)
      (by intro q hq p hpq hp; omega)
    have he : lo + 1 + (hi - (lo + 1)) = hi := by omega
    rw [he] at c3 c4
    exact ⟨c1, c2, c3, c4⟩

/-- Two arrays of the same length that agree pointwise outside
`[lo, hi)` and whose `[lo, hi)` regions agree as multisets have the
same global multiset. -/
theorem global_from_region (a b : List Int) (lo hi : Nat) (hlen : a.length = b.length)
    (hlo : lo ≤ hi) (hhi : hi ≤ a.length)
    (hreg : msRegion a lo hi = msRegion b lo hi)
    (hout : ∀ j, j < lo ∨ hi ≤ j → lget a j = lget b j) :
    (a : Multiset Int) = (b : Multiset Int) := by
  have hpre : msRegion a 0 lo = msRegion b 0 lo := by
    apply msRegion_congr a b 0 lo hlen (by omega)
    intro j _ hj
    exact hout j (Or.inl hj)
  have hpost : msRegion a hi a.length = msRegion b hi b.length := by
    rw [← hlen]
    apply msRegion_congr a b hi a.length hlen (le_refl _)
    intro j hj _
    exact hout j (Or.inr hj)
  have hsa : msRegion a 0 a.length = (a : Multiset Int) := by
    unfold msRegion; simp
  have hsb : msRegion b 0 b.length = (b : Multiset Int) := by
    unfold msRegion; simp
  rw [← hsa, ← hsb]
  rw [msRegion_split a 0 hi a.length (by omega) hhi (le_refl _),
    msRegion_split b 0 hi b.length (by omega) (by omega) (le_refl _)]
  rw [msRegion_split a 0 lo hi (by omega) hlo hhi,
    msRegion_split b 0 lo hi (by omega) hlo (by omega)]
  rw [hpre, hreg, hpost]

/-- `merge_sort` sorts `[lo, hi)` in place: it never panics, permutes
exactly `[lo, hi)`, and leaves the region non-decreasing. -/
theorem merge_sort_spec (a : List Int) (lo hi : Nat) (cnt : Cnt)
    (h1 : lo ≤ hi) (h2 : hi ≤ a.length) :
    ∃ p, merge_sort a lo hi cnt = some p ∧
      p.1.length = a.length ∧
      (p.1 : Multiset Int) = (a : Multiset Int) ∧
      (∀ j, j < lo ∨ hi ≤ j → lget p.1 j = lget a j) ∧
      SortedOn p.1 lo hi := by
  by_cases hsz : hi - lo ≤ 4
  · obtain ⟨c1, c2, c3, c4⟩ := small_sort_spec a lo hi cnt h2
    refine ⟨small_sort a lo hi cnt, ?_, c1, c2, c3, c4⟩
    unfold merge_sort
    rw [if_pos hsz]
  · have hmd1 : lo < (lo + hi) / 2 := by omega
    have hmd2 : (lo + hi) / 2 < hi := by omega
    obtain ⟨p1, e1, l1, m1, o1, s1⟩ :=
      merge_sort_spec a lo ((lo + hi) / 2) cnt (by omega) (by omega)
    obtain ⟨p2, e2, l2, m2, o2, s2⟩ :=
      merge_sort_spec p1.1 ((lo + hi) / 2) hi p1.2 (by omega) (by rw [l1]; omega)
    have hsl : SortedOn p2.1 lo ((lo + hi) / 2) := by
      intro q hq p hpq hp
      rw [o2 q (Or.inl hq), o2 p (Or.inl (by omega))]
      exact s1 q hq p hpq hp
    obtain ⟨a', cnt', me, ml, ms, mr, mo⟩ :=
      merge_spec p2.1 lo ((lo + hi) / 2) hi p2.2 (by omega) (by omega)
        (by rw [l2, l1]; omega) hsl s2
    refine ⟨(a', cnt'), ?_, ?_, ?_, ?_, ms⟩
    · unfold merge_sort
      rw [if_neg hsz, e1]
      dsimp only
      rw [e2]
      dsimp only
      exact me
    · rw [ml, l2, l1]
    · have hg : (a' : Multiset Int) = (p2.1 : Multiset Int) :=
        global_from_region a' p2.1 lo hi ml (by omega) (by rw [ml, l2, l1]; omega) mr mo
      rw [hg, m2, m1]
    · intro j hj
      rcases hj with hj | hj
      · rw [mo j (Or.inl hj), o2 j (Or.inl (by omega)), o1 j (Or.inl hj)]
      · rw [mo j (Or.inr hj), o2 j (Or.inr hj), o1 j (Or.inr (by omega))]
termination_by hi - lo
decreasing_by
  all_goals omega

/-- The pop loop of `heap_sort_left`: popping a valid heap to
exhaustion leaves `[0, hi)` sorted when the prefix `[0, lo)` is already
sorted and dominated by the heap region. -/
theorem hsl_go_spec (s : Cheap) (hv : Valid s)
    (hps : SortedOn s.a 0 s.lo)
    (hdom : ∀ p, p < s.lo → ∀ q, s.lo ≤ q → q < s.hi → lget s.a p ≤ lget s.a q) :
    (hsl_go s).a.length = s.a.length ∧
    ((hsl_go s).a : Multiset Int) = (s.a : Multiset Int) ∧
    (∀ j, j < s.lo ∨ s.hi ≤ j → lget (hsl_go s).a j = lget s.a j) ∧
    SortedOn (hsl_go s).a 0 s.hi := by
  by_cases hne : s.lo < s.hi
  · have heq : hsl_go s = hsl_go s.pop_left := by
      conv_lhs => unfold hsl_go
      rw [if_pos hne]
    obtain ⟨pl1, pl2, pl3, pl4, pl5, pl6, pl7⟩ := pop_left_spec s hv hne
    obtain ⟨hv1, hv2, hv3, hv4, hv5⟩ := hv
    have hch : s.c < s.hi := hv4 hne
    have hregion : msRegion s.pop_left.a s.lo s.hi = msRegion s.a s.lo s.hi := by
      apply region_from_global _ _ s.lo s.hi pl4 (by omega) (by rw [pl4]; omega)
      · exact pl5
      · exact pl6
    have hsrc : ∀ q, s.lo + 1 ≤ q → q < s.hi → ∃ k, s.lo ≤ k ∧ k < s.hi ∧
        lget s.pop_left.a q = lget s.a k := by
      intro q hq1 hq2
      have hmem : lget s.pop_left.a q ∈ msRegion s.pop_left.a (s.lo + 1) s.hi :=
        (mem_msRegion _ (s.lo + 1) s.hi _ (by rw [pl4]; omega)).mpr ⟨q, hq1, hq2, rfl⟩
      have hmem2 : lget s.pop_left.a q ∈ msRegion s.pop_left.a s.lo s.hi := by
        rw [msRegion_split _ s.lo (s.lo + 1) s.hi (by omega) (by omega) (by rw [pl4]; omega)]
        exact Multiset.mem_add.mpr (Or.inr hmem)
      rw [hregion] at hmem2
      rcases (mem_msRegion s.a s.lo s.hi _ (by omega)).mp hmem2 with ⟨k, hk1, hk2, hk3⟩
      exact ⟨k, hk1, hk2, hk3.symm⟩
    have hroot := valid_root_min s ⟨hv1, hv2, hv3, hv4, hv5⟩ hne
    obtain ⟨hinv1, hinv2⟩ := merge_step_inv 0 s.hi s.lo s s.pop_left (lget s.a s.c)
      (by omega) hps
      (fun p hp1 hp2 q hq1 hq2 => hdom p hp2 q hq1 hq2)
      (fun k hk1 hk2 => hroot k hk1 hk2)
      ⟨s.c, by omega, hch, rfl⟩
      pl7
      (fun j hj1 hj2 => pl6 j (Or.inl hj2))
      hsrc
    obtain ⟨d1, d2, d3, d4⟩ := hsl_go_spec s.pop_left pl1
      (by rw [pl2]; exact hinv1)
      (by
        intro p hp q hq1 hq2
        rw [pl2] at hp hq1
        rw [pl3] at hq2
        exact hinv2 p (by omega) (by omega) q hq1 hq2)
    rw [heq]
    rw [pl3] at d4
    refine ⟨d1.trans pl4, d2.trans pl5, ?_, d4⟩
    intro j hj
    rcases hj with hj | hj
    · rw [d3 j (Or.inl (by omega)), pl6 j (Or.inl hj)]
    · rw [d3 j (Or.inr (by rw [pl3]; omega)), pl6 j (Or.inr hj)]
  · have heq : hsl_go s = s := by
      unfold hsl_go
      rw [if_neg hne]
    rw [heq]
    refine ⟨rfl, rfl, fun j _ => rfl, ?_⟩
    intro q hq p hpq hp
    exact hps q (by omega) p hpq hp
termination_by s.hi - s.lo
decreasing_by
  rcases pop_left_markers s with ⟨g1, g2⟩
  omega

/-- `heap_sort_left` sorts: popping the recentered full-span heap to
the left leaves the array non-decreasing. -/
theorem heap_sort_left_spec (a : List Int) (cnt : Cnt) :
    (heap_sort_left a cnt).1.length = a.length ∧
    ((heap_sort_left a cnt).1 : Multiset Int) = (a : Multiset Int) ∧
    SortedOn (heap_sort_left a cnt).1 0 a.length := by
  have hres : (heap_sort_left a cnt).1 =
      (hsl_go (Cheap.recenter ⟨a, 0, a.length - 1, a.length, cnt⟩)).a := rfl
  by_cases hn : a.length = 0
  · have ha : a = [] := List.eq_nil_of_length_eq_zero hn
    subst ha
    have h1 : Cheap.recenter ⟨[], 0, ([] : List Int).length - 1, ([] : List Int).length, cnt⟩
        = ⟨[], 0, ([] : List Int).length - 1, ([] : List Int).length, cnt⟩ := by
      simp [Cheap.recenter, get_recenter_limit, List.range']
    have h2 : hsl_go ⟨[], 0, ([] : List Int).length - 1, ([] : List Int).length, cnt⟩
        = ⟨[], 0, ([] : List Int).length - 1, ([] : List Int).length, cnt⟩ := by
      unfold hsl_go
      rw [if_neg (show ¬ (0 : Nat) < ([] : List Int).length by simp)]
    rw [hres, h1, h2]
    refine ⟨rfl, rfl, ?_⟩
    intro q hq p hpq hp
    omega
  · have hn1 : 1 ≤ a.length := by omega
    obtain ⟨r1, r2, r3, r4, r5, r6, r7⟩ :=
      recenter_spec ⟨a, 0, a.length - 1, a.length, cnt⟩
        (by show (0 : Nat) ≤ a.length - 1; omega)
        (by show a.length - 1 < a.length; omega)
        (le_refl _)
    dsimp only at r1 r2 r3 r4 r5 r6 r7
    have hval : Valid (Cheap.recenter ⟨a, 0, a.length - 1, a.length, cnt⟩) := by
      refine ⟨?_, ?_, ?_, ?_, ?_⟩
      · rw [r1, r2]; omega
      · rw [r2, r3]; omega
      · rw [r3, r4]
      · rw [r2, r3]; intro _; omega
      · rw [r1, r2, r3]; exact r7
    obtain ⟨d1, d2, d3, d4⟩ := hsl_go_spec (Cheap.recenter ⟨a, 0, a.length - 1, a.length, cnt⟩)
      hval
      (by rw [r1]; intro q hq p hpq hp; omega)
      (by rw [r1]; intro p hp; omega)
    rw [r3] at d4
    rw [hres]
    exact ⟨d1.trans r4, d2.trans r5, d4⟩

/-- A region that is non-increasing reads as non-decreasing after
`List.reverse`. -/
theorem sortedOn_reverse_of_rev (a : List Int)
    (h : ∀ q, q < a.length → ∀ p, p < q → lget a q ≤ lget a p) :
    SortedOn a.reverse 0 a.length := by
  intro q hq p hpq hp
  have hrev : ∀ k, k < a.length → lget a.reverse k = lget a (a.length - 1 - k) := by
    intro k hk
    rw [lget_eq_getElem a.reverse k (by simpa using hk),
      lget_eq_getElem a _ (by omega), List.getElem_reverse]
  rw [hrev q hq, hrev p (by omega)]
  by_cases hpq2 : a.length - 1 - q = a.length - 1 - p
  · rw [hpq2]
  · exact h (a.length - 1 - p) (by omega) (a.length - 1 - q) (by omega)

/-- The pop loop of `heap_sort_right`: popping a valid heap to
exhaustion leaves `[lo, len)` non-increasing when the suffix
`[hi, len)` is already non-increasing and below the heap region. -/
theorem hsr_go_spec (s : Cheap) (hv : Valid s)
    (hss : ∀ q, s.hi ≤ q → q < s.a.length → ∀ p, s.hi ≤ p → p < q →
      lget s.a q ≤ lget s.a p)
    (hdom : ∀ q, s.hi ≤ q → q < s.a.length → ∀ p, s.lo ≤ p → p < s.hi →
      lget s.a q ≤ lget s.a p) :
    (hsr_go s).a.length = s.a.length ∧
    ((hsr_go s).a : Multiset Int) = (s.a : Multiset Int) ∧
    (∀ j, j < s.lo ∨ s.hi ≤ j → lget (hsr_go s).a j = lget s.a j) ∧
    (∀ q, s.lo ≤ q → q < s.a.length → ∀ p, s.lo ≤ p → p < q →
      lget (hsr_go s).a q ≤ lget (hsr_go s).a p) := by
  by_cases hne : s.lo < s.hi
  · have heq : hsr_go s = hsr_go s.pop_right := by
      conv_lhs => unfold hsr_go
      rw [if_pos hne]
    obtain ⟨pr1, pr2, pr3, pr4, pr5, pr6, pr7⟩ := pop_right_spec s hv hne
    obtain ⟨hv1, hv2, hv3, hv4, hv5⟩ := hv
    have hch : s.c < s.hi := hv4 hne
    have hroot := valid_root_min s ⟨hv1, hv2, hv3, hv4, hv5⟩ hne
    have hregion : msRegion s.pop_right.a s.lo s.hi = msRegion s.a s.lo s.hi := by
      apply region_from_global _ _ s.lo s.hi pr4 (by omega) (by rw [pr4]; omega)
      · exact pr5
      · exact pr6
    have hsrc : ∀ p, s.lo ≤ p → p < s.hi - 1 → ∃ k, s.lo ≤ k ∧ k < s.hi ∧
        lget s.pop_right.a p = lget s.a k := by
      intro p hp1 hp2
      have hmem : lget s.pop_right.a p ∈ msRegion s.pop_right.a s.lo (s.hi - 1) :=
        (mem_msRegion _ s.lo (s.hi - 1) _ (by rw [pr4]; omega)).mpr ⟨p, hp1, hp2, rfl⟩
      have hmem2 : lget s.pop_right.a p ∈ msRegion s.pop_right.a s.lo s.hi := by
        rw [msRegion_split _ s.lo (s.hi - 1) s.hi (by omega) (by omega) (by rw [pr4]; omega)]
        exact Multiset.mem_add.mpr (Or.inl hmem)
      rw [hregion] at hmem2
      rcases (mem_msRegion s.a s.lo s.hi _ (by omega)).mp hmem2 with ⟨k, hk1, hk2, hk3⟩
      exact ⟨k, hk1, hk2, hk3.symm⟩
    obtain ⟨d1, d2, d3, d4⟩ := hsr_go_spec s.pop_right pr1
      (by
        rw [pr3, pr4]
        intro q hq1 hq2 p hp1 hp2
        by_cases hpe : p = s.hi - 1
        · rw [hpe, pr7]
          by_cases hqe : q = s.hi - 1
          · omega
          · rw [pr6 q (Or.inr (by omega))]
            exact le_trans (hdom q (by omega) hq2 s.c hv1 hch) (le_refl _)
        · rw [pr6 q (Or.inr (by omega)), pr6 p (Or.inr (by omega))]
          exact hss q (by omega) hq2 p (by omega) (by omega))
      (by
        rw [pr2, pr3, pr4]
        intro q hq1 hq2 p hp1 hp2
        obtain ⟨k, hk1, hk2, hk3⟩ := hsrc p hp1 hp2
        rw [hk3]
        by_cases hqe : q = s.hi - 1
        · rw [hqe, pr7]
          exact hroot k hk1 hk2
        · rw [pr6 q (Or.inr (by omega))]
          exact hdom q (by omega) hq2 k hk1 hk2)
    rw [heq]
    rw [pr2, pr4] at d4
    refine ⟨d1.trans pr4, d2.trans pr5, ?_, d4⟩
    intro j hj
    rcases hj with hj | hj
    · rw [d3 j (Or.inl (by rw [pr2]; omega)), pr6 j (Or.inl hj)]
    · rw [d3 j (Or.inr (by rw [pr3]; omega)), pr6 j (Or.inr hj)]
  · have heq : hsr_go s = s := by
      unfold hsr_go
      rw [if_neg hne]
    rw [heq]
    obtain ⟨hv1, hv2, hv3, hv4, hv5⟩ := hv
    refine ⟨rfl, rfl, fun j _ => rfl, ?_⟩
    intro q hq1 hq2 p hp1 hp2
    exact hss q (by omega) hq2 p (by omega) hp2
termination_by s.hi - s.lo
decreasing_by
  rcases pop_right_markers s with ⟨g1, g2⟩
  omega

/-- `heap_sort_right` sorts: popping the recentered full-span heap to
the right leaves the array non-increasing, and the final `reverse`
makes it non-decreasing. -/
theorem heap_sort_right_spec (a : List Int) (cnt : Cnt) :
    (heap_sort_right a cnt).1.length = a.length ∧
    ((heap_sort_right a cnt).1 : Multiset Int) = (a : Multiset Int) ∧
    SortedOn (heap_sort_right a cnt).1 0 a.length := by
  have hres : (heap_sort_right a cnt).1 =
      (hsr_go (Cheap.recenter ⟨a, 0, 0, a.length, cnt⟩)).a.reverse := rfl
  by_cases hn : a.length = 0
  · have ha : a = [] := List.eq_nil_of_length_eq_zero hn
    subst ha
    have h1 : Cheap.recenter ⟨[], 0, 0, ([] : List Int).length, cnt⟩
        = ⟨[], 0, 0, ([] : List Int).length, cnt⟩ := by
      simp [Cheap.recenter, get_recenter_limit, List.range']
    have h2 : hsr_go ⟨[], 0, 0, ([] : List Int).length, cnt⟩
        = ⟨[], 0, 0, ([] : List Int).length, cnt⟩ := by
      unfold hsr_go
      rw [if_neg (show ¬ (0 : Nat) < ([] : List Int).length by simp)]
    rw [hres, h1, h2]
    refine ⟨rfl, rfl, ?_⟩
    intro q hq p hpq hp
    omega
  · have hn1 : 1 ≤ a.length := by omega
    obtain ⟨r1, r2, r3, r4, r5, r6, r7⟩ :=
      recenter_spec ⟨a, 0, 0, a.length, cnt⟩
        (le_refl _)
        (by show (0 : Nat) < a.length; omega)
        (le_refl _)
    dsimp only at r1 r2 r3 r4 r5 r6 r7
    have hval : Valid (Cheap.recenter ⟨a, 0, 0, a.length, cnt⟩) := by
      refine ⟨?_, ?_, ?_, ?_, ?_⟩
      · rw [r1, r2]
      · rw [r2, r3]; omega
      · rw [r3, r4]
      · rw [r2, r3]; intro _; omega
      · rw [r1, r2, r3]; exact r7
    obtain ⟨d1, d2, d3, d4⟩ := hsr_go_spec (Cheap.recenter ⟨a, 0, 0, a.length, cnt⟩) hval
      (by rw [r3, r4]; intro q hq1 hq2; omega)
      (by rw [r3, r4]; intro q hq1 hq2; omega)
    rw [r1, r4] at d4
    rw [hres]
    have hlen : (hsr_go (Cheap.recenter ⟨a, 0, 0, a.length, cnt⟩)).a.length = a.length :=
      d1.trans r4
    refine ⟨by rw [List.length_reverse, hlen], ?_, ?_⟩
    · rw [Multiset.coe_reverse, d2, r5]
    · have hsorted := sortedOn_reverse_of_rev (hsr_go (Cheap.recenter ⟨a, 0, 0, a.length, cnt⟩)).a
        (by
          rw [hlen]
          intro q hq p hpq
          exact d4 q (by omega) hq p (by omega) hpq)
      rw [hlen] at hsorted
      exact hsorted

/-- One iteration of `running_sort_left`'s body preserves validity and
the array's multiset, and moves `lo` (or else `hi`) strictly right. -/
theorem rsl_step_spec (a_len run : Nat) (s : Cheap) (hv : Valid s)
    (hlen : s.a.length = a_len) (hrun : 1 ≤ run) (hlo : s.lo < a_len) :
    Valid (rsl_step a_len run s) ∧
    (rsl_step a_len run s).a.length = s.a.length ∧
    ((rsl_step a_len run s).a : Multiset Int) = (s.a : Multiset Int) ∧
    (s.lo < (rsl_step a_len run s).lo ∨
      (s.lo = (rsl_step a_len run s).lo ∧ s.hi < (rsl_step a_len run s).hi)) := by
  obtain ⟨hv1, hv2, hv3, hv4, hv5⟩ := hv
  by_cases hpush : s.hi < a_len
  · obtain ⟨p1, p2, p3, p4, p5, p6, p7⟩ :=
      push_right_spec s ⟨hv1, hv2, hv3, hv4, hv5⟩ (by omega)
    have hstep : rsl_step a_len run s =
        if run ≤ s.push_right.hi - s.push_right.lo ∨ s.push_right.hi = a_len
        then s.push_right.pop_left else s.push_right := by
      simp only [rsl_step, if_pos hpush]
    by_cases hpop : run ≤ s.push_right.hi - s.push_right.lo ∨ s.push_right.hi = a_len
    · rw [hstep, if_pos hpop]
      have hne : s.push_right.lo < s.push_right.hi := by
        rw [p2, p4]
        rw [p2, p4] at hpop
        omega
      obtain ⟨q1, q2, q3, q4, q5, q6, q7⟩ := pop_left_spec s.push_right p1 hne
      refine ⟨q1, q4.trans p5, q5.trans p6, ?_⟩
      left
      rw [q2, p2]
      omega
    · rw [hstep, if_neg hpop]
      exact ⟨p1, p5, p6, Or.inr ⟨p2.symm, by rw [p4]; omega⟩⟩
  · have hstep : rsl_step a_len run s =
        if run ≤ s.hi - s.lo ∨ s.hi = a_len then s.pop_left else s := by
      simp only [rsl_step, if_neg hpush]
    have hhieq : s.hi = a_len := by omega
    rw [hstep, if_pos (Or.inr hhieq)]
    have hne : s.lo < s.hi := by omega
    obtain ⟨q1, q2, q3, q4, q5, q6, q7⟩ := pop_left_spec s ⟨hv1, hv2, hv3, hv4, hv5⟩ hne
    exact ⟨q1, q4, q5, Or.inl (by rw [q2]; omega)⟩

/-- The loop of `running_sort_left` permutes the array. -/
theorem rsl_go_spec (a_len run : Nat) (s : Cheap) (hv : Valid s)
    (hlen : s.a.length = a_len) (hrun : 1 ≤ run) :
    (rsl_go a_len run s).a.length = s.a.length ∧
    ((rsl_go a_len run s).a : Multiset Int) = (s.a : Multiset Int) := by
  by_cases h : s.lo < a_len
  · obtain ⟨t1, t2, t3, t4⟩ := rsl_step_spec a_len run s hv hlen hrun h
    have heq : rsl_go a_len run s = rsl_go a_len run (rsl_step a_len run s) := by
      conv_lhs => unfold rsl_go
      rw [dif_pos h, dif_pos t4]
    obtain ⟨d1, d2⟩ := rsl_go_spec a_len run (rsl_step a_len run s) t1
      (by rw [t2, hlen]) hrun
    rw [heq]
    exact ⟨d1.trans t2, d2.trans t3⟩
  · have heq : rsl_go a_len run s = s := by
      unfold rsl_go
      rw [dif_neg h]
    rw [heq]
    exact ⟨rfl, rfl⟩
termination_by (a_len - s.lo, a_len - s.hi)
decreasing_by
  rcases t4 with h1 | ⟨h2, h3⟩
  · exact Prod.Lex.left _ _ (by omega)
  · have hb : (rsl_step a_len run s).hi ≤ (rsl_step a_len run s).a.length := t1.2.2.1
    have hb2 := t2
    have he : a_len - (rsl_step a_len run s).lo = a_len - s.lo := by omega
    rw [he]
    exact Prod.Lex.right _ (by omega)

/-- One iteration of `running_sort_right`'s body preserves validity and
the array's multiset, and moves `hi` (or else `lo`) strictly left. -/
theorem rsr_step_spec (run : Nat) (s : Cheap) (hv : Valid s)
    (hrun : 1 ≤ run) (hhi : 0 < s.hi) :
    Valid (rsr_step run s) ∧
    (rsr_step run s).a.length = s.a.length ∧
    ((rsr_step run s).a : Multiset Int) = (s.a : Multiset Int) ∧
    ((rsr_step run s).hi < s.hi ∨
      ((rsr_step run s).hi = s.hi ∧ (rsr_step run s).lo < s.lo)) := by
  obtain ⟨hv1, hv2, hv3, hv4, hv5⟩ := hv
  by_cases hpush : 0 < s.lo
  · obtain ⟨p1, p2, p3, p4, p5, p6⟩ :=
      push_left_spec s ⟨hv1, hv2, hv3, hv4, hv5⟩ hpush
    have hstep : rsr_step run s =
        if run ≤ s.push_left.hi - s.push_left.lo ∨ s.push_left.lo = 0
        then s.push_left.pop_right else s.push_left := by
      simp only [rsr_step, if_pos hpush]
    by_cases hpop : run ≤ s.push_left.hi - s.push_left.lo ∨ s.push_left.lo = 0
    · rw [hstep, if_pos hpop]
      have hne : s.push_left.lo < s.push_left.hi := by
        rw [p2, p3]
        rw [p2, p3] at hpop
        omega
      obtain ⟨q1, q2, q3, q4, q5, q6, q7⟩ := pop_right_spec s.push_left p1 hne
      refine ⟨q1, q4.trans p4, q5.trans p5, ?_⟩
      left
      rw [q3, p3]
      omega
    · rw [hstep, if_neg hpop]
      exact ⟨p1, p4, p5, Or.inr ⟨p3, by rw [p2]; omega⟩⟩
  · have hstep : rsr_step run s =
        if run ≤ s.hi - s.lo ∨ s.lo = 0 then s.pop_right else s := by
      simp only [rsr_step, if_neg hpush]
    have hloeq : s.lo = 0 := by omega
    rw [hstep, if_pos (Or.inr hloeq)]
    have hne : s.lo < s.hi := by omega
    obtain ⟨q1, q2, q3, q4, q5, q6, q7⟩ := pop_right_spec s ⟨hv1, hv2, hv3, hv4, hv5⟩ hne
    exact ⟨q1, q4, q5, Or.inl (by rw [q3]; omega)⟩

/-- The loop of `running_sort_right` permutes the array. -/
theorem rsr_go_spec (run : Nat) (s : Cheap) (hv : Valid s) (hrun : 1 ≤ run) :
    (rsr_go run s).a.length = s.a.length ∧
    ((rsr_go run s).a : Multiset Int) = (s.a : Multiset Int) := by
  by_cases h : 0 < s.hi
  · obtain ⟨t1, t2, t3, t4⟩ := rsr_step_spec run s hv hrun h
    have heq : rsr_go run s = rsr_go run (rsr_step run s) := by
      conv_lhs => unfold rsr_go
      rw [dif_pos h, dif_pos t4]
    obtain ⟨d1, d2⟩ := rsr_go_spec run (rsr_step run s) t1 hrun
    rw [heq]
    exact ⟨d1.trans t2, d2.trans t3⟩
  · have heq : rsr_go run s = s := by
      unfold rsr_go
      rw [dif_neg h]
    rw [heq]
    exact ⟨rfl, rfl⟩
termination_by (s.hi, s.lo)
decreasing_by
  rcases t4 with h1 | ⟨h2, h3⟩
  · exact Prod.Lex.left _ _ h1
  · rw [h2]
    exact Prod.Lex.right _ h3

/-- C3 (amended): the divide-and-conquer driver `merge_sort` and the
two heap-sort drivers leave the array non-decreasing and a permutation
of the input; the two running-sort drivers only permute the input
(window size at least 1) — they do not in general sort it. -/
theorem sort_drivers_amended (a : List Int) (run : Nat) (cnt : Cnt) (hrun : 1 ≤ run) :
    (∃ p, merge_sort a 0 a.length cnt = some p ∧ p.1.length = a.length ∧
      (p.1 : Multiset Int) = (a : Multiset Int) ∧ SortedOn p.1 0 a.length) ∧
    ((heap_sort_left a cnt).1.length = a.length ∧
      ((heap_sort_left a cnt).1 : Multiset Int) = (a : Multiset Int) ∧
      SortedOn (heap_sort_left a cnt).1 0 a.length) ∧
    ((heap_sort_right a cnt).1.length = a.length ∧
      ((heap_sort_right a cnt).1 : Multiset Int) = (a : Multiset Int) ∧
      SortedOn (heap_sort_right a cnt).1 0 a.length) ∧
    ((running_sort_left a run cnt).1.length = a.length ∧
      ((running_sort_left a run cnt).1 : Multiset Int) = (a : Multiset Int)) ∧
    ((running_sort_right a run cnt).1.length = a.length ∧
      ((running_sort_right a run cnt).1 : Multiset Int) = (a : Multiset Int)) := by
  refine ⟨?_, heap_sort_left_spec a cnt, heap_sort_right_spec a cnt, ?_, ?_⟩
  · obtain ⟨p, e, l, m, o, srt⟩ := merge_sort_spec a 0 a.length cnt (by omega) (le_refl _)
    exact ⟨p, e, l, m, srt⟩
  · by_cases hn : a.length = 0
    · have heq : running_sort_left a run cnt = (a, cnt) := by
        unfold running_sort_left
        rw [if_pos hn]
      rw [heq]
      exact ⟨rfl, rfl⟩
    · have heq : (running_sort_left a run cnt).1 =
          (rsl_go a.length run (Cheap.new_left a cnt)).a := by
        unfold running_sort_left
        rw [if_neg hn]
      obtain ⟨d1, d2⟩ := rsl_go_spec a.length run (Cheap.new_left a cnt)
        ⟨le_refl _, le_refl _, show (0 : Nat) ≤ a.length by omega, fun h => h,
          show HeapInvOn a 0 0 0 by intro i g1 g2 g3; omega⟩
        rfl hrun
      rw [heq]
      exact ⟨d1, d2⟩
  · by_cases hn : a.length = 0
    · have heq : running_sort_right a run cnt = (a, cnt) := by
        unfold running_sort_right
        rw [if_pos hn]
      rw [heq]
      exact ⟨rfl, rfl⟩
    · have heq : (running_sort_right a run cnt).1 =
          (rsr_go run (Cheap.new_right a cnt)).a := by
        unfold running_sort_right
        rw [if_neg hn]
      obtain ⟨d1, d2⟩ := rsr_go_spec run (Cheap.new_right a cnt)
        ⟨le_refl _, le_refl _, show a.length ≤ a.length from le_refl _, fun h => h,
          show HeapInvOn a a.length a.length a.length by intro i g1 g2 g3; omega⟩
        hrun
      rw [heq]
      exact ⟨d1, d2⟩

theorem sort_drivers_amended_witness :
    (1 : Nat) ≤ 2 ∧ SortedOn (heap_sort_left [2, 0, 1] (⟨0, 0⟩ : Cnt)).1 0 3 :=
  ⟨by omega, ((sort_drivers_amended [2, 0, 1] 2 ⟨0, 0⟩ (by omega)).2.1).2.2⟩

/-- The window invariant of `running_sort_left`'s loop: every output
slot `k` at or beyond the current `lo` ends up holding the minimum of
the first `min (k+run, n)` input elements not yet emitted before it.
`hphase` captures the loop's ramp-up phase (`lo = 0`, window still
filling) and its steady phase (`hi = min (lo-1+run, n)`). -/
theorem rsl_go_window (a0 : List Int) (run : Nat) (s : Cheap)
    (hrun : 1 ≤ run) (hv : Valid s)
    (hlen : s.a.length = a0.length)
    (hms : (s.a : Multiset Int) = (a0 : Multiset Int))
    (hsuf : ∀ j, s.hi ≤ j → lget s.a j = lget a0 j)
    (hphase : (s.lo = 0 ∧ s.hi < min run a0.length) ∨
      (1 ≤ s.lo ∧ s.hi = min (s.lo - 1 + run) a0.length)) :
    (∀ j, j < s.lo → lget (rsl_go a0.length run s).a j = lget s.a j) ∧
    (∀ k, s.lo ≤ k → k < a0.length →
      ∃ R : Multiset Int,
        msRegion a0 0 (min (k + run) a0.length) =
          msRegion (rsl_go a0.length run s).a 0 k + R ∧
        lget (rsl_go a0.length run s).a k ∈ R ∧
        (∀ v, v ∈ R → lget (rsl_go a0.length run s).a k ≤ v)) := by
  by_cases h : s.lo < a0.length
  · by_cases hpush : s.hi < a0.length
    · obtain ⟨p1, p2, p3, p4, p5, p6, p7⟩ := push_right_spec s hv (by omega)
      by_cases hg : run ≤ s.push_right.hi - s.push_right.lo ∨ s.push_right.hi = a0.length
      · -- push, then pop: slot s.lo is emitted in this iteration
        rw [p2, p4] at hg
        have hph1 : s.push_right.hi = min (s.push_right.lo + run) a0.length := by
          rw [p2, p4]
          rcases hphase with ⟨hA, hB⟩ | ⟨hA, hB⟩ <;> omega
        have hne : s.push_right.lo < s.push_right.hi := by
          rw [p2, p4]
          rcases hv with ⟨g1, g2, g3, g4, g5⟩
          omega
        have hstep : rsl_step a0.length run s = s.push_right.pop_left := by
          simp only [rsl_step, if_pos hpush]
          rw [if_pos (by rw [p2, p4]; exact hg)]
        have heq : rsl_go a0.length run s =
            rsl_go a0.length run s.push_right.pop_left := by
          conv_lhs => unfold rsl_go
          rw [dif_pos h, dif_pos (by
            rw [hstep]
            rcases pop_left_markers s.push_right with ⟨m1, m2⟩
            left
            rw [m1, p2]
            omega)]
          rw [hstep]
        obtain ⟨q1, q2, q3, q4, q5, q6, q7⟩ := pop_left_spec s.push_right p1 hne
        have hsuf1 : ∀ j, s.push_right.hi ≤ j → lget s.push_right.a j = lget a0 j := by
          intro j hj
          rw [p4] at hj
          rw [p7 j (Or.inr (by omega))]
          exact hsuf j (by omega)
        obtain ⟨w1, w2⟩ := rsl_go_window a0 run s.push_right.pop_left hrun q1
          (by rw [q4, p5]; exact hlen)
          (by rw [q5, p6]; exact hms)
          (by
            intro j hj
            rw [q3] at hj
            rw [q6 j (Or.inr (by omega))]
            exact hsuf1 j (by omega))
          (by
            right
            rw [q2, q3, hph1, p2]
            constructor
            · omega
            · omega)
        obtain ⟨e1, e2⟩ := rsl_go_spec a0.length run s.push_right.pop_left q1
          (by rw [q4, p5]; exact hlen) hrun
        rw [heq]
        have hprefa : ∀ j, j < s.lo →
            lget (rsl_go a0.length run s.push_right.pop_left).a j =
              lget s.push_right.a j := by
          intro j hj
          rw [w1 j (by rw [q2, p2]; omega), q6 j (Or.inl (by rw [p2]; omega))]
        constructor
        · intro j hj
          rw [hprefa j hj, p7 j (Or.inl hj)]
        · intro k hk1 hk2
          by_cases hke : k = s.lo
          · subst hke
            have hvb := p1
            have hc1 : s.push_right.lo ≤ s.push_right.c := hvb.1
            have hc2 : s.push_right.c < s.push_right.hi := hvb.2.2.2.1 hne
            have hl1 : s.push_right.a.length = a0.length := by rw [p5]; exact hlen
            have hhib : s.push_right.hi ≤ a0.length := by rw [hph1]; omega
            have hout : lget (rsl_go a0.length run s.push_right.pop_left).a s.lo =
                lget s.push_right.a s.push_right.c := by
              rw [w1 s.lo (by rw [q2, p2]; omega)]
              rw [show s.lo = s.push_right.lo from p2.symm]
              exact q7
            refine ⟨msRegion s.push_right.a s.push_right.lo s.push_right.hi, ?_, ?_, ?_⟩
            · have hmin : min (s.lo + run) a0.length = s.push_right.hi := by
                rw [hph1, p2]
              rw [hmin]
              have hbig : msRegion a0 0 s.push_right.hi =
                  msRegion s.push_right.a 0 s.push_right.hi := by
                apply region_from_global a0 s.push_right.a 0 s.push_right.hi
                  hl1.symm (by omega) hhib
                · rw [p6, hms]
                · intro j hj
                  rcases hj with hj | hj
                  · omega
                  · exact (hsuf1 j hj).symm
              have hsplit : msRegion s.push_right.a 0 s.push_right.hi =
                  msRegion s.push_right.a 0 s.push_right.lo +
                    msRegion s.push_right.a s.push_right.lo s.push_right.hi :=
                msRegion_split _ 0 s.push_right.lo s.push_right.hi (by omega)
                  (by omega) (by rw [hl1]; exact hhib)
              have hpref : msRegion s.push_right.a 0 s.push_right.lo =
                  msRegion (rsl_go a0.length run s.push_right.pop_left).a 0 s.lo := by
                apply msRegion_congr _ _ 0 s.push_right.lo
                  (by rw [hl1, e1, q4, hl1])
                  (by rw [hl1]; omega)
                intro j _ hj
                rw [p2] at hj
                exact (hprefa j hj).symm
              rw [hbig, hsplit, hpref, p2]
            · rw [hout]
              exact (mem_msRegion _ _ _ _ (by rw [hl1]; exact hhib)).mpr
                ⟨s.push_right.c, hc1, hc2, rfl⟩
            · intro v hvmem
              rw [hout]
              obtain ⟨m, hm1, hm2, hm3⟩ :=
                (mem_msRegion _ _ _ _ (by rw [hl1]; exact hhib)).mp hvmem
              rw [← hm3]
              exact valid_root_min s.push_right hvb hne m hm1 hm2
          · exact w2 k (by rw [q2, p2]; omega) hk2
      · -- push only: the window is still filling up
        rw [p2, p4] at hg
        have hphl : s.lo = 0 ∧ s.hi < min run a0.length := by
          rcases hphase with hP | ⟨hA, hB⟩
          · exact hP
          · exfalso
            apply hg
            omega
        have hstep : rsl_step a0.length run s = s.push_right := by
          simp only [rsl_step, if_pos hpush]
          rw [if_neg (by rw [p2, p4]; exact hg)]
        have heq : rsl_go a0.length run s = rsl_go a0.length run s.push_right := by
          conv_lhs => unfold rsl_go
          rw [dif_pos h, dif_pos (by
            rw [hstep]
            right
            exact ⟨p2.symm, by rw [p4]; omega⟩)]
          rw [hstep]
        obtain ⟨w1, w2⟩ := rsl_go_window a0 run s.push_right hrun p1
          (by rw [p5]; exact hlen) (by rw [p6]; exact hms)
          (by
            intro j hj
            rw [p4] at hj
            rw [p7 j (Or.inr (by omega))]
            exact hsuf j (by omega))
          (by
            left
            rw [p2, p4]
            exact ⟨hphl.1, by omega⟩)
        rw [heq]
        constructor
        · intro j hj
          rw [w1 j (by rw [p2]; omega), p7 j (Or.inl hj)]
        · intro k hk1 hk2
          exact w2 k (by rw [p2]; omega) hk2
    · -- the right end was reached: pop only
      have hhieq : s.hi = a0.length := by
        rcases hv with ⟨g1, g2, g3, g4, g5⟩
        omega
      have hne : s.lo < s.hi := by omega
      have hph1 : s.hi = min (s.lo + run) a0.length := by
        rcases hphase with ⟨hA, hB⟩ | ⟨hA, hB⟩ <;> omega
      have hstep : rsl_step a0.length run s = s.pop_left := by
        simp only [rsl_step, if_neg hpush]
        rw [if_pos (Or.inr hhieq)]
      have heq : rsl_go a0.length run s = rsl_go a0.length run s.pop_left := by
        conv_lhs => unfold rsl_go
        rw [dif_pos h, dif_pos (by
          rw [hstep]
          rcases pop_left_markers s with ⟨m1, m2⟩
          left
          rw [m1]
          omega)]
        rw [hstep]
      obtain ⟨q1, q2, q3, q4, q5, q6, q7⟩ := pop_left_spec s hv hne
      obtain ⟨w1, w2⟩ := rsl_go_window a0 run s.pop_left hrun q1
        (by rw [q4]; exact hlen) (by rw [q5]; exact hms)
        (by
          intro j hj
          rw [q3] at hj
          rw [q6 j (Or.inr (by omega))]
          exact hsuf j (by omega))
        (by
          right
          rw [q2, q3]
          constructor
          · omega
          · omega)
      obtain ⟨e1, e2⟩ := rsl_go_spec a0.length run s.pop_left q1
        (by rw [q4]; exact hlen) hrun
      rw [heq]
      have hprefa : ∀ j, j < s.lo →
          lget (rsl_go a0.length run s.pop_left).a j = lget s.a j := by
        intro j hj
        rw [w1 j (by rw [q2]; omega), q6 j (Or.inl hj)]
      constructor
      · exact hprefa
      · intro k hk1 hk2
        by_cases hke : k = s.lo
        · subst hke
          have hc1 : s.lo ≤ s.c := hv.1
          have hc2 : s.c < s.hi := hv.2.2.2.1 hne
          have hout : lget (rsl_go a0.length run s.pop_left).a s.lo = lget s.a s.c := by
            rw [w1 s.lo (by rw [q2]; omega)]
            exact q7
          refine ⟨msRegion s.a s.lo s.hi, ?_, ?_, ?_⟩
          · have hmin : min (s.lo + run) a0.length = s.hi := by rw [hph1]
            rw [hmin]
            have hbig : msRegion a0 0 s.hi = msRegion s.a 0 s.hi := by
              apply region_from_global a0 s.a 0 s.hi hlen.symm (by omega) (by omega)
              · rw [hms]
              · intro j hj
                rcases hj with hj | hj
                · omega
                · exact (hsuf j hj).symm
            have hsplit : msRegion s.a 0 s.hi =
                msRegion s.a 0 s.lo + msRegion s.a s.lo s.hi :=
              msRegion_split _ 0 s.lo s.hi (by omega) (by omega) (by omega)
            have hpref : msRegion s.a 0 s.lo =
                msRegion (rsl_go a0.length run s.pop_left).a 0 s.lo := by
              apply msRegion_congr _ _ 0 s.lo (by rw [e1, q4]) (by omega)
              intro j _ hj
              exact (hprefa j hj).symm
            rw [hbig, hsplit, hpref]
          · rw [hout]
            exact (mem_msRegion _ _ _ _ (by omega)).mpr ⟨s.c, hc1, hc2, rfl⟩
          · intro v hvmem
            rw [hout]
            obtain ⟨m, hm1, hm2, hm3⟩ := (mem_msRegion _ _ _ _ (by omega)).mp hvmem
            rw [← hm3]
            exact valid_root_min s hv hne m hm1 hm2
        · exact w2 k (by rw [q2]; omega) hk2
  · have heq : rsl_go a0.length run s = s := by
      unfold rsl_go
      rw [dif_neg h]
    rw [heq]
    exact ⟨fun j _ => rfl, fun k hk1 hk2 => absurd hk1 (by omega)⟩
termination_by (a0.length - s.lo, a0.length - s.hi)
decreasing_by
  · rcases pop_left_markers s.push_right with ⟨m1, m2⟩
    rcases push_right_markers s with ⟨n1, n2⟩
    exact Prod.Lex.left _ _ (by omega)
  · rcases push_right_markers s with ⟨n1, n2⟩
    have he2 : a0.length - s.push_right.lo = a0.length - s.lo := by
      rw [n1]
    rw [he2]
    exact Prod.Lex.right _ (by omega)
  · rcases pop_left_markers s with ⟨m1, m2⟩
    exact Prod.Lex.left _ _ (by omega)

/-- C6 (amended): after `running_sort_left(a, run)` with `run ≥ 1`,
the value at each output index `k < n` is the minimum of the first
`min (k + run, n)` input elements that were not emitted into output
slots `0..k`: the emitted window loses elements as they are output, so
the plain window minimum `min(input[k .. k+run))` of the original
claim does not hold (`[1,0,9,2]` with `run = 2` yields output `1` at
index 1 while `min(input[1..3)) = 0`). -/
theorem running_sort_left_window_min_amended (a : List Int) (run : Nat) (cnt : Cnt)
    (hrun : 1 ≤ run) (k : Nat) (hk : k < a.length) :
    ∃ R : Multiset Int,
      msRegion a 0 (min (k + run) a.length) =
        msRegion (running_sort_left a run cnt).1 0 k + R ∧
      lget (running_sort_left a run cnt).1 k ∈ R ∧
      (∀ v, v ∈ R → lget (running_sort_left a run cnt).1 k ≤ v) := by
  have hn : ¬ a.length = 0 := by omega
  have heq : (running_sort_left a run cnt).1 =
      (rsl_go a.length run (Cheap.new_left a cnt)).a := by
    unfold running_sort_left
    rw [if_neg hn]
  obtain ⟨w1, w2⟩ := rsl_go_window a run (Cheap.new_left a cnt) hrun
    ⟨le_refl _, le_refl _, show (0 : Nat) ≤ a.length by omega, fun h => h,
      show HeapInvOn a 0 0 0 by intro i g1 g2 g3; omega⟩
    rfl rfl (fun j _ => rfl)
    (Or.inl ⟨rfl, show (0 : Nat) < min run a.length by omega⟩)
  rw [heq]
  exact w2 k (Nat.zero_le k) hk

theorem running_sort_left_window_min_amended_witness :
    (1 : Nat) ≤ 2 ∧ (1 : Nat) < ([1, 0, 9, 2] : List Int).length ∧
    (∃ R : Multiset Int,
      msRegion [1, 0, 9, 2] 0 (min (1 + 2) ([1, 0, 9, 2] : List Int).length) =
        msRegion (running_sort_left [1, 0, 9, 2] 2 ⟨0, 0⟩).1 0 1 + R ∧
      lget (running_sort_left [1, 0, 9, 2] 2 ⟨0, 0⟩).1 1 ∈ R ∧
      (∀ v, v ∈ R → lget (running_sort_left [1, 0, 9, 2] 2 ⟨0, 0⟩).1 1 ≤ v)) :=
  ⟨by omega, by decide,
    running_sort_left_window_min_amended [1, 0, 9, 2] 2 ⟨0, 0⟩ (by omega) 1 (by decide)⟩
